import Mathlib

/-!
# Row-band image filters: a verification development

Shallow embedding of the filter programs of the repository

* `MMF-thread.c`  (median filter, pthread workers)      : namespace `MMFThread`
* `DDF-thread.c`  (diffusion filter, pthread workers)   : namespace `DDFThread`
* `DDF.c`         (3x3 kernel of the scatter/gather program) : namespace `DDFC`
* `MMF.c`         (`find_median` and `apply_mmf_section` of the scatter/gather program) :
  namespace `MMFC`
* `MMF.c`, `DDF.c` (the scatter and the gather of `main`)  : `section_size`, `MPI_Scatter`,
  `MPI_Gather`
* `MMF.cpp`, `DDF.cpp` (row ranges and `main` of the send/receive programs) : namespaces
  `DDFCpp`, `MMFCpp`

Conventions of the embedding.

* A sample buffer (`unsigned char *`) is a `List Nat`; a sample is a natural number and
  the theorems that depend on the 8-bit range carry the hypothesis that every sample is
  below 256.  A read `buf[i]` is `buf.getD i 0`, a write `buf[i] = v` is `buf.set i v`.
* C `int` values that are never negative in the programs (sizes, rows, indices of stored
  samples) are `Nat`; window offsets, which are negative, are `Int`.  No `int` overflow is
  modelled: image sizes are assumed to be within the range of `int`.
* `for (int i = lo; i < hi; i++) body` is a left fold over `List.range' lo (hi - lo)`.
* The worker threads of one program read the immutable input buffer (and a private copy
  of it) and read and write only their own rows of the output buffer, so the program is
  modelled as the workers run one after the other in thread-creation order on the shared
  output buffer.
* A computation whose behaviour C leaves undefined is `none`.  On a well-formed image
  (buffers of `width * height * channels` samples, bands inside the image) every access to
  the input, output and `temp` buffers is in range; the accesses that can go wrong there
  are the writes `window[count++]` into the `window_size * window_size` bytes of the median
  window and the conversion of a `double` to `unsigned char`, and these two are modelled.
* A `float` or `double` operation is the exact operation followed by rounding to nearest,
  ties to even, in binary32 or binary64 (`round32`, `round64`), with underflow to
  subnormal numbers and zero and overflow to an infinity; NaN is `none`.
* The kernels of `MMF.c` and `DDF.c` are called by `main` on a section of the image; the
  sample indices of their loads and stores are collected, over the loops of the kernels,
  by `input_indices` and `output_indices`.
* `main` is a function of the argument count and of the results of the codec calls (load
  and write of the image file); it returns the exit code and the list of the events that
  precede the exit.
-/

/-! ## Loops and buffers -/

/-- The C loop `for (int i = lo; i < hi; i++) s = body i s`. -/
def forLoop {σ : Type} (lo hi : Nat) (body : Nat → σ → σ) (s : σ) : σ :=
  (List.range' lo (hi - lo)).foldl (fun acc i => body i acc) s

/-- The C loop `for (int k = -pad; k <= pad; k++) s = body k s` over signed offsets. -/
def forOffsets {σ : Type} (pad : Nat) (body : Int → σ → σ) (s : σ) : σ :=
  (List.range (2 * pad + 1)).foldl (fun acc (j : Nat) => body ((j : Int) - (pad : Int)) acc) s

/-! ## The row partition shared by `parallel_median_filter` and `parallel_ddf_filter` -/

/-- The value `rows_per_thread = height / num_nodes` (`MMF-thread.c:70`, `DDF-thread.c:91`). -/
def rows_per_thread (height num_nodes : Nat) : Nat := height / num_nodes

/-- The field `params[i].start_row = i * rows_per_thread`. -/
def start_row (height num_nodes i : Nat) : Nat := i * rows_per_thread height num_nodes

/-- The field `params[i].end_row = (i == num_nodes - 1) ? height : (i + 1) * rows_per_thread`. -/
def end_row (height num_nodes i : Nat) : Nat :=
  if i = num_nodes - 1 then height else (i + 1) * rows_per_thread height num_nodes


/-! ## `MMF-thread.c`: the median filter -/

namespace MMFThread

/-- The struct `FilterParams` of `MMF-thread.c`; the shared `output` pointer is the state
threaded through the workers. -/
structure FilterParams where
  input : List Nat
  width : Nat
  height : Nat
  channels : Nat
  window_size : Nat
  start_row : Nat
  end_row : Nat

/-- The comparator `compare` handed to `qsort`: the difference of the two samples. -/
def compare (a b : Nat) : Int := (a : Int) - (b : Int)

/-- The call `qsort(window, count, sizeof(unsigned char), compare)`: the library routine
puts the first `count` bytes in the order of the comparator (`a` before `b` when
`compare a b ≤ 0`); insertion sort is the executable stand-in. -/
def qsort (window : List Nat) : List Nat :=
  window.insertionSort (fun a b => compare a b ≤ 0)

/-- The two innermost loops of `apply_median_filter_section` (lines 37-48): the samples
stored by `window[count++] = input[(ny * width + nx) * channels + c]`, in the order they
are stored; `count` is the length of the result. -/
def gather_window (p : FilterParams) (x y c : Nat) : List Nat :=
  let pad := p.window_size / 2
  forOffsets pad (fun ky window =>
    forOffsets pad (fun kx window =>
      let nx : Int := (x : Int) + kx
      let ny : Int := (y : Int) + ky
      if nx ≥ 0 ∧ nx < (p.width : Int) ∧ ny ≥ 0 ∧ ny < (p.height : Int) then
        window ++ [p.input.getD (((ny * p.width + nx) * p.channels + c).toNat) 0]
      else window) window) []

/-- The body of the loop over `c` (lines 37-51) for one pixel and channel.  The array
`window` holds `window_area = window_size * window_size` bytes, so the writes
`window[count++]` stay inside it exactly when the final `count` is at most `window_area`;
otherwise the behaviour is undefined. -/
def median_pixel (p : FilterParams) (x y c : Nat) (output : List Nat) : Option (List Nat) :=
  let window_area := p.window_size * p.window_size
  let window := gather_window p x y c
  let count := window.length
  if count ≤ window_area then
    some (output.set ((y * p.width + x) * p.channels + c) ((qsort window).getD (count / 2) 0))
  else none

/-- The function `apply_median_filter_section` (lines 28-56). -/
def apply_median_filter_section (p : FilterParams) (output : List Nat) : Option (List Nat) :=
  forLoop p.start_row p.end_row (fun y acc =>
    forLoop 0 p.width (fun x acc =>
      forLoop 0 p.channels (fun c acc => acc.bind (median_pixel p x y c)) acc) acc)
    (some output)

/-- The parameters `params[i]` built by `parallel_median_filter` (lines 72-79). -/
def worker_params (input : List Nat) (width height channels window_size num_nodes i : Nat) :
    FilterParams :=
  { input := input, width := width, height := height, channels := channels,
    window_size := window_size,
    start_row := start_row height num_nodes i,
    end_row := end_row height num_nodes i }

/-- The function `parallel_median_filter` (lines 66-88): worker `i` runs
`apply_median_filter_section` on `params[i]`. -/
def parallel_median_filter (input output : List Nat)
    (width height channels window_size num_nodes : Nat) : Option (List Nat) :=
  forLoop 0 num_nodes (fun i acc =>
    acc.bind (apply_median_filter_section
      (worker_params input width height channels window_size num_nodes i)))
    (some output)

/-- The parameters of a single worker whose band is the whole image, rows `[0, height)`. -/
def single_params (input : List Nat) (width height channels window_size : Nat) :
    FilterParams :=
  { input := input, width := width, height := height, channels := channels,
    window_size := window_size, start_row := 0, end_row := height }

/-- The 4x4 single-channel checkerboard of 10 and 200. -/
def checkerboard : List Nat :=
  [10, 200, 10, 200, 200, 10, 200, 10, 10, 200, 10, 200, 200, 10, 200, 10]

end MMFThread

/-! ## Binary floating-point arithmetic -/

/-- The loop of `floor_log2`, with `fuel` steps. -/
def floor_log2_loop : Nat → Nat → Nat
  | 0, _ => 0
  | fuel + 1, n => if 2 ≤ n then floor_log2_loop fuel (n / 2) + 1 else 0

/-- The position of the leading binary digit of `n ≥ 1`: the `k` with `2^k ≤ n < 2^(k+1)`. -/
def floor_log2 (n : Nat) : Nat := floor_log2_loop n n

/-- The power `2^e` of a (possibly negative) integer exponent. -/
def pow2 (e : Int) : ℚ :=
  if 0 ≤ e then ((2 ^ e.toNat : Nat) : ℚ) else 1 / ((2 ^ (-e).toNat : Nat) : ℚ)

/-- The binary exponent of `x > 0`: the `e` with `2^e ≤ x < 2^(e+1)`. -/
def ilog2 (x : ℚ) : Int :=
  let e : Int := (floor_log2 x.num.natAbs : Int) - (floor_log2 x.den : Int)
  if pow2 e ≤ x then e else e - 1

/-- Rounding to the nearest integer, ties to the even one. -/
def round_half_even (x : ℚ) : Int :=
  let n : Int := ⌊x⌋
  if x - n < 1 / 2 then n else if 1 / 2 < x - n then n + 1 else if n % 2 = 0 then n else n + 1

/-- Rounding to nearest, ties to even, in the binary format with `prec` significand bits
and least normal exponent `emin`, with no bound on the exponent from above: the result is
the multiple of the unit in the last place of `x` that is nearest to `x`. -/
def round_to (prec : Nat) (emin : Int) (x : ℚ) : ℚ :=
  if x = 0 then 0 else
    let e := max (ilog2 |x|) emin
    let ulp := pow2 (e - ((prec : Int) - 1))
    (round_half_even (x / ulp) : ℚ) * ulp

/-- Rounding to binary32 (`float`); a result above `FLT_MAX` in magnitude stands for an
infinity. -/
def round32 (x : ℚ) : ℚ := round_to 24 (-126) x

/-- Rounding to binary64 (`double`). -/
def round64 (x : ℚ) : ℚ := round_to 53 (-1022) x

/-- The largest finite `float`. -/
def FLT_MAX : ℚ := (2 ^ 24 - 1) * 2 ^ 104

/-! ## `DDF-thread.c`: the diffusion filter

`float` and `double` arithmetic is binary32 and binary64 arithmetic with rounding to
nearest, ties to even (`round32`, `round64`), and every operation is evaluated in the type
of its operands (`FLT_EVAL_METHOD` is 0 and a product is not contracted with a sum).  A
finite value is a rational number and NaN is `none`; an infinity occurs only inside
`conductance`, as a rounded value above `FLT_MAX` in magnitude.  The sign of a zero is not
represented: the only divisor is `lambda * lambda`, whose zero is positive.  The C library
function `expf` is a parameter of the model; it is applied to finite arguments only.  The
value of `lambda` is a finite `float`. -/

namespace DDFThread

/-- The struct `FilterParams` of `DDF-thread.c`; the shared `output` pointer is the state
threaded through the workers. -/
structure FilterParams where
  input : List Nat
  width : Nat
  height : Nat
  channels : Nat
  start_row : Nat
  end_row : Nat
  iterations : Nat
  lambda : ℚ

/-- The function `conductance` (lines 25-27), `expf(- (gradient * gradient) / (lambda *
lambda))`, on finite arguments.  The two products and the quotient are `float` operations.
A product above `FLT_MAX` is plus infinity.  When `lambda * lambda` is infinite the
quotient of a finite numerator is zero, and it is NaN for an infinite one; when
`lambda * lambda` is zero (for `lambda = 0`, and for every `lambda` whose square is below
half of the least positive `float`) the quotient is `0 / 0 = NaN` for a zero numerator and
minus infinity otherwise; `expf` of minus infinity is `0` and `expf` of NaN is NaN. -/
def conductance (expf : ℚ → ℚ) (gradient lambda : ℚ) : Option ℚ :=
  let gg := round32 (gradient * gradient)
  let ll := round32 (lambda * lambda)
  if gg > FLT_MAX then
    if ll > FLT_MAX then none else some 0
  else if ll > FLT_MAX then some (expf 0)
  else if ll = 0 then
    if gg = 0 then none else some 0
  else
    let t := round32 (-gg / ll)
    if t < -FLT_MAX then some 0 else some (expf t)

/-- A directional difference of lines 56-59, `cond ? (temp[neighbour] - temp[idx]) : 0.0f`:
the `int` difference of the two samples converted to `float`, or zero. -/
def delta (cond : Prop) [Decidable cond] (neighbour centre : Nat) : ℚ :=
  if cond then (((neighbour : Int) - (centre : Int) : Int) : ℚ) else 0

/-- The right-hand side of line 68 for one pixel and channel (lines 49-68):
`temp[idx] + 0.25 * (cN * deltaN + cS * deltaS + cE * deltaE + cW * deltaW)`; it is NaN
when one of the conductances is.  The four products and their sum, from left to right, are
`float` operations; the product with the `double` constant `0.25` and the sum with
`temp[idx]` are `double` operations.  With conductances in `[0, 1]` and differences of
bytes no operation overflows. -/
def ddf_value (expf : ℚ → ℚ) (lambda : ℚ) (width height channels : Nat) (temp : List Nat)
    (x y c : Nat) : Option ℚ :=
  let idx := (y * width + x) * channels + c
  let up := ((y - 1) * width + x) * channels + c
  let down := ((y + 1) * width + x) * channels + c
  let left := (y * width + (x - 1)) * channels + c
  let right := (y * width + (x + 1)) * channels + c
  let deltaN := delta (y > 0) (temp.getD up 0) (temp.getD idx 0)
  let deltaS := delta ((y : Int) < (height : Int) - 1) (temp.getD down 0) (temp.getD idx 0)
  let deltaE := delta ((x : Int) < (width : Int) - 1) (temp.getD right 0) (temp.getD idx 0)
  let deltaW := delta (x > 0) (temp.getD left 0) (temp.getD idx 0)
  (conductance expf deltaN lambda).bind fun cN =>
  (conductance expf deltaS lambda).bind fun cS =>
  (conductance expf deltaE lambda).bind fun cE =>
  (conductance expf deltaW lambda).bind fun cW =>
  let sum := round32 (round32 (round32 (round32 (cN * deltaN) + round32 (cS * deltaS)) +
    round32 (cE * deltaE)) + round32 (cW * deltaW))
  some (round64 ((temp.getD idx 0 : ℚ) + round64 ((1 / 4) * sum)))

/-- Conversion of a finite `double` to `unsigned char` (the store of line 68): the value is
truncated toward zero, and the behaviour is undefined when the truncated value is not in
`0 .. 255`. -/
def to_uchar (v : ℚ) : Option Nat :=
  let t : Int := if 0 ≤ v then ⌊v⌋ else ⌈v⌉
  if 0 ≤ t ∧ t ≤ 255 then some t.toNat else none

/-- The sample that line 68 stores for one pixel and channel; `none` when the value is NaN
or does not convert. -/
def ddf_store (expf : ℚ → ℚ) (lambda : ℚ) (width height channels : Nat) (temp : List Nat)
    (x y c : Nat) : Option Nat :=
  (ddf_value expf lambda width height channels temp x y c).bind to_uchar

/-- The body of the loop over `c` (lines 49-68): `output[idx] = ...`. -/
def ddf_pixel (expf : ℚ → ℚ) (p : FilterParams) (temp : List Nat) (x y c : Nat)
    (output : List Nat) : Option (List Nat) :=
  (ddf_store expf p.lambda p.width p.height p.channels temp x y c).map
    (fun b => output.set ((y * p.width + x) * p.channels + c) b)

/-- One round of `apply_ddf_section`: the loops over `y`, `x` and `c` (lines 46-71). -/
def ddf_round (expf : ℚ → ℚ) (p : FilterParams) (temp output : List Nat) :
    Option (List Nat) :=
  forLoop p.start_row p.end_row (fun y acc =>
    forLoop 0 p.width (fun x acc =>
      forLoop 0 p.channels (fun c acc => acc.bind (ddf_pixel expf p temp x y c)) acc) acc)
    (some output)

/-- The call `memcpy(dst + offset, src + offset, n)`. -/
def memcpy_at (dst src : List Nat) (offset n : Nat) : List Nat :=
  forLoop offset (offset + n) (fun i d => d.set i (src.getD i 0)) dst

/-- The buffer `temp` after lines 40-41: `width * height * channels` bytes copied from
`input`. -/
def temp_init (p : FilterParams) : List Nat :=
  (List.range (p.width * p.height * p.channels)).map (fun i => p.input.getD i 0)

/-- One pass of the loop over `iter` (lines 44-74) on the pair `(temp, output)`: a round,
then the worker's rows of `output` are copied back into `temp` (line 73). -/
def ddf_iteration (expf : ℚ → ℚ) (p : FilterParams)
    (st : Option (List Nat × List Nat)) : Option (List Nat × List Nat) :=
  st.bind fun s =>
    (ddf_round expf p s.1 s.2).map fun out =>
      (memcpy_at s.1 out (p.start_row * p.width * p.channels)
        ((p.end_row - p.start_row) * p.width * p.channels), out)

/-- The function `apply_ddf_section` (lines 30-77). -/
def apply_ddf_section (expf : ℚ → ℚ) (p : FilterParams) (output : List Nat) :
    Option (List Nat) :=
  (forLoop 0 p.iterations (fun _ st => ddf_iteration expf p st)
    (some (temp_init p, output))).map Prod.snd

/-- The parameters `params[i]` built by `parallel_ddf_filter` (lines 93-101). -/
def worker_params (input : List Nat) (width height channels iterations : Nat) (lambda : ℚ)
    (num_nodes i : Nat) : FilterParams :=
  { input := input, width := width, height := height, channels := channels,
    start_row := start_row height num_nodes i,
    end_row := end_row height num_nodes i,
    iterations := iterations, lambda := lambda }

/-- The function `parallel_ddf_filter` (lines 87-110): worker `i` runs `apply_ddf_section`
on `params[i]`. -/
def parallel_ddf_filter (expf : ℚ → ℚ) (input output : List Nat)
    (width height channels iterations : Nat) (lambda : ℚ) (num_nodes : Nat) :
    Option (List Nat) :=
  forLoop 0 num_nodes (fun i acc =>
    acc.bind (apply_ddf_section expf
      (worker_params input width height channels iterations lambda num_nodes i)))
    (some output)

/-- The parameters of a single worker whose band is the whole image, rows `[0, height)`. -/
def single_params (input : List Nat) (width height channels iterations : Nat) (lambda : ℚ) :
    FilterParams :=
  { input := input, width := width, height := height, channels := channels,
    start_row := 0, end_row := height, iterations := iterations, lambda := lambda }

/-- The values of `expf` on the arguments that occur when `lambda` is `1e9`: for
`-2^-25 ≤ t ≤ 0` the binary32 result of `expf t` is `1.0f`.  Other arguments do not occur
in the evaluations that use this function; the value `0` stands there. -/
def expf_near_zero (t : ℚ) : ℚ := if -(1 / 2 ^ 25) ≤ t ∧ t ≤ 0 then 1 else 0

end DDFThread

/-! ## `DDF.c`: the kernel of the scatter/gather diffusion program -/

namespace DDFC

/-- The table `weights` (lines 13-17). -/
def weights : List (List Int) := [[-1, -1, -1], [-1, 8, -1], [-1, -1, -1]]

/-- The entry `weights[ky + kernel_half][kx + kernel_half]` with `kernel_half = 1`. -/
def weight (ky kx : Int) : Int := (weights.getD (ky + 1).toNat []).getD (kx + 1).toNat 0

/-- The two innermost loops (lines 22-31): the value of `sum` for one pixel and channel. -/
def kernel_sum (input : List Nat) (width height channels x y c : Nat) : Int :=
  let kernel_size := 3
  let kernel_half := kernel_size / 2
  forOffsets kernel_half (fun ky sum =>
    forOffsets kernel_half (fun kx sum =>
      let nx : Int := (x : Int) + kx
      let ny : Int := (y : Int) + ky
      if nx ≥ 0 ∧ ny ≥ 0 ∧ nx < (width : Int) ∧ ny < (height : Int) then
        sum + (input.getD (((ny * width + nx) * channels + c).toNat) 0 : Int) * weight ky kx
      else sum) sum) 0

/-- The stored byte `(unsigned char)(sum > 255 ? 255 : (sum < 0 ? 0 : sum))` (line 32). -/
def clamp (sum : Int) : Nat := (if sum > 255 then 255 else (if sum < 0 then 0 else sum)).toNat

/-- The function `apply_ddf_section` of `DDF.c` (lines 10-36). -/
def apply_ddf_section (input output : List Nat) (width height channels : Nat) : List Nat :=
  forLoop 0 height (fun y out =>
    forLoop 0 width (fun x out =>
      forLoop 0 channels (fun c out =>
        out.set ((y * width + x) * channels + c)
          (clamp (kernel_sum input width height channels x y c))) out) out) output

/-- The number of positions of the 3x3 window of pixel `(x, y)` that lie inside the
`W x H` image. -/
def window_count (W H x y : Nat) : Nat :=
  ((if 0 < x then 1 else 0) + 1 + (if x + 1 < W then 1 else 0)) *
    ((if 0 < y then 1 else 0) + 1 + (if y + 1 < H then 1 else 0))

end DDFC

/-! ## `MMF.c`: the median of the scatter/gather median program -/

namespace MMFC

/-- The body of the inner loop of `find_median` (lines 13-17): swap `window[i]` and
`window[j]` when `window[i] > window[j]`. -/
def swap_step (window : List Nat) (i j : Nat) : List Nat :=
  if window.getD i 0 > window.getD j 0 then
    let temp := window.getD i 0
    (window.set i (window.getD j 0)).set j temp
  else window

/-- The two loops of `find_median` (lines 11-19): the array after the exchange sort. -/
def exchange_sort (window : List Nat) (size : Nat) : List Nat :=
  forLoop 0 (size - 1) (fun i w => forLoop (i + 1) size (fun j w => swap_step w i j) w) window

/-- The function `find_median` of `MMF.c` (lines 10-21): the array as it is left, and the
returned value `window[size / 2]`. -/
def find_median (window : List Nat) (size : Nat) : List Nat × Nat :=
  (exchange_sort window size, (exchange_sort window size).getD (size / 2) 0)

end MMFC

/-! ## `MMF.c` and `DDF.c`: the scatter and the gather of `main` -/

/-- The value `section_size = total_size / size` with
`total_size = width * height * channels` (`MMF.c:78-79`, `DDF.c:68-69`). -/
def section_size (width height channels size : Nat) : Nat := (width * height * channels) / size

/-- The call `MPI_Scatter(image, section_size, ..., input_section, section_size, ..., 0, ...)`
as seen by process `rank`: it receives the `sendcount` bytes at offset `rank * sendcount`
of the root's buffer. -/
def MPI_Scatter (sendbuf : List Nat) (sendcount rank : Nat) : List Nat :=
  (List.range sendcount).map (fun j => sendbuf.getD (rank * sendcount + j) 0)

/-- The call `MPI_Gather(output_section, section_size, ..., image, section_size, ..., 0, ...)`
at the root: the `count` bytes sent by process `r` are stored at offset `r * count` of the
receive buffer, for `r = 0 .. size - 1`. -/
def MPI_Gather (sendbufs : Nat → List Nat) (count size : Nat) (recvbuf : List Nat) : List Nat :=
  forLoop 0 size (fun r buf =>
    forLoop 0 count (fun j buf => buf.set (r * count + j) ((sendbufs r).getD j 0)) buf) recvbuf

/-! ## `MMF.cpp` and `DDF.cpp`: the send/receive programs -/

namespace DDFCpp

/-- The variable `rows_per_node` of process `rank` after lines 81-100 of `DDF.cpp`
(`MMF.cpp:57-76`): `total_rows / size`, plus `extra_rows` on the last process. -/
def rows_per_node (total_rows size rank : Nat) : Nat :=
  total_rows / size + (if rank = size - 1 then total_rows % size else 0)

/-- The variable `extra_rows = total_rows % size` (line 97). -/
def extra_rows (total_rows size : Nat) : Nat := total_rows % size

/-- The first row sent to process `i` by the master (line 109):
`start = i * rows_per_node - (i > 0 ? extra_rows : 0)`, with the master's
`rows_per_node`. -/
def start (total_rows size i : Nat) : Int :=
  (i : Int) * (rows_per_node total_rows size 0 : Int) -
    (if i > 0 then (extra_rows total_rows size : Int) else 0)

/-- The number of rows sent to process `i` (line 110):
`rows = (i == size - 1) ? (rows_per_node + extra_rows) : rows_per_node`. -/
def rows (total_rows size i : Nat) : Nat :=
  if i = size - 1 then rows_per_node total_rows size 0 + extra_rows total_rows size
  else rows_per_node total_rows size 0

/-- Row `y` is in the range of process `i`: the master keeps `[0, rows_per_node)`
(line 115), process `i ≥ 1` is sent `[start, start + rows)` (line 111). -/
def in_range (total_rows size i : Nat) (y : Int) : Prop :=
  if i = 0 then 0 ≤ y ∧ y < (rows_per_node total_rows size 0 : Int)
  else start total_rows size i ≤ y ∧ y < start total_rows size i + (rows total_rows size i : Int)

instance (total_rows size i : Nat) (y : Int) : Decidable (in_range total_rows size i y) := by
  unfold in_range
  exact inferInstance

end DDFCpp

/-! ## The function `main` of the programs -/

/-- An image as `stbi_load` or `imread` returns it: the samples and the dimensions. -/
structure Image where
  data : List Nat
  width : Nat
  height : Nat
  channels : Nat

/-- What a call of `main` does, in the order of the program text. -/
inductive Event where
  /-- The usage message is printed. -/
  | usage : Event
  /-- The image file is read (`stbi_load`, `imread`). -/
  | load : Event
  /-- The workers run; `result` is the output buffer they leave, `none` when the behaviour
  of a worker is undefined. -/
  | workers (result : Option (List Nat)) : Event
  /-- The image file is written (`stbi_write_png`, `imwrite`). -/
  | save : Event
  /-- The call `MPI_Abort(MPI_COMM_WORLD, -1)`. -/
  | abort : Event
  deriving DecidableEq

/-- A run of `main`: the exit code and the events that precede the exit. -/
structure Run where
  exit_code : Int
  events : List Event
  deriving DecidableEq

/-- The function `main` of `DDF-thread.c` (lines 112-146).  `argc` is the argument count,
`stbi_load` the result of loading `argv[1]` (`none`: the null pointer), `iterations`,
`lambda` and `num_nodes` the values parsed from `argv[3..5]`, `output` the contents of the
buffer returned by `malloc`, `stbi_write_png` whether writing `argv[2]` succeeds.  The
model is that of the program for `num_nodes ≥ 1`: with `num_nodes = 0` the division
`height / num_nodes` of the filter is undefined, which is not represented. -/
def DDFThread.main (expf : ℚ → ℚ) (argc : Nat) (stbi_load : Option Image)
    (iterations : Nat) (lambda : ℚ) (num_nodes : Nat) (output : List Nat)
    (stbi_write_png : Bool) : Run :=
  if argc ≠ 6 then ⟨1, [Event.usage]⟩
  else
    match stbi_load with
    | none => ⟨1, [Event.load]⟩
    | some image =>
      let result := DDFThread.parallel_ddf_filter expf image.data output image.width
        image.height image.channels iterations lambda num_nodes
      if ¬ stbi_write_png then ⟨1, [Event.load, Event.workers result, Event.save]⟩
      else ⟨0, [Event.load, Event.workers result, Event.save]⟩

/-- The function `main` of `MMF-thread.c` (lines 90-123), with the parameters of
`DDFThread.main`; `window_size` and `num_nodes` are parsed from `argv[3..4]`.  As there,
the model is that of the program for `num_nodes ≥ 1`. -/
def MMFThread.main (argc : Nat) (stbi_load : Option Image) (window_size num_nodes : Nat)
    (output : List Nat) (stbi_write_png : Bool) : Run :=
  if argc ≠ 5 then ⟨1, [Event.usage]⟩
  else
    match stbi_load with
    | none => ⟨1, [Event.load]⟩
    | some image =>
      let result := MMFThread.parallel_median_filter image.data output image.width
        image.height image.channels window_size num_nodes
      if ¬ stbi_write_png then ⟨1, [Event.load, Event.workers result, Event.save]⟩
      else ⟨0, [Event.load, Event.workers result, Event.save]⟩

/-- The function `main` of `DDF.cpp` (lines 45-152) as process 0 runs it.  `imread` is the
result of reading the image (`none`: an empty matrix), `filtered` the image assembled from
the filtered parts, `imwrite` whether writing the image succeeds: the value that `imwrite`
returns is discarded (line 143). -/
def DDFCpp.main (argc : Nat) (imread : Option Image) (filtered : Option (List Nat))
    (imwrite : Bool) : Run :=
  if argc ≠ 5 then ⟨-1, [Event.usage]⟩
  else
    match imread with
    | none => ⟨-1, [Event.load, Event.abort]⟩
    | some _ =>
      let _ := imwrite
      ⟨0, [Event.load, Event.workers filtered, Event.save]⟩

/-- The function `main` of `MMF.cpp` (lines 23-126) as process 0 runs it, with the
parameters of `DDFCpp.main`. -/
def MMFCpp.main (argc : Nat) (imread : Option Image) (filtered : Option (List Nat))
    (imwrite : Bool) : Run :=
  if argc ≠ 4 then ⟨-1, [Event.usage]⟩
  else
    match imread with
    | none => ⟨-1, [Event.load, Event.abort]⟩
    | some _ =>
      let _ := imwrite
      ⟨0, [Event.load, Event.workers filtered, Event.save]⟩

/-! ## `MMF.c`: the kernel of the scatter/gather median program -/

namespace MMFC

/-- The two innermost loops of `apply_mmf_section` (lines 33-41): the samples stored by
`window[count++] = input[(ny * width + nx) * channels + c]`, in the order they are stored;
`count` is the length of the result. -/
def gather_window (input : List Nat) (width height channels x y c : Nat) : List Nat :=
  let window_size := 3
  let window_half := window_size / 2
  forOffsets window_half (fun wy window =>
    forOffsets window_half (fun wx window =>
      let ny : Int := (y : Int) + wy
      let nx : Int := (x : Int) + wx
      if ny ≥ 0 ∧ ny < (height : Int) ∧ nx ≥ 0 ∧ nx < (width : Int) then
        window ++ [input.getD (((ny * width + nx) * channels + c).toNat) 0]
      else window) window) []

/-- The body of the loop over `c` (lines 32-43) for one pixel and channel.  The array
`window` has `window_size * window_size` bytes; the writes `window[count++]` stay inside
it when the final `count` is at most that, and the behaviour is undefined otherwise. -/
def mmf_pixel (input : List Nat) (width height channels x y c : Nat) (output : List Nat) :
    Option (List Nat) :=
  let window_size := 3
  let window := gather_window input width height channels x y c
  let count := window.length
  if count ≤ window_size * window_size then
    some (output.set ((y * width + x) * channels + c) (find_median window count).2)
  else none

/-- The function `apply_mmf_section` of `MMF.c` (lines 24-46). -/
def apply_mmf_section (input output : List Nat) (width height channels : Nat) :
    Option (List Nat) :=
  forLoop 0 height (fun y acc =>
    forLoop 0 width (fun x acc =>
      forLoop 0 channels (fun c acc =>
        acc.bind (mmf_pixel input width height channels x y c)) acc) acc)
    (some output)

end MMFC

/-! ## `MMF.c` and `DDF.c`: the sample indices the kernels access -/

/-- The indices of the loads `input[(ny * width + nx) * channels + c]` of
`apply_mmf_section` (`MMF.c:38`), in program order. -/
def MMFC.input_indices (width height channels : Nat) : List Nat :=
  let window_size := 3
  let window_half := window_size / 2
  forLoop 0 height (fun y acc =>
    forLoop 0 width (fun x acc =>
      forLoop 0 channels (fun c acc =>
        forOffsets window_half (fun wy acc =>
          forOffsets window_half (fun wx acc =>
            let ny : Int := (y : Int) + wy
            let nx : Int := (x : Int) + wx
            if ny ≥ 0 ∧ ny < (height : Int) ∧ nx ≥ 0 ∧ nx < (width : Int) then
              acc ++ [((ny * width + nx) * channels + c).toNat]
            else acc) acc) acc) acc) acc) []

/-- The indices of the stores `output[(y * width + x) * channels + c] = ...` of
`apply_mmf_section` (`MMF.c:43`), in program order. -/
def MMFC.output_indices (width height channels : Nat) : List Nat :=
  forLoop 0 height (fun y acc =>
    forLoop 0 width (fun x acc =>
      forLoop 0 channels (fun c acc => acc ++ [(y * width + x) * channels + c]) acc) acc) []

/-- The indices of the loads `input[(ny * width + nx) * channels + c]` of
`apply_ddf_section` of `DDF.c` (line 28), in program order. -/
def DDFC.input_indices (width height channels : Nat) : List Nat :=
  let kernel_size := 3
  let kernel_half := kernel_size / 2
  forLoop 0 height (fun y acc =>
    forLoop 0 width (fun x acc =>
      forLoop 0 channels (fun c acc =>
        forOffsets kernel_half (fun ky acc =>
          forOffsets kernel_half (fun kx acc =>
            let nx : Int := (x : Int) + kx
            let ny : Int := (y : Int) + ky
            if nx ≥ 0 ∧ ny ≥ 0 ∧ nx < (width : Int) ∧ ny < (height : Int) then
              acc ++ [((ny * width + nx) * channels + c).toNat]
            else acc) acc) acc) acc) acc) []

/-- The indices of the stores `output[(y * width + x) * channels + c] = ...` of
`apply_ddf_section` of `DDF.c` (line 32), in program order. -/
def DDFC.output_indices (width height channels : Nat) : List Nat :=
  forLoop 0 height (fun y acc =>
    forLoop 0 width (fun x acc =>
      forLoop 0 channels (fun c acc => acc ++ [(y * width + x) * channels + c]) acc) acc) []

/-! ## Specification predicates used by the proofs -/

/-- `WritesOn n F ok P g`: on an output buffer of `n` samples the (possibly undefined)
buffer transformer `F` is undefined when `ok` fails and otherwise returns a buffer of `n`
samples that holds `g i` at every index `i` selected by `P` and the old sample elsewhere. -/
def WritesOn (n : Nat) (F : List Nat → Option (List Nat)) (ok : Prop) (P : Nat → Prop)
    (g : Nat → Nat) : Prop :=
  ∀ out : List Nat, out.length = n →
    (¬ ok → F out = none) ∧
    (ok → ∃ out', F out = some out' ∧ out'.length = n ∧
      (∀ i, i < n → P i → out'.getD i 0 = g i) ∧
      (∀ i, i < n → ¬ P i → out'.getD i 0 = out.getD i 0))

/-- The sample index `(y * width + x) * channels + c` of pixel `(x, y)`, channel `c`. -/
def sampleIndex (width channels x y c : Nat) : Nat := (y * width + x) * channels + c

/-- The indices of the samples of rows `[lo, hi)`. -/
def InRows (width channels lo hi i : Nat) : Prop :=
  ∃ y, lo ≤ y ∧ y < hi ∧ ∃ x, x < width ∧ ∃ c, c < channels ∧ i = sampleIndex width channels x y c

/-- The value stored for pixel `(x, y)`, channel `c`: `window[count / 2]` after `qsort`. -/
def MMFThread.median_value (p : MMFThread.FilterParams) (x y c : Nat) : Nat :=
  (MMFThread.qsort (MMFThread.gather_window p x y c)).getD
    ((MMFThread.gather_window p x y c).length / 2) 0

/-- The stored value as a function of the sample index. -/
def MMFThread.median_at (p : MMFThread.FilterParams) (i : Nat) : Nat :=
  MMFThread.median_value p ((i / p.channels) % p.width) (i / p.channels / p.width)
    (i % p.channels)

/-- The samples gathered for a pixel fit the `window` array. -/
def MMFThread.window_fits (p : MMFThread.FilterParams) (x y c : Nat) : Prop :=
  (MMFThread.gather_window p x y c).length ≤ p.window_size * p.window_size

instance (p : MMFThread.FilterParams) (x y c : Nat) :
    Decidable (MMFThread.window_fits p x y c) :=
  inferInstanceAs (Decidable (_ ≤ _))

/-- No pixel of rows `[lo, hi)` overruns the `window` array. -/
def MMFThread.rows_fit (p : MMFThread.FilterParams) (lo hi : Nat) : Prop :=
  ∀ y, lo ≤ y → y < hi → ∀ x, x < p.width → ∀ c, c < p.channels →
    MMFThread.window_fits p x y c

/-- The bounds test of line 44 at window offsets `(kx, ky)`. -/
def MMFThread.in_image (p : MMFThread.FilterParams) (x y : Nat) (kx ky : Int) : Prop :=
  (x : Int) + kx ≥ 0 ∧ (x : Int) + kx < (p.width : Int) ∧
    (y : Int) + ky ≥ 0 ∧ (y : Int) + ky < (p.height : Int)

instance (p : MMFThread.FilterParams) (x y : Nat) (kx ky : Int) :
    Decidable (MMFThread.in_image p x y kx ky) :=
  inferInstanceAs (Decidable (_ ∧ _))

/-- The sample read at line 45 at window offsets `(kx, ky)`. -/
def MMFThread.window_sample (p : MMFThread.FilterParams) (x y c : Nat) (kx ky : Int) : Nat :=
  p.input.getD (((((y : Int) + ky) * p.width + ((x : Int) + kx)) * p.channels + c).toNat) 0

/-- The gathered samples written as a comprehension over the offset counters
`jy, jx = 0 .. 2 * pad` (offset `j - pad`). -/
def MMFThread.gathered (p : MMFThread.FilterParams) (x y c : Nat) : List Nat :=
  (List.range (2 * (p.window_size / 2) + 1)).flatMap (fun (jy : Nat) =>
    ((List.range (2 * (p.window_size / 2) + 1)).filter (fun (jx : Nat) =>
        decide (MMFThread.in_image p x y ((jx : Int) - ((p.window_size / 2 : Nat) : Int))
          ((jy : Int) - ((p.window_size / 2 : Nat) : Int))))).map
      (fun (jx : Nat) => MMFThread.window_sample p x y c ((jx : Int) - ((p.window_size / 2 : Nat) : Int))
        ((jy : Int) - ((p.window_size / 2 : Nat) : Int))))

/-- Position `(nx, ny)` is inside the image and within `pad` of `(x, y)` on both axes. -/
def InWindow (W H pad x y nx ny : Nat) : Prop :=
  nx < W ∧ ny < H ∧ |(nx : Int) - (x : Int)| ≤ (pad : Int) ∧ |(ny : Int) - (y : Int)| ≤ (pad : Int)

instance (W H pad x y nx ny : Nat) : Decidable (InWindow W H pad x y nx ny) :=
  inferInstanceAs (Decidable (_ ∧ _))

/-- The positions `(ny, nx)` of the image that lie within `pad` of `(x, y)` on both axes,
as the specification describes the window: every position of the image is tested. -/
def window_positions (W H pad x y : Nat) : List (Nat × Nat) :=
  ((List.range H).product (List.range W)).filter
    (fun q => decide (InWindow W H pad x y q.2 q.1))

/-- The input samples of channel `c` at the positions of the window. -/
def window_samples (input : List Nat) (W H C pad x y c : Nat) : List Nat :=
  (window_positions W H pad x y).map (fun q => input.getD (sampleIndex W C q.2 q.1 c) 0)

/-- The sample stored by a round of the diffusion filter, as a function of the sample
index (0 where the store is undefined). -/
def DDFThread.ddf_at (expf : ℚ → ℚ) (lambda : ℚ) (W H C : Nat) (temp : List Nat) (i : Nat) :
    Nat :=
  (DDFThread.ddf_store expf lambda W H C temp ((i / C) % W) (i / C / W) (i % C)).getD 0

/-- Every store of a round over the rows `[lo, hi)` is defined. -/
def DDFThread.round_ok (expf : ℚ → ℚ) (lambda : ℚ) (W H C : Nat) (temp : List Nat)
    (lo hi : Nat) : Prop :=
  ∀ y, lo ≤ y → y < hi → ∀ x, x < W → ∀ c, c < C →
    (DDFThread.ddf_store expf lambda W H C temp x y c).isSome = true

/-- All samples of each channel of the `W x H x C` image `buf` have the value `v c`. -/
def Uniform (W H C : Nat) (buf : List Nat) (v : Nat → Nat) : Prop :=
  ∀ x y c, x < W → y < H → c < C → buf.getD (sampleIndex W C x y c) 0 = v c

/-- The byte that `apply_ddf_section` of `DDF.c` stores, as a function of the sample
index. -/
def DDFC.kernel_at (input : List Nat) (W H C i : Nat) : Nat :=
  DDFC.clamp (DDFC.kernel_sum input W H C ((i / C) % W) (i / C / W) (i % C))

/-- The invariant of the outer loop of `find_median` before pass `i`: the array is a
rearrangement of the original one, is unchanged from index `size` on, and each of its
first `i` elements is not larger than any later element of the first `size`. -/
def MMFC.SortInv (w0 : List Nat) (size i : Nat) (w : List Nat) : Prop :=
  w.length = w0.length ∧ w.Perm w0 ∧ (∀ k, size ≤ k → w.getD k 0 = w0.getD k 0) ∧
    (∀ a b, a < i → a < b → b < size → w.getD a 0 ≤ w.getD b 0)

/-- The byte the gather stores at index `i`. -/
def gathered_byte (sendbufs : Nat → List Nat) (count i : Nat) : Nat :=
  (sendbufs (i / count)).getD (i % count) 0

/-! ## Theorems -/

/-! ### Rounding to a binary format -/

theorem floor_log2_loop_spec (fuel n : Nat) (hn : 1 ≤ n) (hf : n ≤ fuel) :
    2 ^ floor_log2_loop fuel n ≤ n ∧ n < 2 ^ (floor_log2_loop fuel n + 1) := by
  induction fuel generalizing n with
  | zero => omega
  | succ fuel ih =>
    unfold floor_log2_loop
    by_cases h2 : 2 ≤ n
    · rw [if_pos h2]
      obtain ⟨h1, h3⟩ := ih (n / 2) (by omega) (by omega)
      constructor
      · rw [Nat.pow_succ]; omega
      · rw [Nat.pow_succ]; omega
    · rw [if_neg h2]
      have : n = 1 := by omega
      subst this
      decide

theorem floor_log2_spec (n : Nat) (hn : 1 ≤ n) :
    2 ^ floor_log2 n ≤ n ∧ n < 2 ^ (floor_log2 n + 1) :=
  floor_log2_loop_spec n n hn (Nat.le_refl n)

theorem pow2_eq (e : Int) : pow2 e = (2 : ℚ) ^ e := by
  unfold pow2
  split_ifs with h
  · obtain ⟨k, rfl⟩ := Int.eq_ofNat_of_zero_le h
    simp
  · obtain ⟨k, hk⟩ : ∃ k : Nat, -e = k := ⟨(-e).toNat, by omega⟩
    have he : e = -(k : Int) := by omega
    subst he
    simp

theorem pow2_pos (e : Int) : 0 < pow2 e := by
  rw [pow2_eq]
  positivity

theorem pow2_natCast (k : Nat) : pow2 (k : Int) = ((2 ^ k : Nat) : ℚ) := by
  rw [pow2_eq]
  simp

theorem pow2_neg_natCast (k : Nat) : pow2 (-(k : Int)) = 1 / ((2 ^ k : Nat) : ℚ) := by
  rw [pow2_eq]
  simp

theorem pow2_lt_pow2 (a b : Int) (h : pow2 a < pow2 b) : a < b := by
  rw [pow2_eq, pow2_eq] at h
  by_contra hn
  have hba : b ≤ a := by omega
  have : (2 : ℚ) ^ b ≤ (2 : ℚ) ^ a := zpow_le_zpow_right₀ (by norm_num) hba
  linarith

/-- The binary exponent of a positive number is not above the number. -/
theorem pow2_ilog2_le (x : ℚ) (hx : 0 < x) : pow2 (ilog2 x) ≤ x := by
  unfold ilog2
  simp only []
  split_ifs with h
  · exact h
  · have hnum : 0 < x.num := Rat.num_pos.2 hx
    have hn1 : 1 ≤ x.num.natAbs := by omega
    have hd1 : 1 ≤ x.den := x.den_pos
    obtain ⟨ha, -⟩ := floor_log2_spec x.num.natAbs hn1
    obtain ⟨-, hb⟩ := floor_log2_spec x.den hd1
    have e1 : ((floor_log2 x.num.natAbs : Int) - (floor_log2 x.den : Int) - 1) =
        (floor_log2 x.num.natAbs : Int) - ((floor_log2 x.den + 1 : Nat) : Int) := by
      push_cast; ring
    rw [e1, pow2_eq, zpow_sub₀ (by norm_num : (2 : ℚ) ≠ 0)]
    simp only [zpow_natCast]
    have hxe : (x.num.natAbs : ℚ) / (x.den : ℚ) = x := by
      have h1 : ((x.num.natAbs : Nat) : ℚ) = (x.num : ℚ) := by
        rw [Nat.cast_natAbs, abs_of_pos hnum]
      rw [h1]
      exact Rat.num_div_den x
    have hA : ((2 : ℚ) ^ floor_log2 x.num.natAbs) ≤ (x.num.natAbs : ℚ) := by
      exact_mod_cast ha
    have hB : (x.den : ℚ) ≤ (2 : ℚ) ^ (floor_log2 x.den + 1) := by
      exact_mod_cast le_of_lt hb
    have hdpos : (0 : ℚ) < (x.den : ℚ) := by exact_mod_cast hd1
    have key : (2 : ℚ) ^ floor_log2 x.num.natAbs / (2 : ℚ) ^ (floor_log2 x.den + 1) ≤
        (x.num.natAbs : ℚ) / (x.den : ℚ) := by
      rw [div_le_div_iff₀ (by positivity) hdpos]
      calc (2 : ℚ) ^ floor_log2 x.num.natAbs * (x.den : ℚ)
          ≤ (x.num.natAbs : ℚ) * (x.den : ℚ) :=
            mul_le_mul_of_nonneg_right hA (le_of_lt hdpos)
        _ ≤ (x.num.natAbs : ℚ) * (2 : ℚ) ^ (floor_log2 x.den + 1) :=
            mul_le_mul_of_nonneg_left hB (by positivity)
    exact le_of_le_of_eq key hxe

theorem ilog2_lt (x : ℚ) (hx : 0 < x) (k : Nat) (h : x < ((2 ^ k : Nat) : ℚ)) :
    ilog2 x < (k : Int) := by
  apply pow2_lt_pow2
  rw [pow2_natCast]
  exact lt_of_le_of_lt (pow2_ilog2_le x hx) h

theorem round_half_even_cases (x : ℚ) :
    round_half_even x = ⌊x⌋ ∨ (round_half_even x = ⌊x⌋ + 1 ∧ (⌊x⌋ : ℚ) < x) := by
  unfold round_half_even
  simp only []
  have hfl : ((⌊x⌋ : Int) : ℚ) ≤ x := Int.floor_le x
  split_ifs with h1 h2 h3
  · left; rfl
  · right; exact ⟨rfl, by linarith⟩
  · left; rfl
  · right; exact ⟨rfl, by linarith⟩

theorem round_half_even_le (x : ℚ) (k : Int) (h : x ≤ (k : ℚ)) : round_half_even x ≤ k := by
  rcases round_half_even_cases x with e | ⟨e, hlt⟩
  · rw [e]
    exact_mod_cast le_trans (Int.floor_le x) h
  · rw [e]
    have : ((⌊x⌋ : Int) : ℚ) < (k : ℚ) := lt_of_lt_of_le hlt h
    have : ⌊x⌋ < k := by exact_mod_cast this
    omega

theorem le_round_half_even (x : ℚ) (k : Int) (h : (k : ℚ) ≤ x) : k ≤ round_half_even x := by
  have hk : k ≤ ⌊x⌋ := Int.le_floor.2 h
  rcases round_half_even_cases x with e | ⟨e, -⟩ <;> rw [e] <;> omega

theorem round_to_zero (prec : Nat) (emin : Int) : round_to prec emin 0 = 0 := by
  unfold round_to
  rw [if_pos rfl]

theorem round_to_nonpos (prec : Nat) (emin : Int) (x : ℚ) (hx : x ≤ 0) :
    round_to prec emin x ≤ 0 := by
  unfold round_to
  split_ifs with h0
  · exact le_refl 0
  · simp only []
    have hu := pow2_pos (max (ilog2 |x|) emin - ((prec : Int) - 1))
    have h1 : x / pow2 (max (ilog2 |x|) emin - ((prec : Int) - 1)) ≤ ((0 : Int) : ℚ) := by
      rw [Int.cast_zero]
      exact div_nonpos_of_nonpos_of_nonneg hx (le_of_lt hu)
    have h2 := round_half_even_le _ 0 h1
    have h3 : ((round_half_even (x / pow2 (max (ilog2 |x|) emin - ((prec : Int) - 1))) : Int) : ℚ)
        ≤ 0 := by exact_mod_cast h2
    exact mul_nonpos_of_nonpos_of_nonneg h3 (le_of_lt hu)

theorem round_to_nonneg (prec : Nat) (emin : Int) (x : ℚ) (hx : 0 ≤ x) :
    0 ≤ round_to prec emin x := by
  unfold round_to
  split_ifs with h0
  · exact le_refl 0
  · simp only []
    have hu := pow2_pos (max (ilog2 |x|) emin - ((prec : Int) - 1))
    have h1 : ((0 : Int) : ℚ) ≤ x / pow2 (max (ilog2 |x|) emin - ((prec : Int) - 1)) := by
      rw [Int.cast_zero]
      exact div_nonneg hx (le_of_lt hu)
    have h2 := le_round_half_even _ 0 h1
    have h3 : (0 : ℚ) ≤
        ((round_half_even (x / pow2 (max (ilog2 |x|) emin - ((prec : Int) - 1))) : Int) : ℚ) := by
      exact_mod_cast h2
    exact mul_nonneg h3 (le_of_lt hu)

/-- Rounding keeps a number between two integers that the format represents: integers of
magnitude below `2^prec` are multiples of every unit in the last place that occurs for
numbers between them. -/
theorem round_to_between (prec : Nat) (emin : Int) (hemin : emin ≤ (prec : Int) - 1)
    (x : ℚ) (n1 n2 : Int)
    (h1 : -((2 ^ prec : Nat) : Int) < n1) (h2 : n2 < ((2 ^ prec : Nat) : Int))
    (hx1 : (n1 : ℚ) ≤ x) (hx2 : x ≤ (n2 : ℚ)) :
    (n1 : ℚ) ≤ round_to prec emin x ∧ round_to prec emin x ≤ (n2 : ℚ) := by
  unfold round_to
  split_ifs with h0
  · subst h0; exact ⟨hx1, hx2⟩
  · simp only []
    have habs : |x| < ((2 ^ prec : Nat) : ℚ) := by
      rw [abs_lt]
      constructor
      · have : ((-((2 ^ prec : Nat) : Int) : Int) : ℚ) < (n1 : ℚ) := by exact_mod_cast h1
        push_cast at this ⊢
        linarith
      · have : (n2 : ℚ) < (((2 ^ prec : Nat) : Int) : ℚ) := by exact_mod_cast h2
        push_cast at this ⊢
        linarith
    have hlog := ilog2_lt |x| (abs_pos.2 h0) prec habs
    obtain ⟨k, hk⟩ : ∃ k : Nat, max (ilog2 |x|) emin - ((prec : Int) - 1) = -(k : Int) :=
      ⟨(-(max (ilog2 |x|) emin - ((prec : Int) - 1))).toNat, by omega⟩
    rw [hk, pow2_neg_natCast]
    have hK : (0 : ℚ) < ((2 ^ k : Nat) : ℚ) := by positivity
    have e : x / (1 / ((2 ^ k : Nat) : ℚ)) = x * ((2 ^ k : Nat) : ℚ) := by
      field_simp
    rw [e]
    have hl : (((n1 * ((2 ^ k : Nat) : Int) : Int)) : ℚ) ≤ x * ((2 ^ k : Nat) : ℚ) := by
      push_cast
      exact mul_le_mul_of_nonneg_right hx1 (le_of_lt (by positivity))
    have hu : x * ((2 ^ k : Nat) : ℚ) ≤ (((n2 * ((2 ^ k : Nat) : Int) : Int)) : ℚ) := by
      push_cast
      exact mul_le_mul_of_nonneg_right hx2 (le_of_lt (by positivity))
    have r1 := le_round_half_even _ _ hl
    have r2 := round_half_even_le _ _ hu
    have r1' : (n1 : ℚ) * ((2 ^ k : Nat) : ℚ) ≤
        ((round_half_even (x * ((2 ^ k : Nat) : ℚ)) : Int) : ℚ) := by exact_mod_cast r1
    have r2' : ((round_half_even (x * ((2 ^ k : Nat) : ℚ)) : Int) : ℚ) ≤
        (n2 : ℚ) * ((2 ^ k : Nat) : ℚ) := by exact_mod_cast r2
    constructor
    · rw [mul_one_div, le_div_iff₀ hK]
      exact r1'
    · rw [mul_one_div, div_le_iff₀ hK]
      exact r2'

theorem round_to_int (prec : Nat) (emin : Int) (hemin : emin ≤ (prec : Int) - 1) (n : Int)
    (h1 : -((2 ^ prec : Nat) : Int) < n) (h2 : n < ((2 ^ prec : Nat) : Int)) :
    round_to prec emin (n : ℚ) = (n : ℚ) := by
  obtain ⟨a, b⟩ := round_to_between prec emin hemin (n : ℚ) n n h1 h2 (le_refl _) (le_refl _)
  exact le_antisymm b a

theorem round32_between (x : ℚ) (n1 n2 : Int) (h1 : -16777216 < n1) (h2 : n2 < 16777216)
    (hx1 : (n1 : ℚ) ≤ x) (hx2 : x ≤ (n2 : ℚ)) :
    (n1 : ℚ) ≤ round32 x ∧ round32 x ≤ (n2 : ℚ) :=
  round_to_between 24 (-126) (by decide) x n1 n2 h1 h2 hx1 hx2

theorem round64_between (x : ℚ) (n1 n2 : Int) (h1 : -16777216 < n1) (h2 : n2 < 16777216)
    (hx1 : (n1 : ℚ) ≤ x) (hx2 : x ≤ (n2 : ℚ)) :
    (n1 : ℚ) ≤ round64 x ∧ round64 x ≤ (n2 : ℚ) :=
  round_to_between 53 (-1022) (by decide) x n1 n2
    (lt_trans (by decide) h1) (lt_trans h2 (by decide)) hx1 hx2

theorem round32_int (n : Int) (h1 : -16777216 < n) (h2 : n < 16777216) :
    round32 (n : ℚ) = (n : ℚ) :=
  round_to_int 24 (-126) (by decide) n h1 h2

theorem round64_int (n : Int) (h1 : -16777216 < n) (h2 : n < 16777216) :
    round64 (n : ℚ) = (n : ℚ) :=
  round_to_int 53 (-1022) (by decide) n (lt_trans (by decide) h1) (lt_trans h2 (by decide))

theorem round32_zero : round32 0 = 0 := round_to_zero 24 (-126)

theorem round64_zero : round64 0 = 0 := round_to_zero 53 (-1022)

/-! ### Loops that write samples -/

theorem foldl_strict {α : Type} (xs : List α)
    (B : α → Option (List Nat) → Option (List Nat)) (hB : ∀ a ∈ xs, B a none = none) :
    xs.foldl (fun acc a => B a acc) none = none := by
  induction xs with
  | nil => rfl
  | cons a xs ih =>
    rw [List.foldl_cons, hB a (List.mem_cons_self a xs)]
    exact ih (fun b hb => hB b (List.mem_cons_of_mem a hb))

theorem forLoop_strict (lo hi : Nat) (B : Nat → Option (List Nat) → Option (List Nat))
    (hB : ∀ a, lo ≤ a → a < hi → B a none = none) : forLoop lo hi B none = none := by
  unfold forLoop
  apply foldl_strict
  intro a ha
  rw [List.mem_range'_1] at ha
  exact hB a ha.1 (by omega)

theorem WritesOn.congr {n : Nat} {F : List Nat → Option (List Nat)} {ok ok' : Prop}
    {P P' : Nat → Prop} {g g' : Nat → Nat} (h : WritesOn n F ok P g) (hok : ok ↔ ok')
    (hP : ∀ i, i < n → (P i ↔ P' i)) (hg : ∀ i, i < n → P i → g i = g' i) :
    WritesOn n F ok' P' g' := by
  intro out hlen
  obtain ⟨h1, h2⟩ := h out hlen
  refine ⟨fun hn => h1 (fun hk => hn (hok.1 hk)), fun hk => ?_⟩
  obtain ⟨out', e, hl, ha, hb⟩ := h2 (hok.2 hk)
  refine ⟨out', e, hl, ?_, ?_⟩
  · intro i hi hp
    have hp' : P i := (hP i hi).2 hp
    rw [ha i hi hp', hg i hi hp']
  · intro i hi hp
    exact hb i hi (fun hp' => hp ((hP i hi).1 hp'))

theorem WritesOn.set (n k v : Nat) (ok : Prop) [Decidable ok] (g : Nat → Nat) (hg : g k = v) :
    WritesOn n (fun out => if ok then some (out.set k v) else none) ok (fun i => i = k) g := by
  intro out hlen
  refine ⟨fun hn => if_neg hn, fun hk => ⟨out.set k v, if_pos hk, by simp [hlen], ?_, ?_⟩⟩
  · intro i hi hik
    subst hik
    rw [List.getD_eq_getElem _ _ (by simp [hlen, hi])]
    simp [hg]
  · intro i hi hik
    rw [List.getD_eq_getElem _ _ (by simp [hlen, hi]), List.getD_eq_getElem _ _ (by omega)]
    rw [List.getElem_set]
    rw [if_neg (fun h => hik h.symm)]

theorem WritesOn.fold {α : Type} (n : Nat) (xs : List α)
    (B : α → Option (List Nat) → Option (List Nat)) (ok : α → Prop) (P : α → Nat → Prop)
    (g : Nat → Nat) (hB : ∀ a ∈ xs, B a none = none)
    (h : ∀ a ∈ xs, WritesOn n (fun out => B a (some out)) (ok a) (P a) g) :
    WritesOn n (fun out => xs.foldl (fun acc a => B a acc) (some out))
      (∀ a ∈ xs, ok a) (fun i => ∃ a ∈ xs, P a i) g := by
  induction xs with
  | nil =>
    intro out hlen
    refine ⟨fun hn => absurd (fun a ha => absurd ha (List.not_mem_nil a)) hn, fun _ => ?_⟩
    refine ⟨out, rfl, hlen, ?_, fun i _ _ => rfl⟩
    rintro i _ ⟨a, ha, -⟩
    exact absurd ha (List.not_mem_nil a)
  | cons a xs ih =>
    have ih' := ih (fun b hb => hB b (List.mem_cons_of_mem a hb))
      (fun b hb => h b (List.mem_cons_of_mem a hb))
    intro out hlen
    obtain ⟨ha1, ha2⟩ := h a (List.mem_cons_self a xs) out hlen
    simp only [List.foldl_cons]
    by_cases hoka : ok a
    · obtain ⟨out1, e1, hl1, hw1, hk1⟩ := ha2 hoka
      simp only at e1
      rw [e1]
      obtain ⟨hx1, hx2⟩ := ih' out1 hl1
      constructor
      · intro hn
        apply hx1
        intro hall
        apply hn
        intro b hb
        rcases List.mem_cons.1 hb with rfl | hb
        · exact hoka
        · exact hall b hb
      · intro hall
        obtain ⟨out', e, hl, hw, hk⟩ := hx2 (fun b hb => hall b (List.mem_cons_of_mem a hb))
        refine ⟨out', e, hl, ?_, ?_⟩
        · rintro i hi ⟨b, hb, hPb⟩
          by_cases hex : ∃ b ∈ xs, P b i
          · exact hw i hi hex
          · rw [hk i hi hex]
            rcases List.mem_cons.1 hb with rfl | hb
            · exact hw1 i hi hPb
            · exact absurd ⟨b, hb, hPb⟩ hex
        · intro i hi hno
          have hno1 : ¬ ∃ b ∈ xs, P b i := by
            rintro ⟨b, hb, hPb⟩
            exact hno ⟨b, List.mem_cons_of_mem a hb, hPb⟩
          have hno2 : ¬ P a i := fun hPa => hno ⟨a, List.mem_cons_self a xs, hPa⟩
          rw [hk i hi hno1, hk1 i hi hno2]
    · have e1 := ha1 hoka
      simp only at e1
      rw [e1, foldl_strict xs B (fun b hb => hB b (List.mem_cons_of_mem a hb))]
      refine ⟨fun _ => rfl, fun hall => ?_⟩
      exact absurd (hall a (List.mem_cons_self a xs)) hoka

theorem WritesOn.loop (n lo hi : Nat) (B : Nat → Option (List Nat) → Option (List Nat))
    (ok : Nat → Prop) (P : Nat → Nat → Prop) (g : Nat → Nat)
    (hB : ∀ a, lo ≤ a → a < hi → B a none = none)
    (h : ∀ a, lo ≤ a → a < hi → WritesOn n (fun out => B a (some out)) (ok a) (P a) g) :
    WritesOn n (fun out => forLoop lo hi B (some out))
      (∀ a, lo ≤ a → a < hi → ok a) (fun i => ∃ a, lo ≤ a ∧ a < hi ∧ P a i) g := by
  have hmem : ∀ a, a ∈ List.range' lo (hi - lo) ↔ lo ≤ a ∧ a < hi := by
    intro a
    rw [List.mem_range'_1]
    omega
  have key := WritesOn.fold n (List.range' lo (hi - lo)) B ok P g
    (fun a ha => hB a ((hmem a).1 ha).1 ((hmem a).1 ha).2)
    (fun a ha => h a ((hmem a).1 ha).1 ((hmem a).1 ha).2)
  refine WritesOn.congr key ?_ ?_ (fun _ _ _ => rfl)
  · constructor
    · intro hall a h1 h2
      exact hall a ((hmem a).2 ⟨h1, h2⟩)
    · intro hall a ha
      exact hall a ((hmem a).1 ha).1 ((hmem a).1 ha).2
  · intro i _
    constructor
    · rintro ⟨a, ha, hp⟩
      exact ⟨a, ((hmem a).1 ha).1, ((hmem a).1 ha).2, hp⟩
    · rintro ⟨a, h1, h2, hp⟩
      exact ⟨a, (hmem a).2 ⟨h1, h2⟩, hp⟩

/-- Two transformers with the same definedness condition, the same written indices and
the same written values agree on every buffer of the right length. -/
theorem WritesOn.agree {n : Nat} {F F' : List Nat → Option (List Nat)} {ok ok' : Prop}
    {P P' : Nat → Prop} {g : Nat → Nat} (h : WritesOn n F ok P g)
    (h' : WritesOn n F' ok' P' g) (hok : ok ↔ ok') (hP : ∀ i, i < n → (P i ↔ P' i))
    (out : List Nat) (hlen : out.length = n) : F out = F' out := by
  obtain ⟨a1, a2⟩ := h out hlen
  obtain ⟨b1, b2⟩ := h' out hlen
  by_cases hk : ok
  · obtain ⟨o1, e1, l1, w1, k1⟩ := a2 hk
    obtain ⟨o2, e2, l2, w2, k2⟩ := b2 (hok.1 hk)
    rw [e1, e2]
    congr 1
    apply List.ext_getElem (by omega)
    intro i hi1 hi2
    have hin : i < n := by omega
    rw [← List.getD_eq_getElem o1 0 hi1, ← List.getD_eq_getElem o2 0 hi2]
    by_cases hp : P i
    · rw [w1 i hin hp, w2 i hin ((hP i hin).1 hp)]
    · rw [k1 i hin hp, k2 i hin (fun hp' => hp ((hP i hin).2 hp'))]
  · rw [a1 hk, b1 (fun hk' => hk (hok.2 hk'))]


theorem WritesOn.of_eq {n : Nat} {F F' : List Nat → Option (List Nat)} {ok : Prop}
    {P : Nat → Prop} {g : Nat → Nat} (h : WritesOn n F' ok P g) (e : ∀ out, F out = F' out) :
    WritesOn n F ok P g := by
  have hF : F = F' := funext e
  rw [hF]
  exact h

theorem forLoop_const {σ : Type} (lo hi : Nat) (F : σ → σ) (s : σ) :
    forLoop lo hi (fun _ st => F st) s = F^[hi - lo] s := by
  unfold forLoop
  generalize hi - lo = k
  induction k generalizing lo s with
  | zero => rfl
  | succ k ih =>
    rw [List.range'_succ, List.foldl_cons, ih, Function.iterate_succ_apply]

theorem forLoop_id (lo hi : Nat) (B : Nat → Option (List Nat) → Option (List Nat))
    (out : List Nat) (h : ∀ i, lo ≤ i → i < hi → B i (some out) = some out) :
    forLoop lo hi B (some out) = some out := by
  unfold forLoop
  have hmem : ∀ i ∈ List.range' lo (hi - lo), B i (some out) = some out := by
    intro i hi'
    rw [List.mem_range'_1] at hi'
    exact h i hi'.1 (by omega)
  generalize List.range' lo (hi - lo) = xs at hmem
  induction xs with
  | nil => rfl
  | cons a xs ih =>
    rw [List.foldl_cons, hmem a (List.mem_cons_self a xs)]
    exact ih (fun b hb => hmem b (List.mem_cons_of_mem a hb))

theorem forLoop_some (lo hi : Nat) (B : Nat → Option (List Nat) → Option (List Nat))
    (b : Nat → List Nat → List Nat) (h : ∀ i o, B i (some o) = some (b i o))
    (out : List Nat) : forLoop lo hi B (some out) = some (forLoop lo hi b out) := by
  unfold forLoop
  generalize List.range' lo (hi - lo) = xs
  induction xs generalizing out with
  | nil => rfl
  | cons a xs ih => rw [List.foldl_cons, List.foldl_cons, h, ih]

theorem forOffsets_one {σ : Type} (body : Int → σ → σ) (s : σ) :
    forOffsets 1 body s = body 1 (body 0 (body (-1) s)) := by
  unfold forOffsets
  simp [List.range_succ]

/-- The three nested loops over the rows `[lo, hi)`, the columns and the channels, for a
pixel body that stores one sample at the pixel's index. -/
theorem WritesOn.pixel_loops (n W C lo hi : Nat)
    (pix : Nat → Nat → Nat → List Nat → Option (List Nat))
    (ok : Nat → Nat → Nat → Prop) (g : Nat → Nat)
    (h : ∀ y x c, lo ≤ y → y < hi → x < W → c < C →
      WritesOn n (fun out => (some out).bind (pix x y c)) (ok x y c)
        (fun i => i = sampleIndex W C x y c) g) :
    WritesOn n (fun out => forLoop lo hi (fun y acc =>
        forLoop 0 W (fun x acc =>
          forLoop 0 C (fun c acc => acc.bind (pix x y c)) acc) acc) (some out))
      (∀ y, lo ≤ y → y < hi → ∀ x, x < W → ∀ c, c < C → ok x y c)
      (InRows W C lo hi) g := by
  have hc : ∀ y x, lo ≤ y → y < hi → x < W →
      WritesOn n (fun out => forLoop 0 C (fun c acc => acc.bind (pix x y c)) (some out))
        (∀ c, 0 ≤ c → c < C → ok x y c)
        (fun i => ∃ c, 0 ≤ c ∧ c < C ∧ i = sampleIndex W C x y c) g := by
    intro y x h1 h2 hx
    exact WritesOn.loop n 0 C (fun c acc => acc.bind (pix x y c))
      (fun c => ok x y c) (fun c i => i = sampleIndex W C x y c) g
      (fun _ _ _ => rfl) (fun c _ hc => h y x c h1 h2 hx hc)
  have hx : ∀ y, lo ≤ y → y < hi → WritesOn n (fun out => forLoop 0 W
      (fun x acc => forLoop 0 C (fun c acc => acc.bind (pix x y c)) acc) (some out))
      (∀ x, 0 ≤ x → x < W → ∀ c, 0 ≤ c → c < C → ok x y c)
      (fun i => ∃ x, 0 ≤ x ∧ x < W ∧ ∃ c, 0 ≤ c ∧ c < C ∧ i = sampleIndex W C x y c) g := by
    intro y h1 h2
    exact WritesOn.loop n 0 W
      (fun x acc => forLoop 0 C (fun c acc => acc.bind (pix x y c)) acc)
      (fun x => ∀ c, 0 ≤ c → c < C → ok x y c)
      (fun x i => ∃ c, 0 ≤ c ∧ c < C ∧ i = sampleIndex W C x y c) g
      (fun x _ _ => forLoop_strict 0 C _ (fun _ _ _ => rfl))
      (fun x _ hx => hc y x h1 h2 hx)
  have hy := WritesOn.loop n lo hi
    (fun y acc => forLoop 0 W (fun x acc =>
      forLoop 0 C (fun c acc => acc.bind (pix x y c)) acc) acc)
    (fun y => ∀ x, 0 ≤ x → x < W → ∀ c, 0 ≤ c → c < C → ok x y c)
    (fun y i => ∃ x, 0 ≤ x ∧ x < W ∧ ∃ c, 0 ≤ c ∧ c < C ∧ i = sampleIndex W C x y c) g
    (fun y _ _ => forLoop_strict 0 W _
      (fun x _ _ => forLoop_strict 0 C _ (fun _ _ _ => rfl)))
    (fun y h1 h2 => hx y h1 h2)
  refine WritesOn.congr hy ?_ ?_ (fun _ _ _ => rfl)
  · constructor
    · intro h y h1 h2 x h3 c h4
      exact h y h1 h2 x (Nat.zero_le _) h3 c (Nat.zero_le _) h4
    · intro h y h1 h2 x _ h3 c _ h4
      exact h y h1 h2 x h3 c h4
  · intro i _
    constructor
    · rintro ⟨y, h1, h2, x, -, h3, c, -, h4, e⟩
      exact ⟨y, h1, h2, x, h3, c, h4, e⟩
    · rintro ⟨y, h1, h2, x, h3, c, h4, e⟩
      exact ⟨y, h1, h2, x, Nat.zero_le _, h3, c, Nat.zero_le _, h4, e⟩

theorem foldl_cond_append {α β : Type} (xs : List α) (c : α → Prop) [DecidablePred c]
    (f : α → β) (w0 : List β) :
    xs.foldl (fun acc a => if c a then acc ++ [f a] else acc) w0 =
      w0 ++ (xs.filter (fun a => decide (c a))).map f := by
  induction xs generalizing w0 with
  | nil => simp
  | cons a xs ih =>
    rw [List.foldl_cons, ih]
    by_cases h : c a
    · simp [h]
    · simp [h]

theorem foldl_append_flatMap {α β : Type} (xs : List α) (L : α → List β) (w0 : List β) :
    xs.foldl (fun acc a => acc ++ L a) w0 = w0 ++ xs.flatMap L := by
  induction xs generalizing w0 with
  | nil => simp
  | cons a xs ih =>
    rw [List.foldl_cons, ih]
    simp

theorem length_flatMap_le {α β : Type} (xs : List α) (L : α → List β) (m : Nat)
    (h : ∀ a ∈ xs, (L a).length ≤ m) : (xs.flatMap L).length ≤ xs.length * m := by
  induction xs with
  | nil => simp
  | cons a xs ih =>
    rw [List.flatMap_cons, List.length_append, List.length_cons, Nat.add_mul, Nat.one_mul]
    have h1 := h a (List.mem_cons_self a xs)
    have h2 := ih (fun b hb => h b (List.mem_cons_of_mem a hb))
    omega

/-! ### Sample indices -/

theorem sampleIndex_mod (W C x y c : Nat) (hc : c < C) : sampleIndex W C x y c % C = c := by
  unfold sampleIndex
  rw [Nat.mul_add_mod_of_lt hc]

theorem sampleIndex_div (W C x y c : Nat) (hc : c < C) :
    sampleIndex W C x y c / C = y * W + x := by
  unfold sampleIndex
  rw [Nat.mul_comm, Nat.mul_add_div (by omega), Nat.div_eq_of_lt hc, Nat.add_zero]

theorem sampleIndex_col (W C x y c : Nat) (hx : x < W) (hc : c < C) :
    (sampleIndex W C x y c / C) % W = x := by
  rw [sampleIndex_div W C x y c hc, Nat.mul_add_mod_of_lt hx]

theorem sampleIndex_row (W C x y c : Nat) (hx : x < W) (hc : c < C) :
    sampleIndex W C x y c / C / W = y := by
  rw [sampleIndex_div W C x y c hc, Nat.mul_comm, Nat.mul_add_div (by omega),
    Nat.div_eq_of_lt hx, Nat.add_zero]

theorem sampleIndex_lt (W H C x y c : Nat) (hx : x < W) (hy : y < H) (hc : c < C) :
    sampleIndex W C x y c < W * H * C := by
  unfold sampleIndex
  have h1 : y * W + x + 1 ≤ H * W := by
    have : (y + 1) * W ≤ H * W := Nat.mul_le_mul_right W hy
    rw [Nat.add_mul, Nat.one_mul] at this
    omega
  have h2 : (y * W + x + 1) * C ≤ H * W * C := Nat.mul_le_mul_right C h1
  rw [Nat.add_mul (y * W + x) 1 C, Nat.one_mul] at h2
  rw [Nat.mul_comm W H]
  omega

theorem sampleIndex_decode (W H C i : Nat) (hi : i < W * H * C) :
    (i / C) % W < W ∧ i / C / W < H ∧ i % C < C ∧
      i = sampleIndex W C ((i / C) % W) (i / C / W) (i % C) := by
  have hC : 0 < C := by
    rcases Nat.eq_zero_or_pos C with h | h
    · subst h; simp at hi
    · exact h
  have hW : 0 < W := by
    rcases Nat.eq_zero_or_pos W with h | h
    · subst h; simp at hi
    · exact h
  refine ⟨Nat.mod_lt _ hW, ?_, Nat.mod_lt _ hC, ?_⟩
  · rw [Nat.div_div_eq_div_mul, Nat.div_lt_iff_lt_mul (Nat.mul_pos hC hW)]
    calc i < W * H * C := hi
      _ = H * (C * W) := by ring
  · unfold sampleIndex
    rw [Nat.div_add_mod' (i / C) W, Nat.div_add_mod' i C]

theorem inRows_lt (W H C lo hi i : Nat) (hhi : hi ≤ H) (h : InRows W C lo hi i) :
    i < W * H * C := by
  obtain ⟨y, -, hy, x, hx, c, hc, rfl⟩ := h
  exact sampleIndex_lt W H C x y c hx (by omega) hc

theorem inRows_full (W H C i : Nat) (hi : i < W * H * C) : InRows W C 0 H i := by
  obtain ⟨h1, h2, h3, h4⟩ := sampleIndex_decode W H C i hi
  exact ⟨i / C / W, Nat.zero_le _, h2, (i / C) % W, h1, i % C, h3, h4⟩

theorem inRows_of_range (W C lo hi i : Nat) (h1 : lo * W * C ≤ i) (h2 : i < hi * W * C) :
    InRows W C lo hi i := by
  have hC : 0 < C := by
    rcases Nat.eq_zero_or_pos C with h | h
    · subst h; simp at h2
    · exact h
  have hW : 0 < W := by
    rcases Nat.eq_zero_or_pos W with h | h
    · subst h; simp at h2
    · exact h
  refine ⟨i / C / W, ?_, ?_, (i / C) % W, Nat.mod_lt _ hW, i % C, Nat.mod_lt _ hC, ?_⟩
  · rw [Nat.div_div_eq_div_mul, Nat.le_div_iff_mul_le (Nat.mul_pos hC hW)]
    calc lo * (C * W) = lo * W * C := by ring
      _ ≤ i := h1
  · rw [Nat.div_div_eq_div_mul, Nat.div_lt_iff_lt_mul (Nat.mul_pos hC hW)]
    calc i < hi * W * C := h2
      _ = hi * (C * W) := by ring
  · unfold sampleIndex
    rw [Nat.div_add_mod' (i / C) W, Nat.div_add_mod' i C]

theorem foldl_set_length (xs : List Nat) (f : Nat → Nat) (dst : List Nat) :
    (xs.foldl (fun d i => d.set i (f i)) dst).length = dst.length := by
  induction xs generalizing dst with
  | nil => rfl
  | cons a xs ih => rw [List.foldl_cons, ih, List.length_set]

theorem foldl_set_getD (xs : List Nat) (f : Nat → Nat) (dst : List Nat) (j : Nat)
    (hj : j < dst.length) :
    (xs.foldl (fun d i => d.set i (f i)) dst).getD j 0 =
      if j ∈ xs then f j else dst.getD j 0 := by
  induction xs generalizing dst with
  | nil => simp
  | cons a xs ih =>
    rw [List.foldl_cons, ih _ (by rw [List.length_set]; exact hj)]
    by_cases hjx : j ∈ xs
    · rw [if_pos hjx, if_pos (List.mem_cons_of_mem a hjx)]
    · rw [if_neg hjx]
      rw [List.getD_eq_getElem _ _ (by rw [List.length_set]; exact hj), List.getElem_set]
      by_cases haj : a = j
      · rw [if_pos haj, if_pos (by rw [haj]; exact List.mem_cons_self j xs), haj]
      · rw [if_neg haj, if_neg (by
          intro hmem
          rcases List.mem_cons.1 hmem with h | h
          · exact haj h.symm
          · exact hjx h)]
        rw [List.getD_eq_getElem _ _ hj]

/-! ### The row partition -/

theorem bands_cover (H N : Nat) (hN : 1 ≤ N) (hNH : N ≤ H) :
    (∀ i, i < N → start_row H N i < end_row H N i) ∧
    (∀ i j, i < j → j < N → end_row H N i ≤ start_row H N j) ∧
    (∀ y, y < H ↔ ∃ i, i < N ∧ start_row H N i ≤ y ∧ y < end_row H N i) := by
  have hr : 1 ≤ H / N := (Nat.one_le_div_iff (by omega)).2 hNH
  have hmul : N * (H / N) ≤ H := Nat.mul_div_le H N
  have hlast : (N - 1) * (H / N) < H := by
    have h1 : (N - 1) * (H / N) + (H / N) = N * (H / N) := by
      generalize H / N = r
      cases N with
      | zero => omega
      | succ n => simp [Nat.succ_mul]
    omega
  refine ⟨?_, ?_, ?_⟩
  · intro i hi
    unfold start_row end_row rows_per_thread
    split_ifs with h
    · subst h; exact hlast
    · rw [Nat.add_mul, Nat.one_mul]; omega
  · intro i j hij hj
    unfold start_row end_row rows_per_thread
    have hi : i ≠ N - 1 := by omega
    rw [if_neg hi]
    exact Nat.mul_le_mul_right _ (by omega)
  · intro y
    constructor
    · intro hy
      by_cases hc : y / (H / N) < N - 1
      · refine ⟨y / (H / N), by omega, ?_, ?_⟩
        · unfold start_row rows_per_thread
          exact Nat.div_mul_le_self y (H / N)
        · unfold end_row rows_per_thread
          rw [if_neg (by omega)]
          rw [Nat.mul_comm]
          exact Nat.lt_mul_div_succ y (by omega)
      · refine ⟨N - 1, by omega, ?_, ?_⟩
        · unfold start_row rows_per_thread
          have h1 : N - 1 ≤ y / (H / N) := by omega
          calc (N - 1) * (H / N) ≤ (y / (H / N)) * (H / N) := Nat.mul_le_mul_right _ h1
            _ ≤ y := Nat.div_mul_le_self y (H / N)
        · unfold end_row
          rw [if_pos rfl]; exact hy
    · rintro ⟨i, hi, -, hy⟩
      unfold end_row rows_per_thread at hy
      split_ifs at hy with h
      · exact hy
      · have h1 : (i + 1) * (H / N) ≤ N * (H / N) := Nat.mul_le_mul_right _ (by omega)
        omega

theorem end_row_le (H N i : Nat) (hi : i < N) : end_row H N i ≤ H := by
  unfold end_row rows_per_thread
  split_ifs with h
  · exact Nat.le_refl H
  · have h1 : (i + 1) * (H / N) ≤ N * (H / N) := Nat.mul_le_mul_right _ (by omega)
    have h2 : N * (H / N) ≤ H := Nat.mul_div_le H N
    omega

/-- C1: for `H ≥ 1` and `1 ≤ N ≤ H` the bands `[start_row i, end_row i)`, `i < N`, are each
non-empty, ascending and pairwise disjoint (a band ends no later than every later band
starts), and a row lies below `H` exactly when it lies in one of the bands. -/
theorem row_bands_partition (H N : Nat) (_hH : 1 ≤ H) (hN : 1 ≤ N) (hNH : N ≤ H) :
    (∀ i, i < N → start_row H N i < end_row H N i) ∧
    (∀ i j, i < j → j < N → end_row H N i ≤ start_row H N j) ∧
    (∀ y, y < H ↔ ∃ i, i < N ∧ start_row H N i ≤ y ∧ y < end_row H N i) :=
  bands_cover H N hN hNH

/-- Witness of C1 at `H = 5`, `N = 2`: the bands are `[0, 2)` and `[2, 5)`. -/
theorem row_bands_partition_witness :
    (∀ i, i < 2 → start_row 5 2 i < end_row 5 2 i) ∧
    (∀ i j, i < j → j < 2 → end_row 5 2 i ≤ start_row 5 2 j) ∧
    (∀ y, y < 5 ↔ ∃ i, i < 2 ∧ start_row 5 2 i ≤ y ∧ y < end_row 5 2 i) :=
  row_bands_partition 5 2 (by decide) (by decide) (by decide)

/-! ### The median filter -/

namespace MMFThread

theorem gather_window_eq (p : FilterParams) (x y c : Nat) :
    gather_window p x y c = gathered p x y c := by
  have inner : ∀ (ky : Int) (window : List Nat),
      (List.range (2 * (p.window_size / 2) + 1)).foldl
        (fun acc (jx : Nat) =>
          if in_image p x y ((jx : Int) - ((p.window_size / 2 : Nat) : Int)) ky then
            acc ++ [window_sample p x y c ((jx : Int) - ((p.window_size / 2 : Nat) : Int)) ky]
          else acc) window =
        window ++ ((List.range (2 * (p.window_size / 2) + 1)).filter (fun (jx : Nat) =>
          decide (in_image p x y ((jx : Int) - ((p.window_size / 2 : Nat) : Int)) ky))).map
          (fun (jx : Nat) => window_sample p x y c ((jx : Int) - ((p.window_size / 2 : Nat) : Int)) ky) :=
    fun ky window => foldl_cond_append _ _ _ window
  show (List.range (2 * (p.window_size / 2) + 1)).foldl
      (fun acc (jy : Nat) => (List.range (2 * (p.window_size / 2) + 1)).foldl
        (fun acc (jx : Nat) =>
          if in_image p x y ((jx : Int) - ((p.window_size / 2 : Nat) : Int))
              ((jy : Int) - ((p.window_size / 2 : Nat) : Int)) then
            acc ++ [window_sample p x y c ((jx : Int) - ((p.window_size / 2 : Nat) : Int))
              ((jy : Int) - ((p.window_size / 2 : Nat) : Int))]
          else acc) acc) [] = gathered p x y c
  simp only [inner]
  rw [foldl_append_flatMap, List.nil_append]
  rfl

theorem toNat_index (W C c : Nat) (a b : Int) (ha : 0 ≤ a) (hb : 0 ≤ b) :
    ((b * (W : Int) + a) * (C : Int) + (c : Int)).toNat = sampleIndex W C a.toNat b.toNat c := by
  obtain ⟨a', rfl⟩ := Int.eq_ofNat_of_zero_le ha
  obtain ⟨b', rfl⟩ := Int.eq_ofNat_of_zero_le hb
  unfold sampleIndex
  have h : (((b' : Int) * (W : Int) + (a' : Int)) * (C : Int) + (c : Int)) =
      (((b' * W + a') * C + c : Nat) : Int) := by push_cast; ring
  rw [h]
  simp only [Int.toNat_ofNat]

theorem gather_window_length_le (p : FilterParams) (x y c : Nat) :
    (gather_window p x y c).length ≤
      (2 * (p.window_size / 2) + 1) * (2 * (p.window_size / 2) + 1) := by
  rw [gather_window_eq]
  unfold gathered
  have h := length_flatMap_le (List.range (2 * (p.window_size / 2) + 1))
    (fun (jy : Nat) =>
      ((List.range (2 * (p.window_size / 2) + 1)).filter (fun (jx : Nat) =>
        decide (in_image p x y ((jx : Int) - ((p.window_size / 2 : Nat) : Int))
          ((jy : Int) - ((p.window_size / 2 : Nat) : Int))))).map
        (fun (jx : Nat) => window_sample p x y c ((jx : Int) - ((p.window_size / 2 : Nat) : Int))
          ((jy : Int) - ((p.window_size / 2 : Nat) : Int))))
    (2 * (p.window_size / 2) + 1)
    (by
      intro jy _
      rw [List.length_map]
      calc _ ≤ (List.range (2 * (p.window_size / 2) + 1)).length := List.length_filter_le _ _
        _ = 2 * (p.window_size / 2) + 1 := List.length_range _)
  rw [List.length_range] at h
  exact h

/-- Every gathered sample is the input sample of channel `c` at a position inside the
image and within `window_size / 2` of the pixel. -/
theorem mem_gather_window (p : FilterParams) (x y c a : Nat) (h : a ∈ gather_window p x y c) :
    ∃ nx ny, InWindow p.width p.height (p.window_size / 2) x y nx ny ∧
      a = p.input.getD (sampleIndex p.width p.channels nx ny c) 0 := by
  rw [gather_window_eq] at h
  unfold gathered at h
  obtain ⟨jy, hjy, h⟩ := List.mem_flatMap.1 h
  obtain ⟨jx, hjx, rfl⟩ := List.mem_map.1 h
  obtain ⟨hjx, hin⟩ := List.mem_filter.1 hjx
  rw [List.mem_range] at hjy hjx
  have hin' := of_decide_eq_true hin
  obtain ⟨h1, h2, h3, h4⟩ := hin'
  refine ⟨((x : Int) + ((jx : Int) - ((p.window_size / 2 : Nat) : Int))).toNat,
    ((y : Int) + ((jy : Int) - ((p.window_size / 2 : Nat) : Int))).toNat, ⟨?_, ?_, ?_, ?_⟩, ?_⟩
  · omega
  · omega
  · rw [abs_le]; omega
  · rw [abs_le]; omega
  · unfold window_sample
    rw [toNat_index _ _ _ _ _ h1 h3]

/-- Every position inside the image and within `window_size / 2` of the pixel is
gathered. -/
theorem gather_window_mem (p : FilterParams) (x y c nx ny : Nat)
    (h : InWindow p.width p.height (p.window_size / 2) x y nx ny) :
    p.input.getD (sampleIndex p.width p.channels nx ny c) 0 ∈ gather_window p x y c := by
  obtain ⟨h1, h2, h3, h4⟩ := h
  rw [abs_le] at h3 h4
  rw [gather_window_eq]
  unfold gathered
  have ex : ((x : Int) + ((((nx + p.window_size / 2 - x : Nat) : Nat) : Int) -
      ((p.window_size / 2 : Nat) : Int))) = (nx : Int) := by omega
  have ey : ((y : Int) + ((((ny + p.window_size / 2 - y : Nat) : Nat) : Int) -
      ((p.window_size / 2 : Nat) : Int))) = (ny : Int) := by omega
  refine List.mem_flatMap.2 ⟨ny + p.window_size / 2 - y, ?_, ?_⟩
  · rw [List.mem_range]; omega
  · refine List.mem_map.2 ⟨nx + p.window_size / 2 - x, ?_, ?_⟩
    · refine List.mem_filter.2 ⟨?_, ?_⟩
      · rw [List.mem_range]; omega
      · apply decide_eq_true
        unfold in_image
        rw [ex, ey]
        omega
    · unfold window_sample
      rw [ex, ey, toNat_index _ _ _ _ _ (by omega) (by omega)]
      simp

theorem inWindow_self (W H pad x y : Nat) (hx : x < W) (hy : y < H) :
    InWindow W H pad x y x y := by
  refine ⟨hx, hy, ?_, ?_⟩ <;> simp

theorem median_at_sampleIndex (p : FilterParams) (x y c : Nat) (hx : x < p.width)
    (hc : c < p.channels) :
    median_at p (sampleIndex p.width p.channels x y c) = median_value p x y c := by
  unfold median_at
  rw [sampleIndex_col _ _ _ _ _ hx hc, sampleIndex_row _ _ _ _ _ hx hc,
    sampleIndex_mod _ _ _ _ _ hc]

theorem median_pixel_writes (n : Nat) (p : FilterParams) (x y c : Nat) (hx : x < p.width)
    (hc : c < p.channels) :
    WritesOn n (fun out => (some out).bind (median_pixel p x y c)) (window_fits p x y c)
      (fun i => i = sampleIndex p.width p.channels x y c) (median_at p) :=
  WritesOn.set n (sampleIndex p.width p.channels x y c) (median_value p x y c)
    (window_fits p x y c) (median_at p) (median_at_sampleIndex p x y c hx hc)

/-- What one worker does: it is undefined when some pixel of its band overruns `window`,
and otherwise stores the median at every sample of its band and nothing else. -/
theorem apply_median_filter_section_writes (n : Nat) (p : FilterParams) :
    WritesOn n (apply_median_filter_section p) (rows_fit p p.start_row p.end_row)
      (InRows p.width p.channels p.start_row p.end_row) (median_at p) :=
  WritesOn.pixel_loops n p.width p.channels p.start_row p.end_row (median_pixel p)
    (window_fits p) (median_at p)
    (fun y x c _ _ hx hc => median_pixel_writes n p x y c hx hc)

theorem median_at_worker (input : List Nat) (W H C ws N i : Nat) :
    median_at (worker_params input W H C ws N i) = median_at (single_params input W H C ws) :=
  rfl

theorem rows_fit_worker (input : List Nat) (W H C ws N i lo hi : Nat) :
    rows_fit (worker_params input W H C ws N i) lo hi ↔
      rows_fit (single_params input W H C ws) lo hi :=
  Iff.rfl

/-- What the whole program does, in terms of the bands of the partition. -/
theorem parallel_median_filter_writes (input : List Nat) (W H C ws N : Nat) :
    WritesOn (W * H * C) (fun out => parallel_median_filter input out W H C ws N)
      (∀ i, i < N → rows_fit (single_params input W H C ws) (start_row H N i) (end_row H N i))
      (fun k => ∃ i, i < N ∧ InRows W C (start_row H N i) (end_row H N i) k)
      (median_at (single_params input W H C ws)) := by
  have key := WritesOn.loop (W * H * C) 0 N
    (fun i acc => acc.bind (apply_median_filter_section (worker_params input W H C ws N i)))
    (fun i => rows_fit (single_params input W H C ws) (start_row H N i) (end_row H N i))
    (fun i k => InRows W C (start_row H N i) (end_row H N i) k)
    (median_at (single_params input W H C ws))
    (fun _ _ _ => rfl)
    (fun i _ _ => apply_median_filter_section_writes (W * H * C)
      (worker_params input W H C ws N i))
  refine WritesOn.congr key ?_ ?_ (fun _ _ _ => rfl)
  · exact ⟨fun h i hi => h i (Nat.zero_le _) hi, fun h i _ hi => h i hi⟩
  · intro k _
    exact ⟨fun ⟨i, _, hi, hk⟩ => ⟨i, hi, hk⟩, fun ⟨i, hi, hk⟩ => ⟨i, Nat.zero_le _, hi, hk⟩⟩

theorem parallel_median_filter_single (input output : List Nat) (W H C ws N : Nat)
    (hN : 1 ≤ N) (hNH : N ≤ H) (hout : output.length = W * H * C) :
    parallel_median_filter input output W H C ws N =
      apply_median_filter_section (single_params input W H C ws) output := by
  obtain ⟨-, -, hunion⟩ := bands_cover H N hN hNH
  have hend : ∀ i, i < N → end_row H N i ≤ H := fun i hi => end_row_le H N i hi
  refine WritesOn.agree (parallel_median_filter_writes input W H C ws N)
    (apply_median_filter_section_writes (W * H * C) (single_params input W H C ws))
    ?_ ?_ output hout
  · constructor
    · intro h y _ hy x hx c hc
      obtain ⟨i, hi, h1, h2⟩ := (hunion y).1 hy
      exact h i hi y h1 h2 x hx c hc
    · intro h i hi y _ h2 x hx c hc
      exact h y (Nat.zero_le _) (Nat.lt_of_lt_of_le h2 (hend i hi)) x hx c hc
  · intro k _
    constructor
    · rintro ⟨i, hi, y, _, h2, x, hx, c, hc, e⟩
      exact ⟨y, Nat.zero_le _, Nat.lt_of_lt_of_le h2 (hend i hi), x, hx, c, hc, e⟩
    · rintro ⟨y, _, hy, x, hx, c, hc, e⟩
      obtain ⟨i, hi, h1, h2⟩ := (hunion y).1 hy
      exact ⟨i, hi, y, h1, h2, x, hx, c, hc, e⟩

/-- C2: with `1 ≤ N ≤ H` workers the program `parallel_median_filter` returns exactly what
one worker returns on the band `[0, H)`: the two are undefined on the same images and
otherwise give the same buffer, sample for sample. -/
theorem parallel_median_filter_eq_single (input output : List Nat) (W H C ws N : Nat)
    (_hW : 1 ≤ W) (_hH : 1 ≤ H) (_hC : 1 ≤ C) (_hws : 1 ≤ ws) (hN : 1 ≤ N) (hNH : N ≤ H)
    (hout : output.length = W * H * C) :
    parallel_median_filter input output W H C ws N =
      apply_median_filter_section (single_params input W H C ws) output :=
  parallel_median_filter_single input output W H C ws N hN hNH hout

/-- Witness of C2: the 4x4 checkerboard, `window_size = 3`, two workers. -/
theorem parallel_median_filter_eq_single_witness :
    parallel_median_filter checkerboard (List.replicate 16 0) 4 4 1 3 2 =
        apply_median_filter_section (single_params checkerboard 4 4 1 3) (List.replicate 16 0) ∧
      parallel_median_filter checkerboard (List.replicate 16 0) 4 4 1 3 2 =
        some [200, 200, 200, 200, 200, 10, 200, 200, 200, 200, 10, 200, 200, 200, 200, 200] :=
  ⟨parallel_median_filter_eq_single checkerboard (List.replicate 16 0) 4 4 1 3 2
      (by decide) (by decide) (by decide) (by decide) (by decide) (by decide) (by decide),
    by decide⟩

/-! ### The gathered window and the window of the specification -/

theorem gather_window_perm (p : FilterParams) (x y c : Nat) :
    (gather_window p x y c).Perm
      (window_samples p.input p.width p.height p.channels (p.window_size / 2) x y c) := by
  let pad : Int := ((p.window_size / 2 : Nat) : Int)
  let n := 2 * (p.window_size / 2) + 1
  let sampleZ : Int × Int → Nat := fun q =>
    p.input.getD (((q.1 * (p.width : Int) + q.2) * (p.channels : Int) + (c : Int)).toNat) 0
  let codeZ : List (Int × Int) := (List.range n).flatMap (fun (jy : Nat) =>
    ((List.range n).filter (fun (jx : Nat) =>
      decide (in_image p x y ((jx : Int) - pad) ((jy : Int) - pad)))).map
      (fun (jx : Nat) => ((y : Int) + ((jy : Int) - pad), (x : Int) + ((jx : Int) - pad))))
  let specZ : List (Int × Int) :=
    (window_positions p.width p.height (p.window_size / 2) x y).map
      (fun q => ((q.1 : Int), (q.2 : Int)))
  have e1 : gather_window p x y c = codeZ.map sampleZ := by
    rw [gather_window_eq]
    simp only [codeZ, List.map_flatMap, List.map_map]
    rfl
  have e2 : window_samples p.input p.width p.height p.channels (p.window_size / 2) x y c =
      specZ.map sampleZ := by
    simp only [specZ, window_samples, List.map_map]
    apply List.map_congr_left
    intro q _
    simp only [Function.comp, sampleZ]
    rw [toNat_index _ _ _ _ _ (Int.ofNat_nonneg _) (Int.ofNat_nonneg _)]
    simp
  have d1 : codeZ.Nodup := by
    rw [List.nodup_flatMap]
    constructor
    · intro jy _
      apply List.Nodup.map
      · intro a b hab
        simp only [Prod.mk.injEq, true_and] at hab
        omega
      · exact (List.nodup_range n).filter _
    · apply List.Pairwise.imp _ (List.nodup_range n)
      intro a b hab q h1 h2
      obtain ⟨j1, -, rfl⟩ := List.mem_map.1 h1
      obtain ⟨j2, -, h3⟩ := List.mem_map.1 h2
      simp only [Prod.mk.injEq] at h3
      omega
  have d2 : specZ.Nodup := by
    apply List.Nodup.map
    · intro a b hab
      simp only [Prod.mk.injEq] at hab
      exact Prod.ext (by omega) (by omega)
    · exact ((List.nodup_range _).product (List.nodup_range _)).filter _
  have hperm : codeZ.Perm specZ := by
    rw [List.perm_ext_iff_of_nodup d1 d2]
    rintro ⟨qy, qx⟩
    constructor
    · intro h
      obtain ⟨jy, hjy, h⟩ := List.mem_flatMap.1 h
      obtain ⟨jx, hjx, e⟩ := List.mem_map.1 h
      obtain ⟨hjx, hin⟩ := List.mem_filter.1 hjx
      rw [List.mem_range] at hjy hjx
      obtain ⟨h1, h2, h3, h4⟩ := of_decide_eq_true hin
      simp only [Prod.mk.injEq] at e
      refine List.mem_map.2 ⟨(qy.toNat, qx.toNat), ?_, ?_⟩
      · unfold window_positions
        refine List.mem_filter.2 ⟨?_, ?_⟩
        · rw [List.pair_mem_product, List.mem_range, List.mem_range]
          omega
        · apply decide_eq_true
          refine ⟨by omega, by omega, ?_, ?_⟩
          · rw [abs_le]; omega
          · rw [abs_le]; omega
      · exact Prod.ext (by simp only; omega) (by simp only; omega)
    · intro h
      obtain ⟨⟨ny, nx⟩, hq, e⟩ := List.mem_map.1 h
      unfold window_positions at hq
      obtain ⟨-, hw⟩ := List.mem_filter.1 hq
      obtain ⟨h1, h2, h3, h4⟩ := of_decide_eq_true hw
      rw [abs_le] at h3 h4
      simp only [Prod.mk.injEq] at e
      simp only at h1 h2 h3 h4
      refine List.mem_flatMap.2 ⟨ny + p.window_size / 2 - y, ?_, ?_⟩
      · rw [List.mem_range]; omega
      · refine List.mem_map.2 ⟨nx + p.window_size / 2 - x, ?_, ?_⟩
        · refine List.mem_filter.2 ⟨?_, ?_⟩
          · rw [List.mem_range]; omega
          · apply decide_eq_true
            unfold in_image
            omega
        · exact Prod.ext (by simp only; omega) (by simp only; omega)
  rw [e1, e2]
  exact hperm.map sampleZ

/-! ### The sorted window -/

theorem qsort_eq (w : List Nat) : qsort w = w.insertionSort (fun a b => a ≤ b) := by
  unfold qsort
  induction w with
  | nil => rfl
  | cons a w ih =>
    simp only [List.insertionSort]
    rw [ih]
    generalize w.insertionSort (fun a b => a ≤ b) = l
    induction l with
    | nil => rfl
    | cons b l ih2 =>
      simp only [List.orderedInsert]
      by_cases hab : a ≤ b
      · have h' : compare a b ≤ 0 := by unfold compare; omega
        rw [if_pos hab, if_pos h']
      · have h' : ¬ compare a b ≤ 0 := by unfold compare; omega
        rw [if_neg hab, if_neg h', ih2]

theorem qsort_perm (w : List Nat) : (qsort w).Perm w := by
  rw [qsort_eq]
  exact List.perm_insertionSort _ w

theorem qsort_sorted (w : List Nat) : (qsort w).Sorted (fun a b => a ≤ b) := by
  rw [qsort_eq]
  exact List.sorted_insertionSort _ w

/-- The index `count / 2` read after sorting holds one of the gathered samples. -/
theorem median_value_mem (p : FilterParams) (x y c : Nat) (hx : x < p.width)
    (hy : y < p.height) : median_value p x y c ∈ gather_window p x y c := by
  have hmem := gather_window_mem p x y c x y
    (inWindow_self p.width p.height (p.window_size / 2) x y hx hy)
  have hpos : 0 < (gather_window p x y c).length := List.length_pos_of_mem hmem
  have hl : (qsort (gather_window p x y c)).length = (gather_window p x y c).length :=
    (qsort_perm _).length_eq
  have hi : (gather_window p x y c).length / 2 < (qsort (gather_window p x y c)).length := by
    rw [hl]; omega
  unfold median_value
  rw [List.getD_eq_getElem _ _ hi]
  exact (qsort_perm _).subset (List.getElem_mem _)

theorem rows_fit_of_odd (p : FilterParams) (lo hi : Nat) (hodd : p.window_size % 2 = 1) :
    rows_fit p lo hi := by
  intro y _ _ x _ c _
  unfold window_fits
  have h := gather_window_length_le p x y c
  have e : 2 * (p.window_size / 2) + 1 = p.window_size := by omega
  rw [e] at h
  exact h

/-- When no window overruns and every gathered sample equals the sample at the centre of
its window, the program returns the input image. -/
theorem parallel_median_filter_identity (input output : List Nat) (W H C ws N : Nat)
    (hN : 1 ≤ N) (hNH : N ≤ H) (hin : input.length = W * H * C)
    (hout : output.length = W * H * C)
    (hfit : rows_fit (single_params input W H C ws) 0 H)
    (hall : ∀ x y c, x < W → y < H → c < C →
      ∀ a ∈ gather_window (single_params input W H C ws) x y c,
        a = input.getD (sampleIndex W C x y c) 0) :
    parallel_median_filter input output W H C ws N = some input := by
  rw [parallel_median_filter_single input output W H C ws N hN hNH hout]
  obtain ⟨-, h2⟩ :=
    apply_median_filter_section_writes (W * H * C) (single_params input W H C ws) output hout
  obtain ⟨out', e, hl, hw, -⟩ := h2 hfit
  rw [e]
  congr 1
  apply List.ext_getElem (by omega)
  intro i hi1 hi2
  have hi : i < W * H * C := by omega
  rw [← List.getD_eq_getElem out' 0 hi1, ← List.getD_eq_getElem input 0 hi2]
  rw [hw i hi (inRows_full W H C i hi)]
  obtain ⟨d1, d2, d3, d4⟩ := sampleIndex_decode W H C i hi
  have hm := median_value_mem (single_params input W H C ws) ((i / C) % W) (i / C / W) (i % C)
    d1 d2
  have := hall _ _ _ d1 d2 d3 _ hm
  rw [← d4] at this
  exact this

/-- What a worker stores when no window of its band overruns: for every pixel of the band
the element at index `count / 2` of the ascending arrangement of the samples of the
window of the specification, `count` being the number of positions of that window. -/
theorem median_section_stores_rank (p : FilterParams) (output : List Nat) (x y c : Nat)
    (hout : output.length = p.width * p.height * p.channels) (hend : p.end_row ≤ p.height)
    (hfit : rows_fit p p.start_row p.end_row)
    (hy1 : p.start_row ≤ y) (hy2 : y < p.end_row) (hx : x < p.width) (hc : c < p.channels) :
    ∃ out', apply_median_filter_section p output = some out' ∧
      ∀ s : List Nat, s.Sorted (fun a b => a ≤ b) →
        s.Perm (window_samples p.input p.width p.height p.channels (p.window_size / 2) x y c) →
        out'.getD (sampleIndex p.width p.channels x y c) 0 =
          s.getD ((window_positions p.width p.height (p.window_size / 2) x y).length / 2) 0 := by
  obtain ⟨-, h2⟩ :=
    apply_median_filter_section_writes (p.width * p.height * p.channels) p output hout
  obtain ⟨out', e, -, hw, -⟩ := h2 hfit
  refine ⟨out', e, ?_⟩
  intro s hs hp
  have hlt := sampleIndex_lt p.width p.height p.channels x y c hx (by omega) hc
  rw [hw _ hlt ⟨y, hy1, hy2, x, hx, c, hc, rfl⟩, median_at_sampleIndex p x y c hx hc]
  have hperm := gather_window_perm p x y c
  have hs' : s = qsort (gather_window p x y c) :=
    List.eq_of_perm_of_sorted (hp.trans ((qsort_perm _).trans hperm).symm) hs (qsort_sorted _)
  have hlen : (gather_window p x y c).length =
      (window_positions p.width p.height (p.window_size / 2) x y).length := by
    rw [hperm.length_eq]
    unfold window_samples
    rw [List.length_map]
  unfold median_value
  rw [hs', hlen]

/-- The uniform-image case of the identity: when no window overruns and all samples of a
channel are equal, the program returns the input image. -/
theorem parallel_median_filter_uniform (input output : List Nat) (W H C ws N : Nat)
    (v : Nat → Nat) (hN : 1 ≤ N) (hNH : N ≤ H) (hin : input.length = W * H * C)
    (hout : output.length = W * H * C)
    (hfit : rows_fit (single_params input W H C ws) 0 H)
    (hu : ∀ x y c, x < W → y < H → c < C → input.getD (sampleIndex W C x y c) 0 = v c) :
    parallel_median_filter input output W H C ws N = some input := by
  apply parallel_median_filter_identity input output W H C ws N hN hNH hin hout hfit
  intro x y c hx hy hc a ha
  obtain ⟨nx, ny, ⟨h1, h2, -, -⟩, rfl⟩ := mem_gather_window _ x y c a ha
  exact (hu nx ny c h1 h2 hc).trans (hu x y c hx hy hc).symm

/-- C3 at a failing input: on the 3x3 single-channel image `1 .. 9` with `window_size = 2`
the window array holds `2 * 2 = 4` bytes, the pixel `(1, 1)` gathers 9 samples, and the
worker of rows `[0, 3)` has no defined result. -/
theorem median_even_window_overrun :
    (gather_window (single_params [1, 2, 3, 4, 5, 6, 7, 8, 9] 3 3 1 2) 1 1 0).length = 9 ∧
      median_pixel (single_params [1, 2, 3, 4, 5, 6, 7, 8, 9] 3 3 1 2) 1 1 0
        (List.replicate 9 0) = none ∧
      apply_median_filter_section (single_params [1, 2, 3, 4, 5, 6, 7, 8, 9] 3 3 1 2)
        (List.replicate 9 0) = none := by
  decide

/-- C10 at a failing input: on the uniform 3x3 single-channel image of 7s with
`window_size = 2` and one worker the program has no defined result (the pixel `(1, 0)`
gathers 6 samples into the 4-byte window), so it does not return the input image. -/
theorem median_uniform_even_window_overrun :
    (gather_window (single_params (List.replicate 9 7) 3 3 1 2) 1 0 0).length = 6 ∧
      parallel_median_filter (List.replicate 9 7) (List.replicate 9 0) 3 3 1 2 1 = none := by
  decide

/-- C9: with `window_size = 1` (and `1 ≤ N ≤ H` workers, buffers of `W * H * C` samples)
the median filter returns the input image: every output sample is the input sample at the
same index. -/
theorem median_window_one_identity (input output : List Nat) (W H C N : Nat)
    (hN : 1 ≤ N) (hNH : N ≤ H) (hin : input.length = W * H * C)
    (hout : output.length = W * H * C) :
    parallel_median_filter input output W H C 1 N = some input := by
  apply parallel_median_filter_identity input output W H C 1 N hN hNH hin hout
  · exact rows_fit_of_odd _ 0 H rfl
  · intro x y c _ _ _ a ha
    obtain ⟨nx, ny, ⟨-, -, h3, h4⟩, rfl⟩ := mem_gather_window _ x y c a ha
    rw [abs_le] at h3 h4
    have ex : nx = x := by
      have : ((1 : Nat) / 2 : Nat) = 0 := rfl
      simp only [single_params, this] at h3
      omega
    have ey : ny = y := by
      have : ((1 : Nat) / 2 : Nat) = 0 := rfl
      simp only [single_params, this] at h4
      omega
    rw [ex, ey]
    rfl

/-- Witness of C9: the checkerboard with two workers. -/
theorem median_window_one_identity_witness :
    parallel_median_filter checkerboard (List.replicate 16 0) 4 4 1 1 2 = some checkerboard :=
  median_window_one_identity checkerboard (List.replicate 16 0) 4 4 1 2
    (by decide) (by decide) (by decide) (by decide)

end MMFThread


/-! ### The diffusion filter -/

namespace DDFThread

/-! #### The value computed for one sample -/

theorem getD_le_of_bytes (temp : List Nat) (hb : ∀ b ∈ temp, b ≤ 255) (i : Nat) :
    temp.getD i 0 ≤ 255 := by
  by_cases hi : i < temp.length
  · rw [List.getD_eq_getElem _ _ hi]
    exact hb _ (List.getElem_mem _)
  · rw [List.getD_eq_default _ _ (by omega)]
    omega

theorem delta_bounds (cond : Prop) [Decidable cond] (a old : Nat) (ha : a ≤ 255) :
    -(old : ℚ) ≤ delta cond a old ∧ delta cond a old ≤ 255 - (old : ℚ) ∨
      delta cond a old = 0 := by
  unfold delta
  split_ifs
  · left
    have h1 : (0 : ℚ) ≤ (a : ℚ) := Nat.cast_nonneg a
    have h2 : (a : ℚ) ≤ 255 := by exact_mod_cast ha
    push_cast
    constructor <;> linarith
  · right; rfl

theorem flux_bounds (k d old : ℚ) (hk0 : 0 ≤ k) (hk1 : k ≤ 1) (ho0 : 0 ≤ old)
    (ho1 : old ≤ 255) (hd : -old ≤ d ∧ d ≤ 255 - old ∨ d = 0) :
    -old ≤ k * d ∧ k * d ≤ 255 - old := by
  rcases hd with ⟨h1, h2⟩ | h0
  · constructor
    · nlinarith [mul_nonneg hk0 (by linarith : (0 : ℚ) ≤ d + old),
        mul_nonneg (by linarith : (0 : ℚ) ≤ 1 - k) ho0]
    · nlinarith [mul_nonneg hk0 (by linarith : (0 : ℚ) ≤ 255 - old - d),
        mul_nonneg (by linarith : (0 : ℚ) ≤ 1 - k) (by linarith : (0 : ℚ) ≤ 255 - old)]
  · subst h0
    rw [mul_zero]
    constructor <;> linarith

theorem to_uchar_of_range (v : ℚ) (h0 : 0 ≤ v) (h1 : v ≤ 255) :
    to_uchar v = some ⌊v⌋.toNat ∧ ⌊v⌋.toNat ≤ 255 := by
  have hf0 : 0 ≤ ⌊v⌋ := Int.floor_nonneg.2 h0
  have hf1 : ⌊v⌋ ≤ 255 := by
    have : ((⌊v⌋ : Int) : ℚ) ≤ 255 := le_trans (Int.floor_le v) h1
    exact_mod_cast this
  constructor
  · unfold to_uchar
    simp only [if_pos h0]
    rw [if_pos ⟨hf0, hf1⟩]
  · omega

theorem to_uchar_natCast (b : Nat) (hb : b ≤ 255) : to_uchar (b : ℚ) = some b := by
  have h := (to_uchar_of_range (b : ℚ) (Nat.cast_nonneg b) (by exact_mod_cast hb)).1
  rw [h, Int.floor_natCast, Int.toNat_ofNat]

theorem expf_near_zero_range (t : ℚ) : 0 ≤ expf_near_zero t ∧ expf_near_zero t ≤ 1 := by
  unfold expf_near_zero
  split_ifs <;> norm_num

theorem FLT_MAX_large : (65025 : ℚ) ≤ FLT_MAX := by
  unfold FLT_MAX
  norm_num

/-- A directional difference of bytes is an integer between `-old` and `255 - old`. -/
theorem delta_int (cond : Prop) [Decidable cond] (a old : Nat) (ha : a ≤ 255)
    (ho : old ≤ 255) :
    ∃ z : Int, delta cond a old = (z : ℚ) ∧ -(old : Int) ≤ z ∧ z ≤ 255 - (old : Int) := by
  unfold delta
  split_ifs
  · exact ⟨(a : Int) - (old : Int), rfl, by omega, by omega⟩
  · exact ⟨0, by simp, by omega, by omega⟩

/-- The conductance of a difference of bytes when the square of `lambda`, rounded to
`float`, is not zero: a number of `[0, 1]`. -/
theorem conductance_range (expf : ℚ → ℚ) (z : Int) (lambda : ℚ) (hz1 : -255 ≤ z)
    (hz2 : z ≤ 255) (hl : round32 (lambda * lambda) ≠ 0)
    (hexp : ∀ t, t ≤ 0 → 0 ≤ expf t ∧ expf t ≤ 1) :
    ∃ k, conductance expf (z : ℚ) lambda = some k ∧ 0 ≤ k ∧ k ≤ 1 := by
  have hzz : (z : ℚ) * (z : ℚ) = ((z * z : Int) : ℚ) := by push_cast; ring
  have hb : 0 ≤ z * z ∧ z * z ≤ 65025 := by constructor <;> nlinarith
  have hgg : round32 ((z : ℚ) * (z : ℚ)) = ((z * z : Int) : ℚ) := by
    rw [hzz]
    exact round32_int _ (by omega) (by omega)
  have hgg0 : (0 : ℚ) ≤ ((z * z : Int) : ℚ) := by exact_mod_cast hb.1
  have hgg1 : ((z * z : Int) : ℚ) ≤ FLT_MAX :=
    le_trans (by exact_mod_cast hb.2) FLT_MAX_large
  have hll0 : 0 ≤ round32 (lambda * lambda) := round_to_nonneg _ _ _ (mul_self_nonneg lambda)
  unfold conductance
  simp only [hgg]
  rw [if_neg (not_lt.2 hgg1)]
  by_cases h1 : round32 (lambda * lambda) > FLT_MAX
  · rw [if_pos h1]
    exact ⟨_, rfl, hexp 0 (le_refl 0)⟩
  · rw [if_neg h1, if_neg hl]
    by_cases h2 : round32 (-((z * z : Int) : ℚ) / round32 (lambda * lambda)) < -FLT_MAX
    · rw [if_pos h2]
      exact ⟨0, rfl, le_refl 0, zero_le_one⟩
    · rw [if_neg h2]
      refine ⟨_, rfl, hexp _ ?_⟩
      exact round_to_nonpos _ _ _
        (div_nonpos_of_nonpos_of_nonneg (neg_nonpos.2 hgg0) hll0)

/-- The conductance of a zero difference when the square of `lambda`, rounded to `float`,
is not zero. -/
theorem conductance_zero (expf : ℚ → ℚ) (lambda : ℚ) (hl : round32 (lambda * lambda) ≠ 0) :
    conductance expf 0 lambda = some (expf 0) := by
  unfold conductance
  simp only [mul_zero, round32_zero, neg_zero, zero_div]
  have hpos : ¬ (0 : ℚ) > FLT_MAX := not_lt.2 (le_trans (by norm_num) FLT_MAX_large)
  have hneg : ¬ (0 : ℚ) < -FLT_MAX := by
    have := le_trans (by norm_num : (0 : ℚ) ≤ 65025) FLT_MAX_large
    intro h
    linarith
  rw [if_neg hpos]
  by_cases h1 : round32 (lambda * lambda) > FLT_MAX
  · rw [if_pos h1]
  · rw [if_neg h1, if_neg hl, if_neg hneg]

/-- A term `c * delta` of line 68, rounded to `float`, for a conductance of `[0, 1]`. -/
theorem term_bounds (k : ℚ) (z : Int) (old : Nat) (hk0 : 0 ≤ k) (hk1 : k ≤ 1)
    (ho : old ≤ 255) (hz1 : -(old : Int) ≤ z) (hz2 : z ≤ 255 - (old : Int)) :
    ((-(old : Int) : Int) : ℚ) ≤ round32 (k * (z : ℚ)) ∧
      round32 (k * (z : ℚ)) ≤ ((255 - (old : Int) : Int) : ℚ) := by
  have h1 : -(old : ℚ) ≤ (z : ℚ) := by exact_mod_cast hz1
  have h2 : (z : ℚ) ≤ 255 - (old : ℚ) := by exact_mod_cast hz2
  have hb := flux_bounds k (z : ℚ) (old : ℚ) hk0 hk1 (Nat.cast_nonneg old)
    (by exact_mod_cast ho) (Or.inl ⟨h1, h2⟩)
  apply round32_between _ _ _ (by omega) (by omega)
  · push_cast; exact hb.1
  · push_cast; exact hb.2

theorem round32_add_bounds (a b : ℚ) (a1 a2 b1 b2 : Int) (h1 : -4000 ≤ a1 + b1)
    (h2 : a2 + b2 ≤ 4000) (ha : (a1 : ℚ) ≤ a ∧ a ≤ (a2 : ℚ))
    (hb : (b1 : ℚ) ≤ b ∧ b ≤ (b2 : ℚ)) :
    ((a1 + b1 : Int) : ℚ) ≤ round32 (a + b) ∧ round32 (a + b) ≤ ((a2 + b2 : Int) : ℚ) := by
  apply round32_between _ _ _ (by omega) (by omega)
  · push_cast; linarith [ha.1, hb.1]
  · push_cast; linarith [ha.2, hb.2]

/-- The value of line 68 when the square of `lambda`, rounded to `float`, is not zero,
every sample is a byte and `expf` maps the non-positive numbers into `[0, 1]`: it is a
number of `[0, 255]`. -/
theorem ddf_value_bounds (expf : ℚ → ℚ) (lambda : ℚ) (W H C : Nat) (temp : List Nat)
    (x y c : Nat) (hb : ∀ b ∈ temp, b ≤ 255) (hl : round32 (lambda * lambda) ≠ 0)
    (hexp : ∀ t, t ≤ 0 → 0 ≤ expf t ∧ expf t ≤ 1) :
    ∃ v, ddf_value expf lambda W H C temp x y c = some v ∧ 0 ≤ v ∧ v ≤ 255 := by
  have ho := getD_le_of_bytes temp hb ((y * W + x) * C + c)
  obtain ⟨zN, eN, hN1, hN2⟩ := delta_int (y > 0)
    (temp.getD (((y - 1) * W + x) * C + c) 0) (temp.getD ((y * W + x) * C + c) 0)
    (getD_le_of_bytes temp hb _) ho
  obtain ⟨zS, eS, hS1, hS2⟩ := delta_int ((y : Int) < (H : Int) - 1)
    (temp.getD (((y + 1) * W + x) * C + c) 0) (temp.getD ((y * W + x) * C + c) 0)
    (getD_le_of_bytes temp hb _) ho
  obtain ⟨zE, eE, hE1, hE2⟩ := delta_int ((x : Int) < (W : Int) - 1)
    (temp.getD ((y * W + (x + 1)) * C + c) 0) (temp.getD ((y * W + x) * C + c) 0)
    (getD_le_of_bytes temp hb _) ho
  obtain ⟨zW, eW, hW1, hW2⟩ := delta_int (x > 0)
    (temp.getD ((y * W + (x - 1)) * C + c) 0) (temp.getD ((y * W + x) * C + c) 0)
    (getD_le_of_bytes temp hb _) ho
  obtain ⟨kN, cN, kN0, kN1⟩ := conductance_range expf zN lambda (by omega) (by omega) hl hexp
  obtain ⟨kS, cS, kS0, kS1⟩ := conductance_range expf zS lambda (by omega) (by omega) hl hexp
  obtain ⟨kE, cE, kE0, kE1⟩ := conductance_range expf zE lambda (by omega) (by omega) hl hexp
  obtain ⟨kW, cW, kW0, kW1⟩ := conductance_range expf zW lambda (by omega) (by omega) hl hexp
  unfold ddf_value
  simp only [eN, eS, eE, eW, cN, cS, cE, cW, Option.some_bind]
  have tN := term_bounds kN zN _ kN0 kN1 ho hN1 hN2
  have tS := term_bounds kS zS _ kS0 kS1 ho hS1 hS2
  have tE := term_bounds kE zE _ kE0 kE1 ho hE1 hE2
  have tW := term_bounds kW zW _ kW0 kW1 ho hW1 hW2
  have s1 := round32_add_bounds _ _ _ _ _ _ (by omega) (by omega) tN tS
  have s2 := round32_add_bounds _ _ _ _ _ _ (by omega) (by omega) s1 tE
  have s3 := round32_add_bounds _ _ _ _ _ _ (by omega) (by omega) s2 tW
  generalize round32 (round32 (round32 (round32 (kN * (zN : ℚ)) + round32 (kS * (zS : ℚ))) +
    round32 (kE * (zE : ℚ))) + round32 (kW * (zW : ℚ))) = s at s3
  generalize temp.getD ((y * W + x) * C + c) 0 = old at ho s3
  push_cast at s3
  have q := round64_between ((1 / 4) * s) (-(old : Int)) (255 - (old : Int)) (by omega)
    (by omega) (by push_cast; linarith [s3.1]) (by push_cast; linarith [s3.2])
  push_cast at q
  have r := round64_between ((old : ℚ) + round64 ((1 / 4) * s)) 0 255 (by decide) (by decide)
    (by push_cast; linarith [q.1]) (by push_cast; linarith [q.2])
  push_cast at r
  exact ⟨_, rfl, r.1, r.2⟩

/-- The rounding of line 68 is that of the `double` sum: for an `expf` whose value at `-36`
is `2^-52` (`lambda = 1`, difference `-6`) the value `6 - 0.25 * 6 * 2^-52` without
rounding is below 6, the `double` nearest to it is `6.0`, and the byte stored is 6. -/
theorem ddf_store_rounds_in_double :
    ddf_store (fun t => if t = 0 then 1 else 1 / 2 ^ 52) 1 1 2 1 [0, 6] 0 1 0 = some 6 ∧
      ((6 : ℚ) + (1 / 4) * ((1 / 2 ^ 52) * (-6)) < 6) := by
  decide!

theorem ddf_at_sampleIndex (expf : ℚ → ℚ) (lambda : ℚ) (W H C : Nat) (temp : List Nat)
    (x y c : Nat) (hx : x < W) (hc : c < C) :
    ddf_at expf lambda W H C temp (sampleIndex W C x y c) =
      (ddf_store expf lambda W H C temp x y c).getD 0 := by
  unfold ddf_at
  rw [sampleIndex_col _ _ _ _ _ hx hc, sampleIndex_row _ _ _ _ _ hx hc,
    sampleIndex_mod _ _ _ _ _ hc]

theorem ddf_pixel_writes (n : Nat) (expf : ℚ → ℚ) (p : FilterParams) (temp : List Nat)
    (x y c : Nat) (hx : x < p.width) (hc : c < p.channels) :
    WritesOn n (fun out => (some out).bind (ddf_pixel expf p temp x y c))
      ((ddf_store expf p.lambda p.width p.height p.channels temp x y c).isSome = true)
      (fun i => i = sampleIndex p.width p.channels x y c)
      (ddf_at expf p.lambda p.width p.height p.channels temp) := by
  refine WritesOn.of_eq (WritesOn.set n (sampleIndex p.width p.channels x y c)
    ((ddf_store expf p.lambda p.width p.height p.channels temp x y c).getD 0) _ _
    (ddf_at_sampleIndex expf p.lambda p.width p.height p.channels temp x y c hx hc)) ?_
  intro out
  unfold ddf_pixel sampleIndex
  cases ddf_store expf p.lambda p.width p.height p.channels temp x y c <;> rfl

/-- What one round of a worker does: it is undefined when a store of its band is, and
otherwise stores the diffused sample, computed from `temp`, at every sample of its band
and nothing else. -/
theorem ddf_round_writes (n : Nat) (expf : ℚ → ℚ) (p : FilterParams) (temp : List Nat) :
    WritesOn n (ddf_round expf p temp)
      (round_ok expf p.lambda p.width p.height p.channels temp p.start_row p.end_row)
      (InRows p.width p.channels p.start_row p.end_row)
      (ddf_at expf p.lambda p.width p.height p.channels temp) :=
  WritesOn.pixel_loops n p.width p.channels p.start_row p.end_row (ddf_pixel expf p temp)
    (fun x y c => (ddf_store expf p.lambda p.width p.height p.channels temp x y c).isSome = true)
    (ddf_at expf p.lambda p.width p.height p.channels temp)
    (fun y x c _ _ hx hc => ddf_pixel_writes n expf p temp x y c hx hc)

theorem apply_ddf_section_iterate (expf : ℚ → ℚ) (p : FilterParams) (output : List Nat) :
    apply_ddf_section expf p output =
      ((ddf_iteration expf p)^[p.iterations] (some (temp_init p, output))).map Prod.snd := by
  unfold apply_ddf_section
  rw [forLoop_const, Nat.sub_zero]

theorem apply_ddf_section_zero (expf : ℚ → ℚ) (p : FilterParams) (output : List Nat)
    (h : p.iterations = 0) : apply_ddf_section expf p output = some output := by
  rw [apply_ddf_section_iterate, h]
  rfl

theorem apply_ddf_section_one (expf : ℚ → ℚ) (p : FilterParams) (output : List Nat)
    (h : p.iterations = 1) :
    apply_ddf_section expf p output = ddf_round expf p (temp_init p) output := by
  rw [apply_ddf_section_iterate, h]
  simp only [Function.iterate_one, ddf_iteration, Option.some_bind]
  cases ddf_round expf p (temp_init p) output <;> rfl

/-- With no iteration every worker returns the output buffer as it received it, and so
does the program. -/
theorem parallel_ddf_filter_zero (expf : ℚ → ℚ) (input output : List Nat) (W H C : Nat)
    (lambda : ℚ) (N : Nat) :
    parallel_ddf_filter expf input output W H C 0 lambda N = some output := by
  unfold parallel_ddf_filter
  apply forLoop_id
  intro i _ _
  exact apply_ddf_section_zero expf _ output rfl

/-- What the program does with one iteration, in terms of the bands of the partition. -/
theorem parallel_ddf_filter_one_writes (expf : ℚ → ℚ) (input : List Nat) (W H C : Nat)
    (lambda : ℚ) (N : Nat) :
    WritesOn (W * H * C) (fun out => parallel_ddf_filter expf input out W H C 1 lambda N)
      (∀ i, i < N → round_ok expf lambda W H C
        (temp_init (single_params input W H C 1 lambda)) (start_row H N i) (end_row H N i))
      (fun k => ∃ i, i < N ∧ InRows W C (start_row H N i) (end_row H N i) k)
      (ddf_at expf lambda W H C (temp_init (single_params input W H C 1 lambda))) := by
  have key := WritesOn.loop (W * H * C) 0 N
    (fun i acc => acc.bind (apply_ddf_section expf (worker_params input W H C 1 lambda N i)))
    (fun i => round_ok expf lambda W H C
      (temp_init (single_params input W H C 1 lambda)) (start_row H N i) (end_row H N i))
    (fun i k => InRows W C (start_row H N i) (end_row H N i) k)
    (ddf_at expf lambda W H C (temp_init (single_params input W H C 1 lambda)))
    (fun _ _ _ => rfl)
    (fun i _ _ => WritesOn.of_eq
      (ddf_round_writes (W * H * C) expf (worker_params input W H C 1 lambda N i)
        (temp_init (single_params input W H C 1 lambda)))
      (fun out => apply_ddf_section_one expf (worker_params input W H C 1 lambda N i) out rfl))
  refine WritesOn.congr key ?_ ?_ (fun _ _ _ => rfl)
  · exact ⟨fun h i hi => h i (Nat.zero_le _) hi, fun h i _ hi => h i hi⟩
  · intro k _
    exact ⟨fun ⟨i, _, hi, hk⟩ => ⟨i, hi, hk⟩, fun ⟨i, hi, hk⟩ => ⟨i, Nat.zero_le _, hi, hk⟩⟩

/-- One diffusion round does not depend on the partition: `N` workers return what one
worker on the band `[0, H)` returns. -/
theorem parallel_ddf_filter_one_single (expf : ℚ → ℚ) (input output : List Nat)
    (W H C : Nat) (lambda : ℚ) (N : Nat) (hN : 1 ≤ N) (hNH : N ≤ H)
    (hout : output.length = W * H * C) :
    parallel_ddf_filter expf input output W H C 1 lambda N =
      apply_ddf_section expf (single_params input W H C 1 lambda) output := by
  obtain ⟨-, -, hunion⟩ := bands_cover H N hN hNH
  have hend : ∀ i, i < N → end_row H N i ≤ H := fun i hi => end_row_le H N i hi
  refine WritesOn.agree (parallel_ddf_filter_one_writes expf input W H C lambda N)
    (WritesOn.of_eq
      (ddf_round_writes (W * H * C) expf (single_params input W H C 1 lambda)
        (temp_init (single_params input W H C 1 lambda)))
      (fun out => apply_ddf_section_one expf (single_params input W H C 1 lambda) out rfl))
    ?_ ?_ output hout
  · constructor
    · intro h y _ hy x hx c hc
      obtain ⟨i, hi, h1, h2⟩ := (hunion y).1 hy
      exact h i hi y h1 h2 x hx c hc
    · intro h i hi y _ h2 x hx c hc
      exact h y (Nat.zero_le _) (Nat.lt_of_lt_of_le h2 (hend i hi)) x hx c hc
  · intro k _
    constructor
    · rintro ⟨i, hi, y, _, h2, x, hx, c, hc, e⟩
      exact ⟨y, Nat.zero_le _, Nat.lt_of_lt_of_le h2 (hend i hi), x, hx, c, hc, e⟩
    · rintro ⟨y, _, hy, x, hx, c, hc, e⟩
      obtain ⟨i, hi, h1, h2⟩ := (hunion y).1 hy
      exact ⟨i, hi, y, h1, h2, x, hx, c, hc, e⟩

theorem parallel_ddf_filter_one_worker (expf : ℚ → ℚ) (input output : List Nat)
    (W H C k : Nat) (lambda : ℚ) :
    parallel_ddf_filter expf input output W H C k lambda 1 =
      apply_ddf_section expf (single_params input W H C k lambda) output := by
  unfold parallel_ddf_filter forLoop
  have e : worker_params input W H C k lambda 1 0 = single_params input W H C k lambda := by
    simp [worker_params, single_params, start_row, end_row]
  simp [e]

/-! #### Copying the band back and uniform images -/

theorem memcpy_at_length (dst src : List Nat) (offset n : Nat) :
    (memcpy_at dst src offset n).length = dst.length := by
  unfold memcpy_at forLoop
  exact foldl_set_length _ _ dst

theorem memcpy_at_getD (dst src : List Nat) (offset n j : Nat) (hj : j < dst.length) :
    (memcpy_at dst src offset n).getD j 0 =
      if offset ≤ j ∧ j < offset + n then src.getD j 0 else dst.getD j 0 := by
  unfold memcpy_at forLoop
  rw [foldl_set_getD _ _ dst j hj]
  by_cases h : offset ≤ j ∧ j < offset + n
  · rw [if_pos h, if_pos (by rw [List.mem_range'_1]; omega)]
  · rw [if_neg h, if_neg (by rw [List.mem_range'_1]; omega)]

theorem temp_init_length (p : FilterParams) :
    (temp_init p).length = p.width * p.height * p.channels := by
  unfold temp_init
  rw [List.length_map, List.length_range]

theorem temp_init_getD (p : FilterParams) (i : Nat) (hi : i < p.width * p.height * p.channels) :
    (temp_init p).getD i 0 = p.input.getD i 0 := by
  rw [List.getD_eq_getElem _ _ (by rw [temp_init_length]; exact hi)]
  unfold temp_init
  simp

theorem delta_eq_zero (cond : Prop) [Decidable cond] (a old : Nat) (h : cond → a = old) :
    delta cond a old = 0 := by
  unfold delta
  split_ifs with hc
  · rw [h hc]; simp
  · rfl

/-- On a uniform image of bytes, with a `lambda` whose square rounded to `float` is not
zero, every directional difference is zero and the sample stored is the old sample. -/
theorem ddf_store_uniform (expf : ℚ → ℚ) (lambda : ℚ) (W H C : Nat) (T : List Nat)
    (v : Nat → Nat) (hl : round32 (lambda * lambda) ≠ 0) (hu : Uniform W H C T v)
    (hv : ∀ c, c < C → v c ≤ 255)
    (x y c : Nat) (hx : x < W) (hy : y < H) (hc : c < C) :
    ddf_store expf lambda W H C T x y c = some (v c) := by
  have hidx : T.getD ((y * W + x) * C + c) 0 = v c := hu x y c hx hy hc
  have dN : delta (y > 0) (T.getD (((y - 1) * W + x) * C + c) 0)
      (T.getD ((y * W + x) * C + c) 0) = 0 :=
    delta_eq_zero _ _ _ (fun _ => (hu x (y - 1) c hx (by omega) hc).trans hidx.symm)
  have dS : delta ((y : Int) < (H : Int) - 1) (T.getD (((y + 1) * W + x) * C + c) 0)
      (T.getD ((y * W + x) * C + c) 0) = 0 :=
    delta_eq_zero _ _ _ (fun h => (hu x (y + 1) c hx (by omega) hc).trans hidx.symm)
  have dE : delta ((x : Int) < (W : Int) - 1) (T.getD ((y * W + (x + 1)) * C + c) 0)
      (T.getD ((y * W + x) * C + c) 0) = 0 :=
    delta_eq_zero _ _ _ (fun h => (hu (x + 1) y c (by omega) hy hc).trans hidx.symm)
  have dW : delta (x > 0) (T.getD ((y * W + (x - 1)) * C + c) 0)
      (T.getD ((y * W + x) * C + c) 0) = 0 :=
    delta_eq_zero _ _ _ (fun _ => (hu (x - 1) y c (by omega) hy hc).trans hidx.symm)
  have hr : round64 ((v c : Nat) : ℚ) = ((v c : Nat) : ℚ) := by
    have := round64_int ((v c : Nat) : Int) (by have := hv c hc; omega)
      (by have := hv c hc; omega)
    exact_mod_cast this
  unfold ddf_store ddf_value
  simp only [dN, dS, dE, dW, conductance_zero expf lambda hl, Option.some_bind,
    mul_zero, add_zero, round32_zero, round64_zero]
  rw [hidx, hr]
  exact to_uchar_natCast (v c) (hv c hc)

/-- One iteration of a worker on a uniform `temp`: `temp` is unchanged and the worker's
band of the output holds the samples of `temp`. -/
theorem ddf_iteration_uniform (expf : ℚ → ℚ) (p : FilterParams) (T : List Nat)
    (v : Nat → Nat) (hl : round32 (p.lambda * p.lambda) ≠ 0) (hu : Uniform p.width p.height p.channels T v)
    (hv : ∀ c, c < p.channels → v c ≤ 255)
    (hT : T.length = p.width * p.height * p.channels) (hend : p.end_row ≤ p.height)
    (out : List Nat) (hout : out.length = p.width * p.height * p.channels) :
    ∃ out', ddf_iteration expf p (some (T, out)) = some (T, out') ∧
      out'.length = p.width * p.height * p.channels ∧
      (∀ i, i < p.width * p.height * p.channels →
        InRows p.width p.channels p.start_row p.end_row i → out'.getD i 0 = T.getD i 0) ∧
      (∀ i, i < p.width * p.height * p.channels →
        ¬ InRows p.width p.channels p.start_row p.end_row i → out'.getD i 0 = out.getD i 0) := by
  obtain ⟨-, h2⟩ := ddf_round_writes (p.width * p.height * p.channels) expf p T out hout
  have hok : round_ok expf p.lambda p.width p.height p.channels T p.start_row p.end_row := by
    intro y _ hy x hx c hc
    rw [ddf_store_uniform expf p.lambda _ _ _ T v hl hu hv x y c hx (by omega) hc]
    rfl
  obtain ⟨out', e, hlen, hw, hk⟩ := h2 hok
  have hw' : ∀ i, i < p.width * p.height * p.channels →
      InRows p.width p.channels p.start_row p.end_row i → out'.getD i 0 = T.getD i 0 := by
    intro i hi hP
    rw [hw i hi hP]
    obtain ⟨y, _, hy, x, hx, c, hc, rfl⟩ := hP
    rw [ddf_at_sampleIndex _ _ _ _ _ _ _ _ _ hx hc,
      ddf_store_uniform expf p.lambda _ _ _ T v hl hu hv x y c hx (by omega) hc,
      hu x y c hx (by omega) hc]
    rfl
  refine ⟨out', ?_, hlen, hw', hk⟩
  unfold ddf_iteration
  simp only [Option.some_bind, e, Option.map_some']
  congr 2
  apply List.ext_getElem (by rw [memcpy_at_length])
  intro j hj1 hj2
  rw [← List.getD_eq_getElem _ 0 hj1, ← List.getD_eq_getElem _ 0 hj2, memcpy_at_getD _ _ _ _ _ hj2]
  split_ifs with hr
  · apply hw' j (by omega)
    apply inRows_of_range _ _ _ _ _ hr.1
    have hle : p.start_row ≤ p.end_row := by
      by_contra hcon
      have : p.end_row - p.start_row = 0 := by omega
      rw [this] at hr
      omega
    have e2 : p.start_row * p.width * p.channels +
        (p.end_row - p.start_row) * p.width * p.channels = p.end_row * p.width * p.channels := by
      rw [← Nat.add_mul, ← Nat.add_mul, Nat.add_sub_cancel' hle]
    omega
  · rfl

theorem ddf_iterate_uniform (expf : ℚ → ℚ) (p : FilterParams) (T : List Nat)
    (v : Nat → Nat) (hl : round32 (p.lambda * p.lambda) ≠ 0) (hu : Uniform p.width p.height p.channels T v)
    (hv : ∀ c, c < p.channels → v c ≤ 255)
    (hT : T.length = p.width * p.height * p.channels) (hend : p.end_row ≤ p.height)
    (k : Nat) (out : List Nat) (hout : out.length = p.width * p.height * p.channels) :
    ∃ out', (ddf_iteration expf p)^[k + 1] (some (T, out)) = some (T, out') ∧
      out'.length = p.width * p.height * p.channels ∧
      (∀ i, i < p.width * p.height * p.channels →
        InRows p.width p.channels p.start_row p.end_row i → out'.getD i 0 = T.getD i 0) ∧
      (∀ i, i < p.width * p.height * p.channels →
        ¬ InRows p.width p.channels p.start_row p.end_row i → out'.getD i 0 = out.getD i 0) := by
  induction k generalizing out with
  | zero =>
    rw [Function.iterate_one]
    exact ddf_iteration_uniform expf p T v hl hu hv hT hend out hout
  | succ k ih =>
    obtain ⟨out1, e1, hl1, -, hk1⟩ := ddf_iteration_uniform expf p T v hl hu hv hT hend out hout
    obtain ⟨out', e, hl', hw, hk⟩ := ih out1 hl1
    refine ⟨out', ?_, hl', hw, ?_⟩
    · rw [Function.iterate_succ_apply, e1, e]
    · intro i hi hP
      rw [hk i hi hP, hk1 i hi hP]

theorem temp_init_uniform (p : FilterParams) (v : Nat → Nat)
    (hu : Uniform p.width p.height p.channels p.input v) :
    Uniform p.width p.height p.channels (temp_init p) v := by
  intro x y c hx hy hc
  rw [temp_init_getD p _ (sampleIndex_lt _ _ _ x y c hx hy hc)]
  exact hu x y c hx hy hc

/-- A worker on a uniform image, with a `lambda` whose square rounded to `float` is not
zero and at least one iteration: it stores the input samples in its band of the output and
nothing else. -/
theorem apply_ddf_section_uniform_writes (expf : ℚ → ℚ) (p : FilterParams) (v : Nat → Nat)
    (hl : round32 (p.lambda * p.lambda) ≠ 0) (hu : Uniform p.width p.height p.channels p.input v)
    (hv : ∀ c, c < p.channels → v c ≤ 255) (hend : p.end_row ≤ p.height)
    (hk : 1 ≤ p.iterations) :
    WritesOn (p.width * p.height * p.channels) (apply_ddf_section expf p) True
      (InRows p.width p.channels p.start_row p.end_row) (fun i => p.input.getD i 0) := by
  intro out hout
  refine ⟨fun h => absurd trivial h, fun _ => ?_⟩
  obtain ⟨k, hk'⟩ : ∃ k, p.iterations = k + 1 := ⟨p.iterations - 1, by omega⟩
  obtain ⟨out', e, hlen, hw, hkeep⟩ := ddf_iterate_uniform expf p (temp_init p) v hl
    (temp_init_uniform p v hu) hv (temp_init_length p) hend k out hout
  refine ⟨out', ?_, hlen, ?_, hkeep⟩
  · rw [apply_ddf_section_iterate, hk', e]
    rfl
  · intro i hi hP
    rw [hw i hi hP, temp_init_getD p i hi]

theorem parallel_ddf_filter_uniform (expf : ℚ → ℚ) (input output : List Nat)
    (W H C k : Nat) (lambda : ℚ) (N : Nat) (v : Nat → Nat) (hl : round32 (lambda * lambda) ≠ 0)
    (hu : Uniform W H C input v) (hv : ∀ c, c < C → v c ≤ 255) (hk : 1 ≤ k)
    (hN : 1 ≤ N) (hNH : N ≤ H) (hin : input.length = W * H * C)
    (hout : output.length = W * H * C) :
    parallel_ddf_filter expf input output W H C k lambda N = some input := by
  obtain ⟨-, -, hunion⟩ := bands_cover H N hN hNH
  have key := WritesOn.loop (W * H * C) 0 N
    (fun i acc => acc.bind (apply_ddf_section expf (worker_params input W H C k lambda N i)))
    (fun _ => True)
    (fun i j => InRows W C (start_row H N i) (end_row H N i) j)
    (fun j => input.getD j 0)
    (fun _ _ _ => rfl)
    (fun i _ hi => apply_ddf_section_uniform_writes expf
      (worker_params input W H C k lambda N i) v hl hu hv (end_row_le H N i hi) hk)
  obtain ⟨-, h2⟩ := key output hout
  obtain ⟨out', e, hlen, hw, -⟩ := h2 (fun _ _ _ => trivial)
  refine Eq.trans e ?_
  congr 1
  apply List.ext_getElem (by omega)
  intro j hj1 hj2
  have hj : j < W * H * C := by omega
  rw [← List.getD_eq_getElem out' 0 hj1, ← List.getD_eq_getElem input 0 hj2]
  apply hw j hj
  obtain ⟨y, _, hy, x, hx, c, hc, e⟩ := inRows_full W H C j hj
  obtain ⟨i, hi, h1, h2⟩ := (hunion y).1 hy
  exact ⟨i, Nat.zero_le _, hi, y, h1, h2, x, hx, c, hc, e⟩

/-- C7, as amended: for a spatially constant image of bytes, a `lambda` whose square
`lambda * lambda`, rounded to `float`, is not zero, at least one iteration and `1 ≤ N ≤ H`
workers, the shared-memory diffusion filter returns the input image. -/
theorem ddf_uniform_image_unchanged (expf : ℚ → ℚ) (input output : List Nat)
    (W H C k : Nat) (lambda : ℚ) (N : Nat) (v : Nat → Nat) (hl : round32 (lambda * lambda) ≠ 0)
    (hu : Uniform W H C input v) (hv : ∀ c, c < C → v c ≤ 255) (hk : 1 ≤ k)
    (hN : 1 ≤ N) (hNH : N ≤ H) (hin : input.length = W * H * C)
    (hout : output.length = W * H * C) :
    parallel_ddf_filter expf input output W H C k lambda N = some input :=
  parallel_ddf_filter_uniform expf input output W H C k lambda N v hl hu hv hk hN hNH hin hout

/-- Witness of the amended C7: the 2x2 image of 7s, three iterations, `lambda = 5`, two
workers. -/
theorem ddf_uniform_image_unchanged_witness :
    parallel_ddf_filter expf_near_zero [7, 7, 7, 7] [0, 0, 0, 0] 2 2 1 3 5 2 =
      some [7, 7, 7, 7] :=
  ddf_uniform_image_unchanged expf_near_zero [7, 7, 7, 7] [0, 0, 0, 0] 2 2 1 3 5 2
    (fun _ => 7) (by decide!)
    (by
      intro x y c hx hy hc
      interval_cases x <;> interval_cases y <;> interval_cases c <;> rfl)
    (fun _ _ => (by decide : (7 : Nat) ≤ 255)) (by decide) (by decide) (by decide)
    (by decide) (by decide)

/-- C7 fails for `lambda = 0`: on the 1x1 image `[7]` with one iteration every
directional difference is 0, `conductance(0, 0)` is `expf(0 / 0)`, a NaN, and the store of
line 68 has no defined result: the program does not return the input. -/
theorem ddf_uniform_lambda_zero_undefined :
    conductance expf_near_zero 0 0 = none ∧
      parallel_ddf_filter expf_near_zero [7] [0] 1 1 1 1 0 1 = none ∧
      parallel_ddf_filter expf_near_zero [7] [0] 1 1 1 1 0 1 ≠ some [7] := by
  decide!

/-- The same happens for a non-zero `lambda` whose square underflows to `0.0f`: with
`lambda = 332307 / 2^118`, the `float` nearest to `1e-30`, the filter has no defined result
on the 2x2 image of 7s. -/
theorem ddf_uniform_tiny_lambda_undefined :
    round32 (332307 / 2 ^ 118 * (332307 / 2 ^ 118)) = 0 ∧
      parallel_ddf_filter expf_near_zero [7, 7, 7, 7] [0, 0, 0, 0] 2 2 1 1
        (332307 / 2 ^ 118) 1 = none := by
  decide!

/-- The private copy `temp` of a worker never changes outside the worker's band: after any
number of iterations it still holds the input samples there. -/
theorem temp_outside_band (expf : ℚ → ℚ) (p : FilterParams) (output : List Nat) (k : Nat)
    (T o : List Nat)
    (h : (ddf_iteration expf p)^[k] (some (temp_init p, output)) = some (T, o)) :
    T.length = p.width * p.height * p.channels ∧
      ∀ j, j < p.width * p.height * p.channels →
        ¬ InRows p.width p.channels p.start_row p.end_row j →
        T.getD j 0 = p.input.getD j 0 := by
  induction k generalizing T o with
  | zero =>
    rw [Function.iterate_zero, id_eq] at h
    have hT : temp_init p = T := congrArg Prod.fst (Option.some.inj h)
    rw [← hT]
    exact ⟨temp_init_length p, fun j hj _ => temp_init_getD p j hj⟩
  | succ k ih =>
    rw [Function.iterate_succ_apply'] at h
    cases hprev : (ddf_iteration expf p)^[k] (some (temp_init p, output)) with
    | none => rw [hprev] at h; exact absurd h (by simp [ddf_iteration])
    | some st =>
      obtain ⟨T0, o0⟩ := st
      obtain ⟨hlen, hkeep⟩ := ih T0 o0 hprev
      rw [hprev] at h
      unfold ddf_iteration at h
      simp only [Option.some_bind] at h
      cases hr : ddf_round expf p T0 o0 with
      | none => rw [hr] at h; exact absurd h (by simp)
      | some o1 =>
        rw [hr] at h
        simp only [Option.map_some', Option.some.injEq, Prod.mk.injEq] at h
        obtain ⟨hT, -⟩ := h
        rw [← hT]
        refine ⟨by rw [memcpy_at_length]; exact hlen, ?_⟩
        intro j hj hP
        rw [memcpy_at_getD _ _ _ _ _ (by omega), if_neg, hkeep j hj hP]
        intro hr'
        apply hP
        apply inRows_of_range _ _ _ _ _ hr'.1
        have hle : p.start_row ≤ p.end_row := by
          by_contra hcon
          have : p.end_row - p.start_row = 0 := by omega
          rw [this] at hr'
          omega
        have e2 : p.start_row * p.width * p.channels +
            (p.end_row - p.start_row) * p.width * p.channels =
            p.end_row * p.width * p.channels := by
          rw [← Nat.add_mul, ← Nat.add_mul, Nat.add_sub_cancel' hle]
        omega

/-- C4, as amended: with at most one iteration, or with one worker, `parallel_ddf_filter`
with `N` bands (`1 ≤ N ≤ H`) returns what a single band covering `[0, H)` returns; and
whatever the number of iterations, the copy `temp` from which worker `i` reads its
neighbours holds, outside the worker's own band, the original input samples after every
iteration. -/
theorem parallel_ddf_filter_eq_single_of_le_one (expf : ℚ → ℚ) (input output : List Nat)
    (W H C k : Nat) (lambda : ℚ) (N : Nat) (hN : 1 ≤ N) (hNH : N ≤ H)
    (hout : output.length = W * H * C) :
    ((k ≤ 1 ∨ N = 1) →
      parallel_ddf_filter expf input output W H C k lambda N =
        apply_ddf_section expf (single_params input W H C k lambda) output) ∧
    (∀ i j T o, i < N →
      (ddf_iteration expf (worker_params input W H C k lambda N i))^[j]
        (some (temp_init (worker_params input W H C k lambda N i), output)) = some (T, o) →
      ∀ m, m < W * H * C → ¬ InRows W C (start_row H N i) (end_row H N i) m →
        T.getD m 0 = input.getD m 0) := by
  constructor
  · intro hk
    rcases hk with hk | hN1
    · rcases Nat.le_one_iff_eq_zero_or_eq_one.1 hk with h0 | h1
      · subst h0
        rw [parallel_ddf_filter_zero, apply_ddf_section_zero expf _ output rfl]
      · subst h1
        exact parallel_ddf_filter_one_single expf input output W H C lambda N hN hNH hout
    · subst hN1
      exact parallel_ddf_filter_one_worker expf input output W H C k lambda
  · intro i j T o _ h m hm hP
    exact (temp_outside_band expf (worker_params input W H C k lambda N i) output j T o h).2
      m hm hP

/-- Witness of the amended C4: the 1x2 image `[0, 40]` with two workers.  With one
iteration the two workers return what a single band returns; after its first iteration
worker 0 holds `temp = [10, 40]`, whose row 1 is the input sample 40. -/
theorem parallel_ddf_filter_eq_single_of_le_one_witness :
    parallel_ddf_filter expf_near_zero [0, 40] [0, 0] 1 2 1 1 1000000000 2 =
        apply_ddf_section expf_near_zero (single_params [0, 40] 1 2 1 1 1000000000) [0, 0] ∧
      ([10, 40] : List Nat).getD 1 0 = ([0, 40] : List Nat).getD 1 0 :=
  ⟨(parallel_ddf_filter_eq_single_of_le_one expf_near_zero [0, 40] [0, 0] 1 2 1 1
      1000000000 2 (by decide) (by decide) (by decide)).1 (Or.inl (by decide)),
    (parallel_ddf_filter_eq_single_of_le_one expf_near_zero [0, 40] [0, 0] 1 2 1 1
      1000000000 2 (by decide) (by decide) (by decide)).2 0 1 [10, 40] [10, 0] (by decide)
      (by decide!) 1 (by decide)
      (by
        rintro ⟨y, -, h2, x, hx, c, hc, e⟩
        have hy : y < 1 := h2
        unfold sampleIndex at e
        interval_cases y
        interval_cases x
        omega)⟩

/-- C4 fails: on the 1x2 image `[0, 40]` with `lambda = 1e9` and two iterations, two
workers return `[17, 22]` and a single band returns `[15, 25]`.  After its first
iteration worker 0 holds `temp = [10, 40]`: row 1, outside its band, still has the input
value 40 and not the value 30 that worker 1 stored in the first round. -/
theorem parallel_ddf_filter_two_rounds_differ :
    parallel_ddf_filter expf_near_zero [0, 40] [0, 0] 1 2 1 2 1000000000 2 = some [17, 22] ∧
      apply_ddf_section expf_near_zero (single_params [0, 40] 1 2 1 2 1000000000) [0, 0] =
        some [15, 25] ∧
      ddf_iteration expf_near_zero (worker_params [0, 40] 1 2 1 2 1000000000 2 0)
        (some ([0, 40], [0, 0])) = some ([10, 40], [10, 0]) := by
  decide!

/-- C5 at a failing input: with `iterations = 0` on the 1x1 image `[5]` and an output
buffer that holds `[0]`, the program leaves `[0]` in the output buffer, not the input. -/
theorem parallel_ddf_filter_zero_iterations_output :
    parallel_ddf_filter expf_near_zero [5] [0] 1 1 1 0 1 1 = some [0] :=
  parallel_ddf_filter_zero expf_near_zero [5] [0] 1 1 1 1 1

end DDFThread


/-! ### The kernel of `DDF.c` -/

namespace DDFC

theorem uniform_read (W H C : Nat) (input : List Nat) (v : Nat → Nat)
    (hu : Uniform W H C input v) (c : Nat) (hc : c < C) (nx ny : Int)
    (h : nx ≥ 0 ∧ ny ≥ 0 ∧ nx < (W : Int) ∧ ny < (H : Int)) :
    input.getD (((ny * (W : Int) + nx) * (C : Int) + (c : Int)).toNat) 0 = v c := by
  rw [MMFThread.toNat_index W C c nx ny h.1 h.2.1]
  exact hu _ _ c (by omega) (by omega) hc

theorem kernel_term (W H C : Nat) (input : List Nat) (v : Nat → Nat)
    (hu : Uniform W H C input v) (c : Nat) (hc : c < C) (nx ny w sum : Int) :
    (if nx ≥ 0 ∧ ny ≥ 0 ∧ nx < (W : Int) ∧ ny < (H : Int) then
        sum + (input.getD (((ny * (W : Int) + nx) * (C : Int) + (c : Int)).toNat) 0 : Int) * w
      else sum) =
      sum + (if nx ≥ 0 ∧ ny ≥ 0 ∧ nx < (W : Int) ∧ ny < (H : Int) then (v c : Int) * w else 0) := by
  split_ifs with h
  · rw [uniform_read W H C input v hu c hc nx ny h]
  · rw [add_zero]

/-- On a spatially constant image the weighted sum of a pixel is `(9 - m) * v`, `m` being
the number of window positions inside the image. -/
theorem kernel_sum_uniform (W H C : Nat) (input : List Nat) (v : Nat → Nat)
    (hu : Uniform W H C input v) (x y c : Nat) (hx : x < W) (hy : y < H) (hc : c < C) :
    kernel_sum input W H C x y c = (((9 - window_count W H x y) * v c : Nat) : Int) := by
  unfold kernel_sum
  simp only [show (3 : Nat) / 2 = 1 from rfl, forOffsets_one, kernel_term W H C input v hu c hc]
  have w00 : weight (-1) (-1) = -1 := rfl
  have w01 : weight (-1) 0 = -1 := rfl
  have w02 : weight (-1) 1 = -1 := rfl
  have w10 : weight 0 (-1) = -1 := rfl
  have w11 : weight 0 0 = 8 := rfl
  have w12 : weight 0 1 = -1 := rfl
  have w20 : weight 1 (-1) = -1 := rfl
  have w21 : weight 1 0 = -1 := rfl
  have w22 : weight 1 1 = -1 := rfl
  rw [w00, w01, w02, w10, w11, w12, w20, w21, w22]
  have a1 : ((x : Int) + -1 ≥ 0) = (0 < x) := propext (by omega)
  have a2 : ((x : Int) + 0 ≥ 0) = True := propext ⟨fun _ => trivial, fun _ => by omega⟩
  have a3 : ((x : Int) + 1 ≥ 0) = True := propext ⟨fun _ => trivial, fun _ => by omega⟩
  have a4 : ((x : Int) + -1 < (W : Int)) = True := propext ⟨fun _ => trivial, fun _ => by omega⟩
  have a5 : ((x : Int) + 0 < (W : Int)) = True := propext ⟨fun _ => trivial, fun _ => by omega⟩
  have a6 : ((x : Int) + 1 < (W : Int)) = (x + 1 < W) := propext (by omega)
  have b1 : ((y : Int) + -1 ≥ 0) = (0 < y) := propext (by omega)
  have b2 : ((y : Int) + 0 ≥ 0) = True := propext ⟨fun _ => trivial, fun _ => by omega⟩
  have b3 : ((y : Int) + 1 ≥ 0) = True := propext ⟨fun _ => trivial, fun _ => by omega⟩
  have b4 : ((y : Int) + -1 < (H : Int)) = True := propext ⟨fun _ => trivial, fun _ => by omega⟩
  have b5 : ((y : Int) + 0 < (H : Int)) = True := propext ⟨fun _ => trivial, fun _ => by omega⟩
  have b6 : ((y : Int) + 1 < (H : Int)) = (y + 1 < H) := propext (by omega)
  simp only [a1, a2, a3, a4, a5, a6, b1, b2, b3, b4, b5, b6, true_and, and_true, if_true]
  unfold window_count
  by_cases hx0 : 0 < x <;> by_cases hx1 : x + 1 < W <;> by_cases hy0 : 0 < y <;>
    by_cases hy1 : y + 1 < H <;>
    simp only [hx0, hx1, hy0, hy1, if_true, if_false, and_true, and_false, true_and,
      false_and, and_self] <;>
    (push_cast; ring)

theorem clamp_natCast (n : Nat) : clamp (n : Int) = min 255 n := by
  unfold clamp
  split_ifs <;> omega

theorem apply_ddf_section_some (input output : List Nat) (W H C : Nat) :
    some (apply_ddf_section input output W H C) =
      forLoop 0 H (fun y acc =>
        forLoop 0 W (fun x acc =>
          forLoop 0 C (fun c acc => acc.bind (fun o =>
            some (o.set ((y * W + x) * C + c) (clamp (kernel_sum input W H C x y c))))) acc) acc)
        (some output) := by
  unfold apply_ddf_section
  symm
  apply forLoop_some
  intro y o
  apply forLoop_some
  intro x o
  apply forLoop_some
  intro c o
  rfl

/-- What the kernel of `DDF.c` does: it stores the clamped weighted sum at every sample of
the image. -/
theorem apply_ddf_section_writes (input : List Nat) (W H C : Nat) :
    WritesOn (W * H * C) (fun out => some (apply_ddf_section input out W H C)) True
      (InRows W C 0 H) (kernel_at input W H C) := by
  have key := WritesOn.pixel_loops (W * H * C) W C 0 H
    (fun x y c o => some (o.set ((y * W + x) * C + c) (clamp (kernel_sum input W H C x y c))))
    (fun _ _ _ => True) (kernel_at input W H C)
    (fun y x c _ _ hx hc => WritesOn.of_eq
      (WritesOn.set (W * H * C) (sampleIndex W C x y c)
        (clamp (kernel_sum input W H C x y c)) True (kernel_at input W H C)
        (by
          unfold kernel_at
          rw [sampleIndex_col _ _ _ _ _ hx hc, sampleIndex_row _ _ _ _ _ hx hc,
            sampleIndex_mod _ _ _ _ _ hc]))
      (fun _ => rfl))
  refine WritesOn.congr (WritesOn.of_eq key (fun out => apply_ddf_section_some input out W H C))
    ?_ (fun _ _ => Iff.rfl) (fun _ _ _ => rfl)
  exact ⟨fun _ => trivial, fun _ _ _ _ _ _ _ _ => trivial⟩

theorem apply_ddf_section_getD (input output : List Nat) (W H C x y c : Nat)
    (hout : output.length = W * H * C) (hx : x < W) (hy : y < H) (hc : c < C) :
    (apply_ddf_section input output W H C).getD (sampleIndex W C x y c) 0 =
      clamp (kernel_sum input W H C x y c) := by
  obtain ⟨-, h2⟩ := apply_ddf_section_writes input W H C output hout
  obtain ⟨out', e, -, hw, -⟩ := h2 trivial
  have e' : apply_ddf_section input output W H C = out' := Option.some.inj e
  rw [e', hw _ (sampleIndex_lt W H C x y c hx hy hc)
    ⟨y, Nat.zero_le _, hy, x, hx, c, hc, rfl⟩]
  unfold kernel_at
  rw [sampleIndex_col _ _ _ _ _ hx hc, sampleIndex_row _ _ _ _ _ hx hc,
    sampleIndex_mod _ _ _ _ _ hc]

/-- C8, as amended: on a spatially constant image (value `v c` in channel `c`) the kernel
of `DDF.c` stores at pixel `(x, y)` the value `min 255 ((9 - m) * v c)`, where `m` is the
number of positions of the 3x3 window that lie inside the image; at an interior pixel
that value is 0. -/
theorem ddf_c_kernel_uniform (input output : List Nat) (W H C : Nat) (v : Nat → Nat)
    (hu : Uniform W H C input v) (hout : output.length = W * H * C) (x y c : Nat)
    (hx : x < W) (hy : y < H) (hc : c < C) :
    (apply_ddf_section input output W H C).getD (sampleIndex W C x y c) 0 =
        min 255 ((9 - window_count W H x y) * v c) ∧
      (0 < x → x + 1 < W → 0 < y → y + 1 < H →
        (apply_ddf_section input output W H C).getD (sampleIndex W C x y c) 0 = 0) := by
  have h : (apply_ddf_section input output W H C).getD (sampleIndex W C x y c) 0 =
      min 255 ((9 - window_count W H x y) * v c) := by
    rw [apply_ddf_section_getD input output W H C x y c hout hx hy hc,
      kernel_sum_uniform W H C input v hu x y c hx hy hc, clamp_natCast]
  refine ⟨h, ?_⟩
  intro h1 h2 h3 h4
  rw [h]
  unfold window_count
  simp [h1, h2, h3, h4]

theorem uniform_tens : Uniform 3 3 1 (List.replicate 9 10) (fun _ => 10) := by
  intro x y c hx hy hc
  interval_cases x <;> interval_cases y <;> interval_cases c <;> rfl

/-- Witness of the amended C8: the 3x3 image of 10s; the corner pixel `(0, 0)` has 4 window
positions inside the image and becomes `5 * 10`, the centre pixel becomes 0. -/
theorem ddf_c_kernel_uniform_witness :
    (apply_ddf_section (List.replicate 9 10) (List.replicate 9 0) 3 3 1).getD
        (sampleIndex 3 1 0 0 0) 0 = min 255 ((9 - window_count 3 3 0 0) * 10) ∧
      (apply_ddf_section (List.replicate 9 10) (List.replicate 9 0) 3 3 1).getD
        (sampleIndex 3 1 1 1 0) 0 = 0 :=
  ⟨(ddf_c_kernel_uniform (List.replicate 9 10) (List.replicate 9 0) 3 3 1 (fun _ => 10)
      uniform_tens (by decide) 0 0 0 (by decide) (by decide) (by decide)).1,
    (ddf_c_kernel_uniform (List.replicate 9 10) (List.replicate 9 0) 3 3 1 (fun _ => 10)
      uniform_tens (by decide) 1 1 0 (by decide) (by decide) (by decide)).2
      (by decide) (by decide) (by decide) (by decide)⟩

/-- C8 fails: on the 3x3 single-channel image of 10s the kernel of `DDF.c` returns
`50, 30, 50, 30, 0, 30, 50, 30, 50`, which differs from the input at every pixel. -/
theorem ddf_c_kernel_uniform_changes :
    apply_ddf_section (List.replicate 9 10) (List.replicate 9 0) 3 3 1 =
        [50, 30, 50, 30, 0, 30, 50, 30, 50] ∧
      apply_ddf_section (List.replicate 9 10) (List.replicate 9 0) 3 3 1 ≠
        List.replicate 9 10 := by
  decide

end DDFC

/-! ### More workers than rows -/

theorem bands_more_workers (H N : Nat) (hN : H < N) :
    rows_per_thread H N = 0 ∧
      (∀ i, i < N - 1 → start_row H N i = 0 ∧ end_row H N i = 0) ∧
      (start_row H N (N - 1) = 0 ∧ end_row H N (N - 1) = H) ∧
      (∀ y, y < H ↔ ∃ i, i < N ∧ start_row H N i ≤ y ∧ y < end_row H N i) := by
  have hr : H / N = 0 := Nat.div_eq_of_lt hN
  have hs : ∀ i, start_row H N i = 0 := by
    intro i
    unfold start_row rows_per_thread
    rw [hr, Nat.mul_zero]
  have he : ∀ i, i ≠ N - 1 → end_row H N i = 0 := by
    intro i hi
    unfold end_row rows_per_thread
    rw [if_neg hi, hr, Nat.mul_zero]
  have hl : end_row H N (N - 1) = H := by
    unfold end_row
    rw [if_pos rfl]
  refine ⟨hr, fun i hi => ⟨hs i, he i (by omega)⟩, ⟨hs _, hl⟩, ?_⟩
  intro y
  constructor
  · intro hy
    exact ⟨N - 1, by omega, by rw [hs]; exact Nat.zero_le y, by rw [hl]; exact hy⟩
  · rintro ⟨i, _, -, h2⟩
    by_cases hi : i = N - 1
    · rw [hi, hl] at h2
      exact h2
    · rw [he i hi] at h2
      exact absurd h2 (Nat.not_lt_zero y)

/-- C17: for `H ≥ 1` and `N > H` workers the partition has `rows_per_thread = 0`, the bands
`0 .. N-2` are all the empty range `[0, 0)`, the last band is `[0, H)`, and a row lies
below `H` exactly when it lies in one of the bands. -/
theorem empty_bands_when_more_workers_than_rows (H N : Nat) (_hH : 1 ≤ H) (hN : H < N) :
    rows_per_thread H N = 0 ∧
      (∀ i, i < N - 1 → start_row H N i = 0 ∧ end_row H N i = 0) ∧
      (start_row H N (N - 1) = 0 ∧ end_row H N (N - 1) = H) ∧
      (∀ y, y < H ↔ ∃ i, i < N ∧ start_row H N i ≤ y ∧ y < end_row H N i) :=
  bands_more_workers H N hN

/-- Witness of C17 at `H = 2`, `N = 5`. -/
theorem empty_bands_when_more_workers_than_rows_witness :
    rows_per_thread 2 5 = 0 ∧
      (∀ i, i < 5 - 1 → start_row 2 5 i = 0 ∧ end_row 2 5 i = 0) ∧
      (start_row 2 5 (5 - 1) = 0 ∧ end_row 2 5 (5 - 1) = 2) ∧
      (∀ y, y < 2 ↔ ∃ i, i < 5 ∧ start_row 2 5 i ≤ y ∧ y < end_row 2 5 i) :=
  empty_bands_when_more_workers_than_rows 2 5 (by decide) (by decide)

/-! ### The rank read by the median kernel and the capacity of its window -/

namespace MMFThread

/-- In an ascending list the element at index `n / 2` is preceded by elements that are not
larger and followed by elements that are not smaller; for an even length `n ≥ 2` the two
central indices are `n / 2 - 1` and `n / 2`, so it is the upper one of the two. -/
theorem sorted_rank_position (s : List Nat) (hs : s.Sorted (fun a b => a ≤ b)) :
    (∀ i, i ≤ s.length / 2 → s.getD i 0 ≤ s.getD (s.length / 2) 0) ∧
      (∀ i, s.length / 2 ≤ i → i < s.length → s.getD (s.length / 2) 0 ≤ s.getD i 0) := by
  have hmono : ∀ i j, i ≤ j → j < s.length → s.getD i 0 ≤ s.getD j 0 := by
    intro i j hij hj
    rw [List.getD_eq_getElem _ _ (by omega), List.getD_eq_getElem _ _ hj]
    rcases Nat.eq_or_lt_of_le hij with h | h
    · subst h; exact Nat.le_refl _
    · exact (List.pairwise_iff_getElem.1 hs) i j (by omega) hj h
  constructor
  · intro i hi
    by_cases hpos : s.length / 2 < s.length
    · exact hmono i _ hi hpos
    · have h0 : s.length = 0 := by omega
      have hnil : s = [] := List.length_eq_zero.1 h0
      subst hnil
      simp
  · intro i hi hlt
    exact hmono _ i hi hlt

/-- The value stored by the kernel in terms of any ascending arrangement of the gathered
samples. -/
theorem median_pixel_rank (p : FilterParams) (out : List Nat) (x y c : Nat)
    (hfit : window_fits p x y c) (s : List Nat) (hs : s.Sorted (fun a b => a ≤ b))
    (hp : s.Perm (gather_window p x y c)) :
    median_pixel p x y c out =
      some (out.set (sampleIndex p.width p.channels x y c) (s.getD (s.length / 2) 0)) := by
  have hs' : s = qsort (gather_window p x y c) :=
    List.eq_of_perm_of_sorted (hp.trans (qsort_perm _).symm) hs (qsort_sorted _)
  have hlen : s.length = (gather_window p x y c).length := hp.length_eq
  have hfit' : (gather_window p x y c).length ≤ p.window_size * p.window_size := hfit
  unfold median_pixel
  simp only []
  rw [if_pos hfit', hlen, hs']
  rfl

/-- C12 at a failing input: on a 3x3 image with `window_size = 2` the window array has
`2 * 2 = 4` bytes, the interior pixel `(1, 1)` gathers 9 samples and even the corner pixel
`(0, 0)` gathers 4, so the writes `window[4] .. window[8]` of the interior pixel are
outside the array. -/
theorem median_window_count_exceeds_capacity :
    (gather_window (single_params [1, 2, 3, 4, 5, 6, 7, 8, 9] 3 3 1 2) 1 1 0).length = 9 ∧
      (single_params [1, 2, 3, 4, 5, 6, 7, 8, 9] 3 3 1 2).window_size *
        (single_params [1, 2, 3, 4, 5, 6, 7, 8, 9] 3 3 1 2).window_size = 4 ∧
      ¬ window_fits (single_params [1, 2, 3, 4, 5, 6, 7, 8, 9] 3 3 1 2) 1 1 0 ∧
      (gather_window (single_params [1, 2, 3, 4, 5, 6, 7, 8, 9] 3 3 1 2) 0 0 0).length = 4 := by
  decide

end MMFThread

/-! ### The exchange sort of `find_median` -/

theorem forLoop_invariant {σ : Type} (Inv : Nat → σ → Prop) (body : Nat → σ → σ)
    (lo hi : Nat) (s : σ) (hle : lo ≤ hi) (h0 : Inv lo s)
    (hstep : ∀ i s, lo ≤ i → i < hi → Inv i s → Inv (i + 1) (body i s)) :
    Inv hi (forLoop lo hi body s) := by
  unfold forLoop
  obtain ⟨k, rfl⟩ : ∃ k, hi = lo + k := ⟨hi - lo, by omega⟩
  rw [Nat.add_sub_cancel_left]
  clear hle
  induction k generalizing lo s with
  | zero => exact h0
  | succ k ih =>
    rw [List.range'_succ, List.foldl_cons]
    have h1 := hstep lo s (Nat.le_refl _) (by omega) h0
    have := ih (lo + 1) (body lo s) h1 (fun i s hi1 hi2 hI => hstep i s (by omega) (by omega) hI)
    rw [show lo + 1 + k = lo + (k + 1) by omega] at this
    exact this

namespace MMFC

theorem swap_step_length (w : List Nat) (i j : Nat) : (swap_step w i j).length = w.length := by
  unfold swap_step
  split_ifs <;> simp

theorem swap_step_getD (w : List Nat) (i j k : Nat) (hij : i ≠ j) (hi : i < w.length)
    (hj : j < w.length) :
    (swap_step w i j).getD k 0 =
      if k = i then min (w.getD i 0) (w.getD j 0)
      else if k = j then max (w.getD i 0) (w.getD j 0) else w.getD k 0 := by
  unfold swap_step
  by_cases hgt : w.getD i 0 > w.getD j 0
  · rw [if_pos hgt]
    simp only []
    by_cases hk : k < w.length
    · rw [List.getD_eq_getElem _ _ (by simp [hk]), List.getElem_set, List.getElem_set]
      by_cases hkj : k = j
      · subst hkj
        rw [if_pos rfl, if_neg (fun h => hij h.symm), if_pos rfl, Nat.max_eq_left (by omega)]
      · rw [if_neg (fun h => hkj h.symm)]
        by_cases hki : k = i
        · subst hki
          rw [if_pos rfl, if_pos rfl, Nat.min_eq_right (by omega)]
        · rw [if_neg (fun h => hki h.symm), if_neg hki, if_neg hkj,
            List.getD_eq_getElem _ _ hk]
    · rw [List.getD_eq_default _ _ (by simp; omega), if_neg (by omega), if_neg (by omega),
        List.getD_eq_default _ _ (by omega)]
  · rw [if_neg hgt]
    by_cases hki : k = i
    · subst hki
      rw [if_pos rfl, Nat.min_eq_left (by omega)]
    · rw [if_neg hki]
      by_cases hkj : k = j
      · subst hkj
        rw [if_pos rfl, Nat.max_eq_right (by omega)]
      · rw [if_neg hkj]

theorem swap_step_perm (w : List Nat) (i j : Nat) (hij : i ≠ j) (hi : i < w.length)
    (hj : j < w.length) : (swap_step w i j).Perm w := by
  have ei : w.getD i 0 = w[i] := List.getD_eq_getElem _ _ hi
  have ej : w.getD j 0 = w[j] := List.getD_eq_getElem _ _ hj
  unfold swap_step
  simp only [ei, ej]
  split_ifs with hgt
  · rw [List.perm_iff_count]
    intro a
    rw [List.count_set _ _ _ _ (by simp [hj]), List.count_set _ _ _ _ hi,
      List.getElem_set, if_neg hij]
    have h1 : w[i] = a → 0 < w.count a := fun h =>
      List.count_pos_iff.2 (h ▸ List.getElem_mem _)
    have h2 : w[j] = a → 0 < w.count a := fun h =>
      List.count_pos_iff.2 (h ▸ List.getElem_mem _)
    by_cases ha : w[i] = a
    · by_cases hb : w[j] = a
      · omega
      · have := h1 ha
        simp [ha, hb]
        omega
    · by_cases hb : w[j] = a
      · have := h2 hb
        simp [ha, hb]
      · simp [ha, hb]
  · exact List.Perm.refl w

theorem inner_pass (w0 : List Nat) (size i : Nat) (w : List Nat) (hsz : size ≤ w0.length)
    (hi : i + 1 < size) (h : SortInv w0 size i w) :
    SortInv w0 size (i + 1) (forLoop (i + 1) size (fun j w => swap_step w i j) w) := by
  have key := forLoop_invariant
    (fun j w => SortInv w0 size i w ∧ ∀ b, i < b → b < j → w.getD i 0 ≤ w.getD b 0)
    (fun j w => swap_step w i j) (i + 1) size w (by omega)
    ⟨h, fun b h1 h2 => by omega⟩
    (by
      intro j w hj1 hj2 hI
      obtain ⟨⟨hlen, hperm, hframe, hpre⟩, hin⟩ := hI
      have hij : i ≠ j := by omega
      have hiw : i < w.length := by omega
      have hjw : j < w.length := by omega
      have hg := fun k => swap_step_getD w i j k hij hiw hjw
      refine ⟨⟨?_, ?_, ?_, ?_⟩, ?_⟩
      · rw [swap_step_length, hlen]
      · exact (swap_step_perm w i j hij hiw hjw).trans hperm
      · intro k hk
        rw [hg k, if_neg (by omega), if_neg (by omega)]
        exact hframe k hk
      · intro a b ha hab hb
        have hai := hpre a i ha (by omega) (by omega)
        have haj := hpre a j ha (by omega) (by omega)
        rw [hg a, if_neg (by omega), if_neg (by omega), hg b]
        split_ifs
        · exact Nat.le_min.2 ⟨hai, haj⟩
        · exact Nat.le_trans hai (Nat.le_max_left _ _)
        · exact hpre a b ha hab hb
      · intro b hb1 hb2
        rw [hg i, if_pos rfl, hg b, if_neg (by omega)]
        split_ifs with hbj
        · exact Nat.le_trans (Nat.min_le_left _ _) (Nat.le_max_left _ _)
        · exact Nat.le_trans (Nat.min_le_left _ _) (hin b hb1 (by omega)))
  obtain ⟨⟨hlen, hperm, hframe, hpre⟩, hin⟩ := key
  refine ⟨hlen, hperm, hframe, ?_⟩
  intro a b ha hab hb
  by_cases hai : a < i
  · exact hpre a b hai hab hb
  · have : a = i := by omega
    subst this
    exact hin b hab hb

theorem exchange_sort_inv (w0 : List Nat) (size : Nat) (hsz : size ≤ w0.length) :
    SortInv w0 size (size - 1) (exchange_sort w0 size) := by
  unfold exchange_sort
  exact forLoop_invariant (fun i w => SortInv w0 size i w)
    (fun i w => forLoop (i + 1) size (fun j w => swap_step w i j) w) 0 (size - 1) w0
    (Nat.zero_le _)
    ⟨rfl, List.Perm.refl _, fun _ _ => rfl, fun a b ha _ _ => absurd ha (Nat.not_lt_zero a)⟩
    (fun i w _ hi hI => inner_pass w0 size i w hsz (by omega) hI)

/-- What `find_median` does to the array and what it returns. -/
theorem find_median_spec (window : List Nat) (size : Nat) (hsize : 1 ≤ size)
    (hlen : size ≤ window.length) :
    ((find_median window size).1.take size).Sorted (fun a b => a ≤ b) ∧
      ((find_median window size).1.take size).Perm (window.take size) ∧
      (find_median window size).1.drop size = window.drop size ∧
      (find_median window size).2 = ((find_median window size).1.take size).getD (size / 2) 0 := by
  obtain ⟨hl, hperm, hframe, hpre⟩ := exchange_sort_inv window size hlen
  show ((exchange_sort window size).take size).Sorted (fun a b => a ≤ b) ∧
      ((exchange_sort window size).take size).Perm (window.take size) ∧
      (exchange_sort window size).drop size = window.drop size ∧
      (exchange_sort window size).getD (size / 2) 0 =
        ((exchange_sort window size).take size).getD (size / 2) 0
  generalize exchange_sort window size = w at hl hperm hframe hpre
  have hdrop : w.drop size = window.drop size := by
    apply List.ext_getElem (by simp [hl])
    intro k h1 h2
    rw [List.getElem_drop, List.getElem_drop]
    have hk1 : size + k < w.length := by simp at h1; omega
    have hk2 : size + k < window.length := by simp at h2; omega
    have e1 : w.getD (size + k) 0 = w[size + k] := List.getD_eq_getElem _ _ hk1
    have e2 : window.getD (size + k) 0 = window[size + k] := List.getD_eq_getElem _ _ hk2
    have := hframe (size + k) (by omega)
    rw [e1, e2] at this
    exact this
  refine ⟨?_, ?_, hdrop, ?_⟩
  · unfold List.Sorted
    rw [List.pairwise_iff_getElem]
    intro a b ha hb hab
    have hb' : b < size := by
      rw [List.length_take] at hb
      omega
    have e1 : w.getD a 0 = w[a] := List.getD_eq_getElem _ _ (by omega)
    have e2 : w.getD b 0 = w[b] := List.getD_eq_getElem _ _ (by omega)
    have := hpre a b (by omega) hab hb'
    rw [e1, e2] at this
    rw [List.getElem_take, List.getElem_take]
    exact this
  · have h1 : (w.take size ++ w.drop size).Perm (window.take size ++ window.drop size) := by
      rw [List.take_append_drop, List.take_append_drop]
      exact hperm
    rw [hdrop] at h1
    exact (List.perm_append_right_iff _).1 h1
  · have h2 : size / 2 < size := by omega
    have e1 : w.getD (size / 2) 0 = w[size / 2] := List.getD_eq_getElem _ _ (by omega)
    have hb : size / 2 < (w.take size).length := by rw [List.length_take]; omega
    have e2 : (w.take size).getD (size / 2) 0 = (w.take size)[size / 2] :=
      List.getD_eq_getElem _ _ hb
    rw [e1, e2, List.getElem_take]

/-- The value `find_median` returns, in terms of any ascending arrangement of the first
`size` elements. -/
theorem find_median_rank (window : List Nat) (size : Nat) (hsize : 1 ≤ size)
    (hlen : size ≤ window.length) (s : List Nat) (hs : s.Sorted (fun a b => a ≤ b))
    (hp : s.Perm (window.take size)) :
    (find_median window size).2 = s.getD (size / 2) 0 := by
  obtain ⟨h1, h2, -, h4⟩ := find_median_spec window size hsize hlen
  rw [h4, List.eq_of_perm_of_sorted (hp.trans h2.symm) hs h1]

/-- C20: for an array of at least `size ≥ 1` elements, after `find_median(window, size)`
the first `size` elements are in non-decreasing order and are a rearrangement of their
original values, the rest of the array is untouched, and the value returned is the
element at index `size / 2` of the sorted elements. -/
theorem find_median_sorts_and_returns_rank (window : List Nat) (size : Nat) (hsize : 1 ≤ size)
    (hlen : size ≤ window.length) :
    ((find_median window size).1.take size).Sorted (fun a b => a ≤ b) ∧
      ((find_median window size).1.take size).Perm (window.take size) ∧
      (find_median window size).1.drop size = window.drop size ∧
      (find_median window size).2 = ((find_median window size).1.take size).getD (size / 2) 0 :=
  find_median_spec window size hsize hlen

/-- Witness of C20: the array `200, 10, 200, 10, 7` with `size = 4`. -/
theorem find_median_sorts_and_returns_rank_witness :
    ((find_median [200, 10, 200, 10, 7] 4).1.take 4).Sorted (fun a b => a ≤ b) ∧
      ((find_median [200, 10, 200, 10, 7] 4).1.take 4).Perm
        (([200, 10, 200, 10, 7] : List Nat).take 4) ∧
      (find_median [200, 10, 200, 10, 7] 4).1.drop 4 = ([200, 10, 200, 10, 7] : List Nat).drop 4 ∧
      (find_median [200, 10, 200, 10, 7] 4).2 =
        ((find_median [200, 10, 200, 10, 7] 4).1.take 4).getD (4 / 2) 0 :=
  find_median_sorts_and_returns_rank [200, 10, 200, 10, 7] 4 (by decide) (by decide)

end MMFC

/-! ### The element the median kernels return -/

namespace MMFThread

/-- C11, as amended: when the samples gathered for a pixel fit the window array, the value
the median kernel stores is the element at index `count / 2` of the ascending arrangement
`s` of the gathered samples, and `find_median` of `MMF.c` returns the same element.  For
an even count that is the upper-middle element, the larger of the two central elements
`s[count/2 - 1] ≤ s[count/2]`; for an odd count it is the conventional median, with
`count / 2` elements on either side. -/
theorem median_outputs_upper_middle (p : FilterParams) (out : List Nat) (x y c : Nat)
    (hx : x < p.width) (hy : y < p.height) (hfit : window_fits p x y c) (s : List Nat)
    (hs : s.Sorted (fun a b => a ≤ b)) (hp : s.Perm (gather_window p x y c)) :
    median_pixel p x y c out =
        some (out.set (sampleIndex p.width p.channels x y c) (s.getD (s.length / 2) 0)) ∧
      (MMFC.find_median (gather_window p x y c) (gather_window p x y c).length).2 =
        s.getD (s.length / 2) 0 ∧
      (∀ i, i ≤ s.length / 2 → s.getD i 0 ≤ s.getD (s.length / 2) 0) ∧
      (∀ i, s.length / 2 ≤ i → i < s.length → s.getD (s.length / 2) 0 ≤ s.getD i 0) ∧
      (s.length % 2 = 0 → 1 ≤ s.length / 2 ∧
        s.length / 2 - 1 = s.length - 1 - s.length / 2 ∧
        s.getD (s.length / 2 - 1) 0 ≤ s.getD (s.length / 2) 0) ∧
      (s.length % 2 = 1 → s.length / 2 = s.length - 1 - s.length / 2) := by
  have hlen : s.length = (gather_window p x y c).length := hp.length_eq
  have hpos : 0 < s.length := by
    rw [hlen]
    exact List.length_pos_of_mem (gather_window_mem p x y c x y
      (inWindow_self p.width p.height (p.window_size / 2) x y hx hy))
  obtain ⟨h1, h2⟩ := sorted_rank_position s hs
  refine ⟨median_pixel_rank p out x y c hfit s hs hp, ?_, h1, h2, ?_, ?_⟩
  · rw [hlen]
    exact MMFC.find_median_rank _ _ (by omega) (Nat.le_refl _) s hs
      (by rw [List.take_length]; exact hp)
  · intro he
    exact ⟨by omega, by omega, h1 _ (by omega)⟩
  · intro ho
    omega

/-- Witness of the amended C11: the corner pixel of the checkerboard with
`window_size = 3` gathers 4 samples; the value stored is 200, the element of index 2 of
`[10, 10, 200, 200]`. -/
theorem median_outputs_upper_middle_witness :
    median_pixel (single_params checkerboard 4 4 1 3) 0 0 0 (List.replicate 16 0) =
        some ((List.replicate 16 0).set (sampleIndex 4 1 0 0 0)
          (([10, 10, 200, 200] : List Nat).getD (([10, 10, 200, 200] : List Nat).length / 2) 0)) ∧
      ([10, 10, 200, 200] : List Nat).getD (([10, 10, 200, 200] : List Nat).length / 2 - 1) 0 ≤
        ([10, 10, 200, 200] : List Nat).getD (([10, 10, 200, 200] : List Nat).length / 2) 0 :=
  ⟨(median_outputs_upper_middle (single_params checkerboard 4 4 1 3) (List.replicate 16 0)
      0 0 0 (by decide) (by decide) (by decide) [10, 10, 200, 200] (by decide)
      (by decide)).1,
    ((median_outputs_upper_middle (single_params checkerboard 4 4 1 3) (List.replicate 16 0)
      0 0 0 (by decide) (by decide) (by decide) [10, 10, 200, 200] (by decide)
      (by decide)).2.2.2.2.1 (by decide)).2.2⟩

/-- C11 fails: the corner pixel of the checkerboard with `window_size = 3` gathers the 4
samples `10, 200, 200, 10`, sorted `10, 10, 200, 200`; the kernel stores the element of
index `4 / 2 = 2`, which is 200, the larger of the two central elements, and not the
lower-middle element 10; `find_median` returns 200 on the same samples. -/
theorem median_even_count_not_lower_middle :
    gather_window (single_params checkerboard 4 4 1 3) 0 0 0 = [10, 200, 200, 10] ∧
      qsort (gather_window (single_params checkerboard 4 4 1 3) 0 0 0) = [10, 10, 200, 200] ∧
      median_pixel (single_params checkerboard 4 4 1 3) 0 0 0 (List.replicate 16 0) =
        some ((List.replicate 16 0).set 0 200) ∧
      (qsort (gather_window (single_params checkerboard 4 4 1 3) 0 0 0)).getD (4 / 2 - 1) 0 =
        10 ∧
      MMFC.find_median [10, 200, 200, 10] 4 = ([10, 10, 200, 200], 200) := by
  decide

end MMFThread

/-! ### The scatter and the gather of `MMF.c` and `DDF.c` -/

theorem MPI_Gather_some (sendbufs : Nat → List Nat) (count size : Nat) (recvbuf : List Nat) :
    some (MPI_Gather sendbufs count size recvbuf) =
      forLoop 0 size (fun r acc =>
        forLoop 0 count (fun j acc => acc.bind (fun o =>
          some (o.set (r * count + j) ((sendbufs r).getD j 0)))) acc) (some recvbuf) := by
  unfold MPI_Gather
  symm
  apply forLoop_some
  intro r o
  apply forLoop_some
  intro j o
  rfl

/-- What the gather does to the receive buffer. -/
theorem MPI_Gather_writes (n : Nat) (sendbufs : Nat → List Nat) (count size : Nat) :
    WritesOn n (fun buf => some (MPI_Gather sendbufs count size buf)) True
      (fun i => i < size * count) (gathered_byte sendbufs count) := by
  have inner : ∀ r, WritesOn n (fun buf => forLoop 0 count (fun j acc => acc.bind (fun o =>
      some (o.set (r * count + j) ((sendbufs r).getD j 0)))) (some buf))
      (∀ j, 0 ≤ j → j < count → True)
      (fun i => ∃ j, 0 ≤ j ∧ j < count ∧ i = r * count + j) (gathered_byte sendbufs count) := by
    intro r
    exact WritesOn.loop n 0 count
      (fun j acc => acc.bind (fun o => some (o.set (r * count + j) ((sendbufs r).getD j 0))))
      (fun _ => True) (fun j i => i = r * count + j) (gathered_byte sendbufs count)
      (fun _ _ _ => rfl)
      (fun j _ hj => WritesOn.of_eq
        (WritesOn.set n (r * count + j) ((sendbufs r).getD j 0) True
          (gathered_byte sendbufs count)
          (by
            unfold gathered_byte
            rw [Nat.mul_comm r count, Nat.mul_add_div (by omega), Nat.div_eq_of_lt hj,
              Nat.add_zero, Nat.mul_add_mod, Nat.mod_eq_of_lt hj]))
        (fun _ => rfl))
  have outer := WritesOn.loop n 0 size
    (fun r acc => forLoop 0 count (fun j acc => acc.bind (fun o =>
      some (o.set (r * count + j) ((sendbufs r).getD j 0)))) acc)
    (fun _ => ∀ j, 0 ≤ j → j < count → True)
    (fun r i => ∃ j, 0 ≤ j ∧ j < count ∧ i = r * count + j) (gathered_byte sendbufs count)
    (fun r _ _ => forLoop_strict 0 count _ (fun _ _ _ => rfl))
    (fun r _ _ => inner r)
  refine WritesOn.congr (WritesOn.of_eq outer (fun buf => MPI_Gather_some sendbufs count size buf))
    ?_ ?_ (fun _ _ _ => rfl)
  · exact ⟨fun _ => trivial, fun _ _ _ _ _ _ _ => trivial⟩
  · intro i _
    constructor
    · rintro ⟨r, -, hr, j, -, hj, rfl⟩
      calc r * count + j < r * count + count := by omega
        _ = (r + 1) * count := by rw [Nat.add_mul, Nat.one_mul]
        _ ≤ size * count := Nat.mul_le_mul_right _ hr
    · intro hi
      have hc : 0 < count := by
        rcases Nat.eq_zero_or_pos count with h | h
        · subst h; simp at hi
        · exact h
      refine ⟨i / count, Nat.zero_le _, ?_, i % count, Nat.zero_le _, Nat.mod_lt _ hc, ?_⟩
      · exact (Nat.div_lt_iff_lt_mul hc).2 hi
      · rw [Nat.mul_comm]; exact (Nat.div_add_mod i count).symm

theorem MPI_Scatter_getD (sendbuf : List Nat) (count rank j : Nat) (hj : j < count) :
    (MPI_Scatter sendbuf count rank).getD j 0 = sendbuf.getD (rank * count + j) 0 := by
  unfold MPI_Scatter
  rw [List.getD_eq_getElem _ _ (by simp [hj])]
  simp

theorem gathered_byte_scatter (image : List Nat) (count i : Nat) (hc : 0 < count) :
    gathered_byte (fun r => MPI_Scatter image count r) count i = image.getD i 0 := by
  unfold gathered_byte
  rw [MPI_Scatter_getD _ _ _ _ (Nat.mod_lt _ hc), Nat.mul_comm, Nat.div_add_mod]

theorem gather_length (sendbufs : Nat → List Nat) (count size : Nat) (recvbuf : List Nat) :
    (MPI_Gather sendbufs count size recvbuf).length = recvbuf.length := by
  obtain ⟨-, h⟩ := MPI_Gather_writes recvbuf.length sendbufs count size recvbuf rfl
  obtain ⟨out', e, hl, -, -⟩ := h trivial
  rw [← Option.some.inj e] at hl
  exact hl

/-- Scattering a buffer and gathering the unmodified sections into a receive buffer: the
first `size * count` bytes are those of the buffer, the rest of the receive buffer is as
it was. -/
theorem gather_scatter_getD (image recvbuf : List Nat) (count size : Nat)
    (i : Nat) (hi : i < recvbuf.length) :
    (MPI_Gather (fun r => MPI_Scatter image count r) count size recvbuf).getD i 0 =
      if i < size * count then image.getD i 0 else recvbuf.getD i 0 := by
  obtain ⟨-, h⟩ := MPI_Gather_writes recvbuf.length (fun r => MPI_Scatter image count r)
    count size recvbuf rfl
  obtain ⟨out', e, -, hw, hk⟩ := h trivial
  rw [← Option.some.inj e] at hw hk
  split_ifs with hlt
  · rw [hw i hi hlt]
    apply gathered_byte_scatter
    rcases Nat.eq_zero_or_pos count with h | h
    · subst h; simp at hlt
    · exact h
  · exact hk i hi hlt

theorem gather_scatter_same (image : List Nat) (count size : Nat) :
    MPI_Gather (fun r => MPI_Scatter image count r) count size image = image := by
  apply List.ext_getElem (gather_length _ count size image)
  intro i h1 h2
  have := gather_scatter_getD image image count size i h2
  rw [ite_self] at this
  rw [← List.getD_eq_getElem _ 0 h1, ← List.getD_eq_getElem _ 0 h2]
  exact this

/-- C13: for a buffer of `W * H * C` bytes and `K ≥ 1` processes, scattering sections of
`section_size = W * H * C / K` bytes and gathering the unmodified sections back into the
coordinator's buffer, as `main` of `MMF.c` and `DDF.c` does, gives the original buffer;
gathered into any buffer of the same length, byte `i < K * section_size` is byte `i` of
the original buffer. -/
theorem scatter_gather_roundtrip (image : List Nat) (W H C K : Nat) (_hK : 1 ≤ K)
    (_hlen : image.length = W * H * C) :
    MPI_Gather (fun r => MPI_Scatter image (section_size W H C K) r) (section_size W H C K) K
        image = image ∧
      ∀ recvbuf : List Nat, recvbuf.length = W * H * C →
        ∀ i, i < K * section_size W H C K →
          (MPI_Gather (fun r => MPI_Scatter image (section_size W H C K) r)
            (section_size W H C K) K recvbuf).getD i 0 = image.getD i 0 := by
  refine ⟨gather_scatter_same image _ K, ?_⟩
  intro recvbuf hr i hi
  have hle : K * section_size W H C K ≤ W * H * C := Nat.mul_div_le _ _
  rw [gather_scatter_getD image recvbuf _ K i (by omega), if_pos hi]

/-- Witness of C13: a 2x5 single-channel image and 3 processes (`section_size = 3`). -/
theorem scatter_gather_roundtrip_witness :
    MPI_Gather (fun r => MPI_Scatter [1, 2, 3, 4, 5, 6, 7, 8, 9, 10] (section_size 2 5 1 3) r)
        (section_size 2 5 1 3) 3 [1, 2, 3, 4, 5, 6, 7, 8, 9, 10] =
        [1, 2, 3, 4, 5, 6, 7, 8, 9, 10] ∧
      (MPI_Gather (fun r => MPI_Scatter [1, 2, 3, 4, 5, 6, 7, 8, 9, 10] (section_size 2 5 1 3) r)
        (section_size 2 5 1 3) 3 (List.replicate 10 0)).getD 8 0 =
        ([1, 2, 3, 4, 5, 6, 7, 8, 9, 10] : List Nat).getD 8 0 :=
  ⟨(scatter_gather_roundtrip [1, 2, 3, 4, 5, 6, 7, 8, 9, 10] 2 5 1 3 (by decide)
      (by decide)).1,
    (scatter_gather_roundtrip [1, 2, 3, 4, 5, 6, 7, 8, 9, 10] 2 5 1 3 (by decide)
      (by decide)).2 (List.replicate 10 0) (by decide) 8 (by decide)⟩

/-! ### The sections of the scatter and the rows of the image -/

/-- When the number of processes divides the height, a section is a whole number of rows
and the sections cover the image. -/
theorem section_size_of_dvd (W H C K : Nat) (hK : 1 ≤ K) (hd : K ∣ H) :
    section_size W H C K = (H / K) * (W * C) ∧ K * section_size W H C K = W * H * C := by
  obtain ⟨m, rfl⟩ := hd
  unfold section_size
  have e : W * (K * m) * C = K * (m * (W * C)) := by ring
  rw [e, Nat.mul_div_cancel_left _ (by omega), Nat.mul_div_cancel_left _ (by omega)]
  exact ⟨rfl, rfl⟩

/-- C15 at a failing input: for a 2x5 single-channel image and 3 processes
`section_size` is `10 / 3 = 3` bytes, which is one row and a half (a row has 2 bytes),
and the 3 sections hold 9 of the 10 bytes: the last byte is in no section. -/
theorem scatter_sections_not_rows :
    section_size 2 5 1 3 = 3 ∧ section_size 2 5 1 3 % (2 * 1) = 1 ∧
      3 * section_size 2 5 1 3 = 9 ∧ 3 * section_size 2 5 1 3 < 2 * 5 * 1 ∧
      (MPI_Gather (fun r => MPI_Scatter [1, 2, 3, 4, 5, 6, 7, 8, 9, 10] (section_size 2 5 1 3) r)
        (section_size 2 5 1 3) 3 (List.replicate 10 0)) = [1, 2, 3, 4, 5, 6, 7, 8, 9, 0] := by
  decide

/-! ### The row ranges of `MMF.cpp` and `DDF.cpp` -/

namespace DDFCpp

/-- When `size` divides `total_rows` the ranges are the bands `[i * r, (i + 1) * r)`. -/
theorem ranges_of_dvd (total_rows size i : Nat) (hs : 2 ≤ size) (hd : total_rows % size = 0) :
    start total_rows size i = ((i * (total_rows / size) : Nat) : Int) ∧
      rows total_rows size i = total_rows / size := by
  unfold start rows rows_per_node extra_rows
  rw [hd, if_neg (by omega)]
  constructor
  · split_ifs <;> simp
  · split_ifs <;> simp

/-- C14 at a failing input: for `total_rows = 5` and `size = 2` the master keeps rows
`[0, 2)` and process 1 is sent the 3 rows from `start = 1 * 2 - 1 = 1`, the rows `[1, 4)`:
row 1 is in both ranges and row 4 is in none.  For `total_rows = 5` and `size = 3` the rows
sent to process 1 start at `1 * 1 - 2 = -1`, before the first row of the image. -/
theorem send_ranges_overlap :
    rows_per_node 5 2 0 = 2 ∧ extra_rows 5 2 = 1 ∧ start 5 2 1 = 1 ∧ rows 5 2 1 = 3 ∧
      (in_range 5 2 0 1 ∧ in_range 5 2 1 1) ∧
      (¬ in_range 5 2 0 4 ∧ ¬ in_range 5 2 1 4) ∧
      start 5 3 1 = -1 := by
  decide

end DDFCpp

/-! ### The frame of a worker -/

theorem inRows_range (W C lo hi i : Nat) (h : InRows W C lo hi i) :
    lo * W * C ≤ i ∧ i < hi * W * C := by
  obtain ⟨y, h1, h2, x, hx, c, hc, rfl⟩ := h
  constructor
  · unfold sampleIndex
    have : lo * W ≤ y * W := Nat.mul_le_mul_right W h1
    have : lo * W * C ≤ (y * W + x) * C := Nat.mul_le_mul_right C (by omega)
    omega
  · have := sampleIndex_lt W hi C x y c hx h2 hc
    rw [Nat.mul_comm W hi] at this
    exact this

/-- A transformer that writes only the indices selected by `P` leaves every other sample
of the buffer, and the length of the buffer, as they were. -/
theorem WritesOn.frame {F : List Nat → Option (List Nat)} {ok : Prop} {P : Nat → Prop}
    {g : Nat → Nat} (out out' : List Nat) (h : WritesOn out.length F ok P g)
    (e : F out = some out') :
    out'.length = out.length ∧ ∀ i, ¬ P i → out'.getD i 0 = out.getD i 0 := by
  obtain ⟨h1, h2⟩ := h out rfl
  by_cases hok : ok
  · obtain ⟨o, e', hl, -, hk⟩ := h2 hok
    rw [e] at e'
    rw [← Option.some.inj e'] at hl hk
    refine ⟨hl, fun i hP => ?_⟩
    by_cases hi : i < out.length
    · exact hk i hi hP
    · rw [List.getD_eq_default _ _ (by omega), List.getD_eq_default _ _ (by omega)]
  · rw [h1 hok] at e
    exact absurd e (by simp)

namespace MMFThread

theorem apply_median_filter_section_frame (p : FilterParams) (output out' : List Nat)
    (e : apply_median_filter_section p output = some out') :
    out'.length = output.length ∧
      ∀ i, ¬ (p.start_row * p.width * p.channels ≤ i ∧ i < p.end_row * p.width * p.channels) →
        out'.getD i 0 = output.getD i 0 := by
  obtain ⟨hl, hk⟩ := WritesOn.frame output out'
    (apply_median_filter_section_writes output.length p) e
  exact ⟨hl, fun i hi => hk i (fun hP => hi (inRows_range _ _ _ _ _ hP))⟩

theorem apply_median_filter_section_defined (p : FilterParams) (output : List Nat)
    (hfit : rows_fit p p.start_row p.end_row) :
    ∃ out', apply_median_filter_section p output = some out' := by
  obtain ⟨-, h2⟩ := apply_median_filter_section_writes output.length p output rfl
  obtain ⟨out', e, -⟩ := h2 hfit
  exact ⟨out', e⟩

end MMFThread

namespace DDFThread

theorem ddf_iterate_frame (expf : ℚ → ℚ) (p : FilterParams) (k : Nat)
    (T0 output T o : List Nat)
    (h : (ddf_iteration expf p)^[k] (some (T0, output)) = some (T, o)) :
    o.length = output.length ∧
      ∀ i, ¬ InRows p.width p.channels p.start_row p.end_row i →
        o.getD i 0 = output.getD i 0 := by
  induction k generalizing T o with
  | zero =>
    rw [Function.iterate_zero, id_eq] at h
    have ho : output = o := congrArg Prod.snd (Option.some.inj h)
    rw [← ho]
    exact ⟨rfl, fun _ _ => rfl⟩
  | succ k ih =>
    rw [Function.iterate_succ_apply'] at h
    cases hprev : (ddf_iteration expf p)^[k] (some (T0, output)) with
    | none => rw [hprev] at h; exact absurd h (by simp [ddf_iteration])
    | some st =>
      obtain ⟨T1, o1⟩ := st
      obtain ⟨hlen, hkeep⟩ := ih T1 o1 hprev
      rw [hprev] at h
      unfold ddf_iteration at h
      simp only [Option.some_bind] at h
      cases hr : ddf_round expf p T1 o1 with
      | none => rw [hr] at h; exact absurd h (by simp)
      | some o2 =>
        rw [hr] at h
        simp only [Option.map_some', Option.some.injEq, Prod.mk.injEq] at h
        obtain ⟨-, ho⟩ := h
        rw [← ho]
        obtain ⟨hl2, hk2⟩ := WritesOn.frame o1 o2 (ddf_round_writes o1.length expf p T1) hr
        exact ⟨hl2.trans hlen, fun i hi => (hk2 i hi).trans (hkeep i hi)⟩

theorem apply_ddf_section_frame (expf : ℚ → ℚ) (p : FilterParams) (output out' : List Nat)
    (e : apply_ddf_section expf p output = some out') :
    out'.length = output.length ∧
      ∀ i, ¬ (p.start_row * p.width * p.channels ≤ i ∧ i < p.end_row * p.width * p.channels) →
        out'.getD i 0 = output.getD i 0 := by
  rw [apply_ddf_section_iterate] at e
  cases hst : (ddf_iteration expf p)^[p.iterations] (some (temp_init p, output)) with
  | none => rw [hst] at e; exact absurd e (by simp)
  | some st =>
    obtain ⟨T, o⟩ := st
    rw [hst] at e
    have ho : o = out' := Option.some.inj e
    obtain ⟨hl, hk⟩ := ddf_iterate_frame expf p _ _ output T o hst
    rw [ho] at hl hk
    exact ⟨hl, fun i hi => hk i (fun hP => hi (inRows_range _ _ _ _ _ hP))⟩

/-! #### The worker is defined when the square of `lambda` does not round to zero -/

theorem bytes_of_getD (T : List Nat) (h : ∀ i, T.getD i 0 ≤ 255) : ∀ b ∈ T, b ≤ 255 := by
  intro b hb
  obtain ⟨i, hi, rfl⟩ := List.getElem_of_mem hb
  have := h i
  rw [List.getD_eq_getElem _ _ hi] at this
  exact this

theorem ddf_store_defined (expf : ℚ → ℚ) (lambda : ℚ) (W H C : Nat) (T : List Nat)
    (x y c : Nat) (hT : ∀ i, T.getD i 0 ≤ 255) (hl : round32 (lambda * lambda) ≠ 0)
    (hexp : ∀ t, t ≤ 0 → 0 ≤ expf t ∧ expf t ≤ 1) :
    ∃ b, ddf_store expf lambda W H C T x y c = some b ∧ b ≤ 255 := by
  obtain ⟨v, e, h0, h1⟩ := ddf_value_bounds expf lambda W H C T x y c (bytes_of_getD T hT) hl hexp
  refine ⟨⌊v⌋.toNat, ?_, (to_uchar_of_range v h0 h1).2⟩
  unfold ddf_store
  rw [e]
  exact (to_uchar_of_range v h0 h1).1

theorem ddf_iteration_defined (expf : ℚ → ℚ) (p : FilterParams)
    (hl : round32 (p.lambda * p.lambda) ≠ 0) (hexp : ∀ t, t ≤ 0 → 0 ≤ expf t ∧ expf t ≤ 1)
    (T out : List Nat) (hT : ∀ i, T.getD i 0 ≤ 255) :
    ∃ T' out', ddf_iteration expf p (some (T, out)) = some (T', out') ∧
      ∀ i, T'.getD i 0 ≤ 255 := by
  obtain ⟨-, h2⟩ := ddf_round_writes out.length expf p T out rfl
  have hok : round_ok expf p.lambda p.width p.height p.channels T p.start_row p.end_row := by
    intro y _ _ x _ c _
    obtain ⟨b, e, -⟩ := ddf_store_defined expf p.lambda p.width p.height p.channels T x y c
      hT hl hexp
    rw [e]
    rfl
  obtain ⟨out', e, hlen, hw, -⟩ := h2 hok
  refine ⟨memcpy_at T out' (p.start_row * p.width * p.channels)
    ((p.end_row - p.start_row) * p.width * p.channels), out', ?_, ?_⟩
  · unfold ddf_iteration
    simp only [Option.some_bind, e, Option.map_some']
  intro i
  by_cases hi : i < T.length
  · rw [memcpy_at_getD _ _ _ _ _ hi]
    split_ifs with hr
    · by_cases hio : i < out.length
      · have hle : p.start_row ≤ p.end_row := by
          by_contra hcon
          have : p.end_row - p.start_row = 0 := by omega
          rw [this] at hr
          omega
        have e2 : p.start_row * p.width * p.channels +
            (p.end_row - p.start_row) * p.width * p.channels =
            p.end_row * p.width * p.channels := by
          rw [← Nat.add_mul, ← Nat.add_mul, Nat.add_sub_cancel' hle]
        have hP := inRows_of_range p.width p.channels p.start_row p.end_row i hr.1 (by omega)
        rw [hw i hio hP]
        obtain ⟨y, -, -, x, hx, c, hc, rfl⟩ := hP
        rw [ddf_at_sampleIndex _ _ _ _ _ _ _ _ _ hx hc]
        obtain ⟨b, e, hb⟩ := ddf_store_defined expf p.lambda p.width p.height p.channels T
          x y c hT hl hexp
        rw [e]
        exact hb
      · rw [List.getD_eq_default _ _ (by omega)]
        omega
    · exact hT i
  · rw [List.getD_eq_default _ _ (by rw [memcpy_at_length]; omega)]
    omega

theorem ddf_iterate_defined (expf : ℚ → ℚ) (p : FilterParams)
    (hl : round32 (p.lambda * p.lambda) ≠ 0) (hexp : ∀ t, t ≤ 0 → 0 ≤ expf t ∧ expf t ≤ 1) (k : Nat)
    (T out : List Nat) (hT : ∀ i, T.getD i 0 ≤ 255) :
    ∃ T' out', (ddf_iteration expf p)^[k] (some (T, out)) = some (T', out') ∧
      ∀ i, T'.getD i 0 ≤ 255 := by
  induction k generalizing T out with
  | zero => exact ⟨T, out, rfl, hT⟩
  | succ k ih =>
    obtain ⟨T1, o1, e1, h1⟩ := ddf_iteration_defined expf p hl hexp T out hT
    obtain ⟨T2, o2, e2, h2⟩ := ih T1 o1 h1
    exact ⟨T2, o2, by rw [Function.iterate_succ_apply, e1, e2], h2⟩

/-- With `lambda ≠ 0`, an input of bytes and an `expf` with values in `[0, 1]` on the
non-positive numbers, every store of every round of a worker is defined. -/
theorem apply_ddf_section_defined (expf : ℚ → ℚ) (p : FilterParams) (output : List Nat)
    (hl : round32 (p.lambda * p.lambda) ≠ 0) (hexp : ∀ t, t ≤ 0 → 0 ≤ expf t ∧ expf t ≤ 1)
    (hb : ∀ b ∈ p.input, b ≤ 255) :
    ∃ out', apply_ddf_section expf p output = some out' := by
  have hT : ∀ i, (temp_init p).getD i 0 ≤ 255 := by
    intro i
    by_cases hi : i < p.width * p.height * p.channels
    · rw [temp_init_getD p i hi]
      exact getD_le_of_bytes p.input hb i
    · rw [List.getD_eq_default _ _ (by rw [temp_init_length]; omega)]
      omega
  obtain ⟨T', out', e, -⟩ := ddf_iterate_defined expf p hl hexp p.iterations (temp_init p)
    output hT
  exact ⟨out', by rw [apply_ddf_section_iterate, e]; rfl⟩

end DDFThread

/-- C16: a worker of the median filter and a worker of the shared-memory diffusion filter
whose bands lie inside the image (`start_row ≤ end_row ≤ height`) return an output buffer
of the same length that differs from the one they received only at sample indices of
`[start_row * W * C, end_row * W * C)`; the result is defined when no window of the band
overruns, respectively when the square of `lambda`, rounded to `float`, is not zero on an
image of bytes.  The input buffer is only
read: the result of a worker consists of the output buffer alone. -/
theorem workers_write_only_their_band (pm : MMFThread.FilterParams)
    (pd : DDFThread.FilterParams) (expf : ℚ → ℚ) (outm outd : List Nat)
    (_hm : pm.start_row ≤ pm.end_row ∧ pm.end_row ≤ pm.height)
    (_hd : pd.start_row ≤ pd.end_row ∧ pd.end_row ≤ pd.height) :
    (∀ out', MMFThread.apply_median_filter_section pm outm = some out' →
      out'.length = outm.length ∧
      ∀ i, ¬ (pm.start_row * pm.width * pm.channels ≤ i ∧
          i < pm.end_row * pm.width * pm.channels) → out'.getD i 0 = outm.getD i 0) ∧
    (MMFThread.rows_fit pm pm.start_row pm.end_row →
      ∃ out', MMFThread.apply_median_filter_section pm outm = some out') ∧
    (∀ out', DDFThread.apply_ddf_section expf pd outd = some out' →
      out'.length = outd.length ∧
      ∀ i, ¬ (pd.start_row * pd.width * pd.channels ≤ i ∧
          i < pd.end_row * pd.width * pd.channels) → out'.getD i 0 = outd.getD i 0) ∧
    (round32 (pd.lambda * pd.lambda) ≠ 0 → (∀ t, t ≤ 0 → 0 ≤ expf t ∧ expf t ≤ 1) →
      (∀ b ∈ pd.input, b ≤ 255) →
      ∃ out', DDFThread.apply_ddf_section expf pd outd = some out') :=
  ⟨fun out' e => MMFThread.apply_median_filter_section_frame pm outm out' e,
    fun hfit => MMFThread.apply_median_filter_section_defined pm outm hfit,
    fun out' e => DDFThread.apply_ddf_section_frame expf pd outd out' e,
    fun hl hexp hb => DDFThread.apply_ddf_section_defined expf pd outd hl hexp hb⟩

/-- Witness of C16: worker 0 of two on the 4x4 checkerboard (`window_size = 3`, rows
`[0, 2)`) and worker 0 of two on the 1x2 image `[0, 40]` (two iterations, row `[0, 1)`),
each on an output buffer of 9s. -/
theorem workers_write_only_their_band_witness :
    (([200, 200, 200, 200, 200, 10, 200, 200, 9, 9, 9, 9, 9, 9, 9, 9] : List Nat).length =
        (List.replicate 16 9).length ∧
      ([200, 200, 200, 200, 200, 10, 200, 200, 9, 9, 9, 9, 9, 9, 9, 9] : List Nat).getD 8 0 =
        (List.replicate 16 9).getD 8 0) ∧
    (∃ out', MMFThread.apply_median_filter_section
      (MMFThread.worker_params MMFThread.checkerboard 4 4 1 3 2 0) (List.replicate 16 9) =
        some out') ∧
    (([17, 9] : List Nat).length = ([9, 9] : List Nat).length ∧
      ([17, 9] : List Nat).getD 1 0 = ([9, 9] : List Nat).getD 1 0) ∧
    (∃ out', DDFThread.apply_ddf_section DDFThread.expf_near_zero
      (DDFThread.worker_params [0, 40] 1 2 1 2 1000000000 2 0) [9, 9] = some out') :=
  ⟨⟨((workers_write_only_their_band
        (MMFThread.worker_params MMFThread.checkerboard 4 4 1 3 2 0)
        (DDFThread.worker_params [0, 40] 1 2 1 2 1000000000 2 0) DDFThread.expf_near_zero
        (List.replicate 16 9) [9, 9] (by decide) (by decide)).1 _ (by decide)).1,
      ((workers_write_only_their_band
        (MMFThread.worker_params MMFThread.checkerboard 4 4 1 3 2 0)
        (DDFThread.worker_params [0, 40] 1 2 1 2 1000000000 2 0) DDFThread.expf_near_zero
        (List.replicate 16 9) [9, 9] (by decide) (by decide)).1 _ (by decide)).2 8 (by decide)⟩,
    (workers_write_only_their_band
        (MMFThread.worker_params MMFThread.checkerboard 4 4 1 3 2 0)
        (DDFThread.worker_params [0, 40] 1 2 1 2 1000000000 2 0) DDFThread.expf_near_zero
        (List.replicate 16 9) [9, 9] (by decide) (by decide)).2.1 (MMFThread.rows_fit_of_odd _ _ _ rfl),
    ⟨((workers_write_only_their_band
        (MMFThread.worker_params MMFThread.checkerboard 4 4 1 3 2 0)
        (DDFThread.worker_params [0, 40] 1 2 1 2 1000000000 2 0) DDFThread.expf_near_zero
        (List.replicate 16 9) [9, 9] (by decide) (by decide)).2.2.1 _ (by decide!)).1,
      ((workers_write_only_their_band
        (MMFThread.worker_params MMFThread.checkerboard 4 4 1 3 2 0)
        (DDFThread.worker_params [0, 40] 1 2 1 2 1000000000 2 0) DDFThread.expf_near_zero
        (List.replicate 16 9) [9, 9] (by decide) (by decide)).2.2.1 _ (by decide!)).2 1 (by decide)⟩,
    (workers_write_only_their_band
        (MMFThread.worker_params MMFThread.checkerboard 4 4 1 3 2 0)
        (DDFThread.worker_params [0, 40] 1 2 1 2 1000000000 2 0) DDFThread.expf_near_zero
        (List.replicate 16 9) [9, 9] (by decide) (by decide)).2.2.2 (by decide!)
      (fun t _ => DDFThread.expf_near_zero_range t) (by decide)⟩

/-! ### The diffusion program and `lambda = 0` -/

theorem forLoop_first {σ : Type} (n : Nat) (body : Nat → σ → σ) (s : σ) :
    forLoop 0 (n + 1) body s = forLoop 1 (n + 1) body (body 0 s) := by
  unfold forLoop
  simp [List.range'_succ]

namespace DDFThread

/-- With `lambda = 0` the conductance of a zero gradient is `expf(0 / 0)`, a NaN. -/
theorem conductance_zero_zero (expf : ℚ → ℚ) : conductance expf 0 0 = none := by
  have h0 : ¬ (0 : ℚ) > FLT_MAX := not_lt.2 (le_trans (by norm_num) FLT_MAX_large)
  unfold conductance
  simp only [mul_zero, round32_zero, if_neg h0, if_true]

/-- With `lambda = 0` the store at a pixel of the first column is undefined: the pixel has
no west neighbour, `deltaW` is 0 and `cW` is NaN. -/
theorem ddf_store_lambda_zero (expf : ℚ → ℚ) (W H C : Nat) (temp : List Nat) (y c : Nat) :
    ddf_store expf 0 W H C temp 0 y c = none := by
  unfold ddf_store ddf_value
  have hW : ∀ a b : Nat, conductance expf (delta (0 > 0) a b) 0 = none := by
    intro a b
    have e : delta (0 > 0) a b = 0 := by simp [delta]
    rw [e]
    exact conductance_zero_zero expf
  simp only [hW]
  rcases conductance expf (delta (y > 0) (temp.getD (((y - 1) * W + 0) * C + c) 0)
    (temp.getD ((y * W + 0) * C + c) 0)) 0 with _ | cN
  · rfl
  rcases conductance expf (delta ((y : Int) < (H : Int) - 1)
    (temp.getD (((y + 1) * W + 0) * C + c) 0) (temp.getD ((y * W + 0) * C + c) 0)) 0 with _ | cS
  · rfl
  rcases conductance expf (delta (((0 : Nat) : Int) < (W : Int) - 1)
    (temp.getD ((y * W + (0 + 1)) * C + c) 0) (temp.getD ((y * W + 0) * C + c) 0)) 0 with _ | cE
  · rfl
  rfl

theorem ddf_round_lambda_zero (expf : ℚ → ℚ) (p : FilterParams) (temp output : List Nat)
    (hl : p.lambda = 0) (hrows : p.start_row < p.end_row) (hW : 1 ≤ p.width)
    (hC : 1 ≤ p.channels) : ddf_round expf p temp output = none := by
  apply (ddf_round_writes output.length expf p temp output rfl).1
  intro hok
  have := hok p.start_row (Nat.le_refl _) hrows 0 hW 0 hC
  rw [hl, ddf_store_lambda_zero] at this
  exact absurd this (by decide)

theorem ddf_iteration_iterate_none (expf : ℚ → ℚ) (p : FilterParams) (k : Nat) :
    (ddf_iteration expf p)^[k] none = none := by
  induction k with
  | zero => rfl
  | succ k ih => rw [Function.iterate_succ_apply]; exact ih

theorem apply_ddf_section_lambda_zero (expf : ℚ → ℚ) (p : FilterParams) (output : List Nat)
    (hl : p.lambda = 0) (hrows : p.start_row < p.end_row) (hW : 1 ≤ p.width)
    (hC : 1 ≤ p.channels) (hi : 1 ≤ p.iterations) :
    apply_ddf_section expf p output = none := by
  rw [apply_ddf_section_iterate]
  obtain ⟨k, hk⟩ : ∃ k, p.iterations = k + 1 := ⟨p.iterations - 1, by omega⟩
  rw [hk, Function.iterate_succ_apply]
  have : ddf_iteration expf p (some (temp_init p, output)) = none := by
    unfold ddf_iteration
    simp only [Option.some_bind]
    rw [ddf_round_lambda_zero expf p _ _ hl hrows hW hC]
    rfl
  rw [this, ddf_iteration_iterate_none]
  rfl

/-- With `lambda = 0` the workers of a non-empty image have no defined result: the first
worker evaluates `conductance(0, 0)` at the first pixel of its band. -/
theorem parallel_ddf_filter_lambda_zero (expf : ℚ → ℚ) (input output : List Nat)
    (W H C iterations N : Nat) (hW : 1 ≤ W) (hC : 1 ≤ C) (hN : 1 ≤ N) (hNH : N ≤ H)
    (hi : 1 ≤ iterations) :
    parallel_ddf_filter expf input output W H C iterations 0 N = none := by
  unfold parallel_ddf_filter
  obtain ⟨n, rfl⟩ : ∃ n, N = n + 1 := ⟨N - 1, by omega⟩
  rw [forLoop_first]
  have h0 : apply_ddf_section expf (worker_params input W H C iterations 0 (n + 1) 0) output
      = none := by
    apply apply_ddf_section_lambda_zero
    · rfl
    · show start_row H (n + 1) 0 < end_row H (n + 1) 0
      unfold start_row end_row rows_per_thread
      have : 1 ≤ H / (n + 1) := (Nat.le_div_iff_mul_le (by omega)).2 (by omega)
      split_ifs <;> omega
    · exact hW
    · exact hC
    · exact hi
  rw [Option.some_bind, h0]
  exact forLoop_strict _ _ _ (fun _ _ _ => rfl)

end DDFThread

/-- C18, as the code has it: `main` of `DDF-thread.c` does not look at the value of
`lambda`.  With six arguments and an image that loads, for every `lambda` (zero included)
it loads the image, runs `parallel_ddf_filter` with that `lambda` and writes the image;
and for `lambda = 0`, on every image of at least one pixel with `iterations ≥ 1` and
`1 ≤ num_nodes ≤ height`, the workers evaluate `conductance(0, 0)`, a division of zero by
`lambda * lambda = 0`, and their result is undefined. -/
theorem DDFThread.main_runs_workers_for_every_lambda (expf : ℚ → ℚ) (image : Image)
    (iterations : Nat) (lambda : ℚ) (num_nodes : Nat) (output : List Nat)
    (stbi_write_png : Bool) :
    (DDFThread.main expf 6 (some image) iterations lambda num_nodes output
        stbi_write_png).events =
      [Event.load,
        Event.workers (DDFThread.parallel_ddf_filter expf image.data output image.width
          image.height image.channels iterations lambda num_nodes),
        Event.save] ∧
    (lambda = 0 → 1 ≤ image.width → 1 ≤ image.channels → 1 ≤ num_nodes →
      num_nodes ≤ image.height → 1 ≤ iterations →
      DDFThread.conductance expf 0 lambda = none ∧
      (DDFThread.main expf 6 (some image) iterations lambda num_nodes output
        stbi_write_png).events = [Event.load, Event.workers none, Event.save]) := by
  have e : (DDFThread.main expf 6 (some image) iterations lambda num_nodes output
        stbi_write_png).events =
      [Event.load,
        Event.workers (DDFThread.parallel_ddf_filter expf image.data output image.width
          image.height image.channels iterations lambda num_nodes),
        Event.save] := by
    unfold DDFThread.main
    cases stbi_write_png <;> simp
  refine ⟨e, ?_⟩
  intro hl hW hC hN hNH hi
  subst hl
  rw [e, DDFThread.parallel_ddf_filter_lambda_zero expf _ _ _ _ _ _ _ hW hC hN hNH hi]
  exact ⟨DDFThread.conductance_zero_zero expf, rfl⟩

/-- Witness of C18: the 1x2 image `[0, 40]`, two iterations, two workers, `lambda = 0`. -/
theorem DDFThread.main_runs_workers_for_every_lambda_witness :
    DDFThread.conductance DDFThread.expf_near_zero 0 0 = none ∧
      (DDFThread.main DDFThread.expf_near_zero 6 (some ⟨[0, 40], 1, 2, 1⟩) 2 0 2 [9, 9]
        true).events = [Event.load, Event.workers none, Event.save] :=
  (DDFThread.main_runs_workers_for_every_lambda DDFThread.expf_near_zero ⟨[0, 40], 1, 2, 1⟩
    2 0 2 [9, 9] true).2 rfl (by decide) (by decide) (by decide) (by decide) (by decide)

/-- C18 fails: with `lambda = 0` (command line `in.png out.png 1 0 1`) and the 1x1 image
`[7]`, `main` of `DDF-thread.c` prints no message and returns no error before the workers:
it loads the image, runs the worker, whose `conductance(0, 0)` divides by
`lambda * lambda = 0`, and writes the image. -/
theorem DDFThread.main_lambda_zero_runs_workers :
    (DDFThread.main DDFThread.expf_near_zero 6 (some ⟨[7], 1, 1, 1⟩) 1 0 1 [0] true).events =
        [Event.load, Event.workers none, Event.save] ∧
      Event.usage ∉
        (DDFThread.main DDFThread.expf_near_zero 6 (some ⟨[7], 1, 1, 1⟩) 1 0 1 [0] true).events ∧
      DDFThread.parallel_ddf_filter DDFThread.expf_near_zero [7] [0] 1 1 1 1 0 1 = none ∧
      DDFThread.conductance DDFThread.expf_near_zero 0 0 = none := by
  decide!

/-! ### The exit codes of the programs -/

/-- The exit code of `main` of `DDF-thread.c` for `num_nodes ≥ 1`: 1 exactly when the
argument count is not 6, the image does not load or the image is not written, and 0
otherwise; with a wrong argument count nothing but the usage message happens, and when the
image does not load no worker runs. -/
theorem DDFThread.ddf_thread_main_exit_code (expf : ℚ → ℚ) (argc : Nat) (stbi_load : Option Image)
    (iterations : Nat) (lambda : ℚ) (num_nodes : Nat) (output : List Nat)
    (stbi_write_png : Bool) (_hn : 1 ≤ num_nodes) :
    ((DDFThread.main expf argc stbi_load iterations lambda num_nodes output
        stbi_write_png).exit_code = 1 ↔
      (argc ≠ 6 ∨ stbi_load = none ∨ stbi_write_png = false)) ∧
    ((DDFThread.main expf argc stbi_load iterations lambda num_nodes output
        stbi_write_png).exit_code = 0 ↔
      ¬ (argc ≠ 6 ∨ stbi_load = none ∨ stbi_write_png = false)) ∧
    (argc ≠ 6 →
      (DDFThread.main expf argc stbi_load iterations lambda num_nodes output
        stbi_write_png).events = [Event.usage]) ∧
    (argc = 6 → stbi_load = none →
      (DDFThread.main expf argc stbi_load iterations lambda num_nodes output
        stbi_write_png).events = [Event.load]) := by
  unfold DDFThread.main
  by_cases ha : argc = 6
  · cases stbi_load <;> cases stbi_write_png <;> simp [ha]
  · simp [ha]

/-- The exit code of `main` of `MMF-thread.c` for `num_nodes ≥ 1`: 1 exactly when the
argument count is not 5, the image does not load or the image is not written, and 0
otherwise; with a wrong argument count nothing but the usage message happens, and when the
image does not load no worker runs. -/
theorem MMFThread.mmf_thread_main_exit_code (argc : Nat) (stbi_load : Option Image)
    (window_size num_nodes : Nat) (output : List Nat) (stbi_write_png : Bool)
    (_hn : 1 ≤ num_nodes) :
    ((MMFThread.main argc stbi_load window_size num_nodes output stbi_write_png).exit_code = 1 ↔
      (argc ≠ 5 ∨ stbi_load = none ∨ stbi_write_png = false)) ∧
    ((MMFThread.main argc stbi_load window_size num_nodes output stbi_write_png).exit_code = 0 ↔
      ¬ (argc ≠ 5 ∨ stbi_load = none ∨ stbi_write_png = false)) ∧
    (argc ≠ 5 →
      (MMFThread.main argc stbi_load window_size num_nodes output stbi_write_png).events =
        [Event.usage]) ∧
    (argc = 5 → stbi_load = none →
      (MMFThread.main argc stbi_load window_size num_nodes output stbi_write_png).events =
        [Event.load]) := by
  unfold MMFThread.main
  by_cases ha : argc = 5
  · cases stbi_load <;> cases stbi_write_png <;> simp [ha]
  · simp [ha]

/-- The exit code of `main` of `DDF.cpp` and of `MMF.cpp` is never 1: it is -1 when the
argument count is wrong or the image does not load, and 0 otherwise, whether the image is
written or not. -/
theorem cpp_main_exit_code (argc : Nat) (imread : Option Image) (filtered : Option (List Nat))
    (imwrite : Bool) :
    ((DDFCpp.main argc imread filtered imwrite).exit_code ≠ 1 ∧
      ((DDFCpp.main argc imread filtered imwrite).exit_code = -1 ↔
        (argc ≠ 5 ∨ imread = none)) ∧
      ((DDFCpp.main argc imread filtered imwrite).exit_code = 0 ↔
        ¬ (argc ≠ 5 ∨ imread = none))) ∧
    ((MMFCpp.main argc imread filtered imwrite).exit_code ≠ 1 ∧
      ((MMFCpp.main argc imread filtered imwrite).exit_code = -1 ↔
        (argc ≠ 4 ∨ imread = none)) ∧
      ((MMFCpp.main argc imread filtered imwrite).exit_code = 0 ↔
        ¬ (argc ≠ 4 ∨ imread = none))) := by
  unfold DDFCpp.main MMFCpp.main
  constructor
  · by_cases ha : argc = 5
    · cases imread <;> simp [ha]
    · simp [ha]
  · by_cases ha : argc = 4
    · cases imread <;> simp [ha]
    · simp [ha]

/-- C19 at failing inputs: `main` of `DDF.cpp` and of `MMF.cpp` called with no argument
after the program name (`argc = 1`) returns -1, not 1; when the image does not load it
calls `MPI_Abort` with -1; and when the image loads and writing it fails it returns 0. -/
theorem cpp_main_exit_codes_differ :
    (DDFCpp.main 1 none none true = ⟨-1, [Event.usage]⟩ ∧
      DDFCpp.main 5 none none true = ⟨-1, [Event.load, Event.abort]⟩ ∧
      DDFCpp.main 5 (some ⟨[7], 1, 1, 1⟩) (some [7]) false =
        ⟨0, [Event.load, Event.workers (some [7]), Event.save]⟩) ∧
    (MMFCpp.main 1 none none true = ⟨-1, [Event.usage]⟩ ∧
      MMFCpp.main 4 none none true = ⟨-1, [Event.load, Event.abort]⟩ ∧
      MMFCpp.main 4 (some ⟨[7, 7, 7], 1, 1, 3⟩) (some [7, 7, 7]) false =
        ⟨0, [Event.load, Event.workers (some [7, 7, 7]), Event.save]⟩) ∧
    (DDFThread.main DDFThread.expf_near_zero 1 none 1 1 1 [] true = ⟨1, [Event.usage]⟩ ∧
      (DDFThread.main DDFThread.expf_near_zero 6 (some ⟨[7], 1, 1, 1⟩) 0 1 1 [0]
        false).exit_code = 1) := by
  decide

/-! ### The kernel of `MMF.c` and the kernel of `MMF-thread.c` -/

namespace MMFC

/-- The 3x3 window of `MMF.c` gathers what the window of `MMF-thread.c` gathers for
`window_size = 3`, in the same order. -/
theorem gather_window_thread (input : List Nat) (W H C x y c : Nat) :
    gather_window input W H C x y c =
      MMFThread.gather_window (MMFThread.single_params input W H C 3) x y c := by
  unfold gather_window MMFThread.gather_window MMFThread.single_params
  simp only []
  congr 1
  funext wy window
  congr 1
  funext wx window
  split_ifs <;> first | rfl | (exfalso; omega)

/-- The value returned by `find_median` on the whole of a window is the element of index
`count / 2` of the window ordered by `qsort`. -/
theorem find_median_qsort (window : List Nat) :
    (find_median window window.length).2 =
      (MMFThread.qsort window).getD (window.length / 2) 0 := by
  rcases Nat.eq_zero_or_pos window.length with h | h
  · rw [List.length_eq_zero.1 h]
    rfl
  · apply find_median_rank window window.length h (Nat.le_refl _) _
      (MMFThread.qsort_sorted window)
    rw [List.take_length]
    exact MMFThread.qsort_perm window

theorem mmf_pixel_thread (input : List Nat) (W H C x y c : Nat) (output : List Nat) :
    mmf_pixel input W H C x y c output =
      MMFThread.median_pixel (MMFThread.single_params input W H C 3) x y c output := by
  unfold mmf_pixel MMFThread.median_pixel
  simp only []
  rw [gather_window_thread, find_median_qsort]
  rfl

theorem apply_mmf_section_thread (input output : List Nat) (W H C : Nat) :
    apply_mmf_section input output W H C =
      MMFThread.apply_median_filter_section (MMFThread.single_params input W H C 3)
        output := by
  unfold apply_mmf_section MMFThread.apply_median_filter_section
  simp only [mmf_pixel_thread]
  rfl

/-- C21: on every image, and every output buffer, `apply_mmf_section` of `MMF.c` (3x3
window, exchange sort in `find_median`) returns what `apply_median_filter_section` of
`MMF-thread.c` (`qsort`) returns with `window_size = 3`, `start_row = 0` and
`end_row = height`, and this result is defined: no window overruns its 9 bytes. -/
theorem apply_mmf_section_eq_thread_kernel (input output : List Nat) (W H C : Nat) :
    apply_mmf_section input output W H C =
        MMFThread.apply_median_filter_section
          { input := input, width := W, height := H, channels := C, window_size := 3,
            start_row := 0, end_row := H } output ∧
      ∃ out', apply_mmf_section input output W H C = some out' := by
  refine ⟨apply_mmf_section_thread input output W H C, ?_⟩
  rw [apply_mmf_section_thread]
  exact MMFThread.apply_median_filter_section_defined _ output
    (MMFThread.rows_fit_of_odd _ _ _ (show (3 : Nat) % 2 = 1 from rfl))

set_option maxRecDepth 20000 in
/-- The two kernels on the 3x3 image of the samples 9, 8, .., 1. -/
theorem apply_mmf_section_example :
    apply_mmf_section [9, 8, 7, 6, 5, 4, 3, 2, 1] (List.replicate 9 0) 3 3 1 =
        some [8, 7, 7, 6, 5, 5, 5, 4, 4] ∧
      MMFThread.apply_median_filter_section
        (MMFThread.single_params [9, 8, 7, 6, 5, 4, 3, 2, 1] 3 3 1 3) (List.replicate 9 0) =
        some [8, 7, 7, 6, 5, 5, 5, 4, 4] := by
  decide

end MMFC

/-! ### The kernels of `MMF.c` and `DDF.c` on a section -/

theorem forLoop_append_flatMap {β : Type} (lo hi : Nat) (L : Nat → List β) (w0 : List β) :
    forLoop lo hi (fun i acc => acc ++ L i) w0 = w0 ++ (List.range' lo (hi - lo)).flatMap L := by
  unfold forLoop
  exact foldl_append_flatMap _ L w0

/-- The stores of a kernel that runs the three loops over `y`, `x` and `c`: one store for
each sample of the `W x H x C` image. -/
theorem mem_pixel_indices (W H C i : Nat) :
    i ∈ forLoop 0 H (fun y acc =>
        forLoop 0 W (fun x acc =>
          forLoop 0 C (fun c acc => acc ++ [(y * W + x) * C + c]) acc) acc) [] ↔
      ∃ y, y < H ∧ ∃ x, x < W ∧ ∃ c, c < C ∧ i = (y * W + x) * C + c := by
  have e : (fun (y : Nat) (acc : List Nat) =>
      forLoop 0 W (fun x acc =>
        forLoop 0 C (fun c acc => acc ++ [(y * W + x) * C + c]) acc) acc) =
      (fun y acc => acc ++ (List.range' 0 (W - 0)).flatMap (fun x =>
        (List.range' 0 (C - 0)).flatMap (fun c => [(y * W + x) * C + c]))) := by
    funext y acc
    have e2 : (fun (x : Nat) (acc : List Nat) =>
        forLoop 0 C (fun c acc => acc ++ [(y * W + x) * C + c]) acc) =
        (fun x acc => acc ++ (List.range' 0 (C - 0)).flatMap
          (fun c => [(y * W + x) * C + c])) := by
      funext x acc
      exact forLoop_append_flatMap 0 C (fun c => [(y * W + x) * C + c]) acc
    rw [e2]
    exact forLoop_append_flatMap 0 W _ acc
  rw [e, forLoop_append_flatMap]
  simp only [List.nil_append, List.mem_flatMap, List.mem_range'_1, Nat.sub_zero,
    Nat.zero_add, Nat.zero_le, true_and, List.mem_singleton]

/-- With two or more processes a section is shorter than the image. -/
theorem section_size_lt (W H C K : Nat) (hW : 1 ≤ W) (hH : 1 ≤ H) (hC : 1 ≤ C) (hK : 2 ≤ K) :
    section_size W H C K ≤ W * H * C - 1 := by
  unfold section_size
  have hpos : 1 ≤ W * H * C := Nat.mul_pos (Nat.mul_pos hW hH) hC
  have h1 : W * H * C / K ≤ W * H * C / 2 := Nat.div_le_div_left hK (by decide)
  have h2 : W * H * C / 2 < W * H * C := Nat.div_lt_self hpos (by decide)
  omega

/-- Called with the dimensions of the whole image, as `main` does, each kernel stores at
the index of the last sample of the image, which no section of two or more processes
has. -/
theorem kernel_stores_beyond_section (W H C K : Nat) (hW : 1 ≤ W) (hH : 1 ≤ H)
    (hC : 1 ≤ C) (hK : 2 ≤ K) :
    W * H * C - 1 ∈ MMFC.output_indices W H C ∧ W * H * C - 1 ∈ DDFC.output_indices W H C ∧
      section_size W H C K ≤ W * H * C - 1 := by
  have hmem : ∃ y, y < H ∧ ∃ x, x < W ∧ ∃ c, c < C ∧
      W * H * C - 1 = (y * W + x) * C + c := by
    refine ⟨H - 1, by omega, W - 1, by omega, C - 1, by omega, ?_⟩
    obtain ⟨w, rfl⟩ : ∃ w, W = w + 1 := ⟨W - 1, by omega⟩
    obtain ⟨h, rfl⟩ : ∃ h, H = h + 1 := ⟨H - 1, by omega⟩
    obtain ⟨c, rfl⟩ : ∃ c, C = c + 1 := ⟨C - 1, by omega⟩
    simp only [Nat.add_sub_cancel]
    have : (w + 1) * (h + 1) * (c + 1) = (h * (w + 1) + w) * (c + 1) + c + 1 := by ring
    omega
  exact ⟨(mem_pixel_indices W H C _).2 hmem, (mem_pixel_indices W H C _).2 hmem,
    section_size_lt W H C K hW hH hC hK⟩

/-- C22 at a failing input: for a 2x2 single-channel image and 2 processes a section has
`section_size = 4 / 2 = 2` bytes, and the kernels, called with `width = 2` and
`height = 2`, store at the indices 0, 1, 2, 3 of the output section and load from the
indices 0 .. 3 of the input section: the indices 2 and 3 are outside the sections. -/
theorem section_kernel_indices_out_of_range :
    section_size 2 2 1 2 = 2 ∧
      MMFC.output_indices 2 2 1 = [0, 1, 2, 3] ∧
      DDFC.output_indices 2 2 1 = [0, 1, 2, 3] ∧
      MMFC.input_indices 2 2 1 = [0, 1, 2, 3, 0, 1, 2, 3, 0, 1, 2, 3, 0, 1, 2, 3] ∧
      DDFC.input_indices 2 2 1 = [0, 1, 2, 3, 0, 1, 2, 3, 0, 1, 2, 3, 0, 1, 2, 3] ∧
      ¬ (∀ i ∈ MMFC.output_indices 2 2 1, i < section_size 2 2 1 2) ∧
      ¬ (∀ i ∈ MMFC.input_indices 2 2 1, i < section_size 2 2 1 2) ∧
      ¬ (∀ i ∈ DDFC.output_indices 2 2 1, i < section_size 2 2 1 2) ∧
      ¬ (∀ i ∈ DDFC.input_indices 2 2 1, i < section_size 2 2 1 2) := by
  decide

/-! ### One round of the diffusion filter and the partition -/

/-- C23: with `iterations = 1`, `lambda ≠ 0`, `1 ≤ N ≤ H` workers and an output buffer of
`W * H * C` samples, `parallel_ddf_filter` returns what a single worker on the rows
`[0, H)` returns; every worker starts from the same private copy `temp` of the whole
input; and on an image of bytes, when the square of `lambda` rounded to `float` is not
zero and `expf` has values in `[0, 1]` on the non-positive numbers, the result is
defined. -/
theorem DDFThread.one_round_partition_independent (expf : ℚ → ℚ) (input output : List Nat)
    (W H C : Nat) (lambda : ℚ) (N : Nat) (hN : 1 ≤ N) (hNH : N ≤ H)
    (hout : output.length = W * H * C) (_hl : lambda ≠ 0) :
    DDFThread.parallel_ddf_filter expf input output W H C 1 lambda N =
        DDFThread.apply_ddf_section expf (DDFThread.single_params input W H C 1 lambda)
          output ∧
      (∀ i, DDFThread.temp_init (DDFThread.worker_params input W H C 1 lambda N i) =
          DDFThread.temp_init (DDFThread.single_params input W H C 1 lambda) ∧
        ∀ j, j < W * H * C →
          (DDFThread.temp_init (DDFThread.worker_params input W H C 1 lambda N i)).getD j 0 =
            input.getD j 0) ∧
      (round32 (lambda * lambda) ≠ 0 → (∀ t, t ≤ 0 → 0 ≤ expf t ∧ expf t ≤ 1) →
        (∀ b ∈ input, b ≤ 255) →
        ∃ out', DDFThread.parallel_ddf_filter expf input output W H C 1 lambda N =
          some out') := by
  have e := DDFThread.parallel_ddf_filter_one_single expf input output W H C lambda N hN hNH
    hout
  refine ⟨e, fun i => ⟨rfl, fun j hj => ?_⟩, fun hl hexp hb => ?_⟩
  · exact DDFThread.temp_init_getD (DDFThread.worker_params input W H C 1 lambda N i) j hj
  · rw [e]
    exact DDFThread.apply_ddf_section_defined expf
      (DDFThread.single_params input W H C 1 lambda) output hl hexp hb

/-- Witness of C23: the 1x2 image `[0, 40]`, `lambda = 1e9`, two workers. -/
theorem DDFThread.one_round_partition_independent_witness :
    DDFThread.parallel_ddf_filter DDFThread.expf_near_zero [0, 40] [9, 9] 1 2 1 1
        1000000000 2 =
        DDFThread.apply_ddf_section DDFThread.expf_near_zero
          (DDFThread.single_params [0, 40] 1 2 1 1 1000000000) [9, 9] ∧
      ∃ out', DDFThread.parallel_ddf_filter DDFThread.expf_near_zero [0, 40] [9, 9] 1 2 1 1
        1000000000 2 = some out' :=
  ⟨(DDFThread.one_round_partition_independent DDFThread.expf_near_zero [0, 40] [9, 9] 1 2 1
      1000000000 2 (by decide) (by decide) (by decide) (by norm_num)).1,
    (DDFThread.one_round_partition_independent DDFThread.expf_near_zero [0, 40] [9, 9] 1 2 1
      1000000000 2 (by decide) (by decide) (by decide) (by norm_num)).2.2 (by decide!)
      (fun t _ => DDFThread.expf_near_zero_range t) (by decide)⟩

/-- The round of the witness of C23: both partitions give `[10, 30]`. -/
theorem DDFThread.one_round_example :
    DDFThread.parallel_ddf_filter DDFThread.expf_near_zero [0, 40] [9, 9] 1 2 1 1
        1000000000 2 = some [10, 30] ∧
      DDFThread.apply_ddf_section DDFThread.expf_near_zero
        (DDFThread.single_params [0, 40] 1 2 1 1 1000000000) [9, 9] = some [10, 30] := by
  decide!

/-! ### The count of a median window -/

/-- The window of an in-bounds pixel holds the pixel's own sample: `count ≥ 1`, and the
index `count / 2` read after sorting is below `count`. -/
theorem MMFThread.gather_window_count (p : MMFThread.FilterParams) (x y c : Nat)
    (hx : x < p.width) (hy : y < p.height) :
    p.input.getD (sampleIndex p.width p.channels x y c) 0 ∈ MMFThread.gather_window p x y c ∧
      1 ≤ (MMFThread.gather_window p x y c).length ∧
      (MMFThread.gather_window p x y c).length / 2 < (MMFThread.gather_window p x y c).length ∧
      (MMFThread.gather_window p x y c).length / 2 <
        (MMFThread.qsort (MMFThread.gather_window p x y c)).length ∧
      (MMFThread.qsort (MMFThread.gather_window p x y c)).getD
        ((MMFThread.gather_window p x y c).length / 2) 0 ∈ MMFThread.gather_window p x y c := by
  have hmem := MMFThread.gather_window_mem p x y c x y
    (MMFThread.inWindow_self p.width p.height (p.window_size / 2) x y hx hy)
  have hpos : 0 < (MMFThread.gather_window p x y c).length := List.length_pos_of_mem hmem
  have hl : (MMFThread.qsort (MMFThread.gather_window p x y c)).length =
      (MMFThread.gather_window p x y c).length := (MMFThread.qsort_perm _).length_eq
  refine ⟨hmem, hpos, by omega, by omega, ?_⟩
  exact MMFThread.median_value_mem p x y c hx hy

/-- C24: for an in-bounds pixel `(x, y)` and every `window_size`, the kernel of
`MMF-thread.c` gathers the pixel's own sample, so `count ≥ 1`, the index `count / 2` is
below `count` (the length of the sorted window), and the element read there is one of the
gathered samples; the same holds for the 3x3 window of `apply_mmf_section` in `MMF.c` and
the value `find_median` returns. -/
theorem median_count_positive (p : MMFThread.FilterParams) (x y c : Nat)
    (hx : x < p.width) (hy : y < p.height) :
    (p.input.getD (sampleIndex p.width p.channels x y c) 0 ∈ MMFThread.gather_window p x y c ∧
      1 ≤ (MMFThread.gather_window p x y c).length ∧
      (MMFThread.gather_window p x y c).length / 2 < (MMFThread.gather_window p x y c).length ∧
      (MMFThread.gather_window p x y c).length / 2 <
        (MMFThread.qsort (MMFThread.gather_window p x y c)).length ∧
      (MMFThread.qsort (MMFThread.gather_window p x y c)).getD
        ((MMFThread.gather_window p x y c).length / 2) 0 ∈ MMFThread.gather_window p x y c) ∧
    (p.input.getD (sampleIndex p.width p.channels x y c) 0 ∈
        MMFC.gather_window p.input p.width p.height p.channels x y c ∧
      1 ≤ (MMFC.gather_window p.input p.width p.height p.channels x y c).length ∧
      (MMFC.gather_window p.input p.width p.height p.channels x y c).length / 2 <
        (MMFC.gather_window p.input p.width p.height p.channels x y c).length ∧
      (MMFC.find_median (MMFC.gather_window p.input p.width p.height p.channels x y c)
          (MMFC.gather_window p.input p.width p.height p.channels x y c).length).2 ∈
        MMFC.gather_window p.input p.width p.height p.channels x y c) := by
  refine ⟨MMFThread.gather_window_count p x y c hx hy, ?_⟩
  have h := MMFThread.gather_window_count
    (MMFThread.single_params p.input p.width p.height p.channels 3) x y c hx hy
  rw [MMFC.find_median_qsort, MMFC.gather_window_thread]
  exact ⟨h.1, h.2.1, h.2.2.1, h.2.2.2.2⟩

/-- Witness of C24: the corner `(0, 0)` of the 4x4 checkerboard with `window_size = 3`. -/
theorem median_count_positive_witness :
    1 ≤ (MMFThread.gather_window
        (MMFThread.single_params MMFThread.checkerboard 4 4 1 3) 0 0 0).length ∧
      1 ≤ (MMFC.gather_window MMFThread.checkerboard 4 4 1 0 0 0).length :=
  ⟨(median_count_positive (MMFThread.single_params MMFThread.checkerboard 4 4 1 3) 0 0 0
      (by decide) (by decide)).1.2.1,
    (median_count_positive (MMFThread.single_params MMFThread.checkerboard 4 4 1 3) 0 0 0
      (by decide) (by decide)).2.2.1⟩

/-! ### The output of the median filter and the samples of the input -/

/-- Where no window of the band overruns, the sample stored for a pixel of the band is the
input sample of the same channel at an in-bounds position within `window_size / 2` of the
pixel on both axes, and so lies between any two bounds of the input samples of that
channel. -/
theorem MMFThread.median_output_in_window (p : MMFThread.FilterParams) (output : List Nat)
    (x y c : Nat) (hout : output.length = p.width * p.height * p.channels)
    (hend : p.end_row ≤ p.height) (hfit : MMFThread.rows_fit p p.start_row p.end_row)
    (hy1 : p.start_row ≤ y) (hy2 : y < p.end_row) (hx : x < p.width) (hc : c < p.channels) :
    ∃ out', MMFThread.apply_median_filter_section p output = some out' ∧
      (∃ nx ny, InWindow p.width p.height (p.window_size / 2) x y nx ny ∧
        out'.getD (sampleIndex p.width p.channels x y c) 0 =
          p.input.getD (sampleIndex p.width p.channels nx ny c) 0) ∧
      ∀ lo hi : Nat,
        (∀ nx ny, nx < p.width → ny < p.height →
          lo ≤ p.input.getD (sampleIndex p.width p.channels nx ny c) 0 ∧
            p.input.getD (sampleIndex p.width p.channels nx ny c) 0 ≤ hi) →
        lo ≤ out'.getD (sampleIndex p.width p.channels x y c) 0 ∧
          out'.getD (sampleIndex p.width p.channels x y c) 0 ≤ hi := by
  obtain ⟨-, h2⟩ :=
    MMFThread.apply_median_filter_section_writes (p.width * p.height * p.channels) p output hout
  obtain ⟨out', e, -, hw, -⟩ := h2 hfit
  have hlt := sampleIndex_lt p.width p.height p.channels x y c hx (by omega) hc
  have hv := hw _ hlt ⟨y, hy1, hy2, x, hx, c, hc, rfl⟩
  rw [MMFThread.median_at_sampleIndex p x y c hx hc] at hv
  obtain ⟨nx, ny, hin, hval⟩ := MMFThread.mem_gather_window p x y c _
    (MMFThread.median_value_mem p x y c hx (by omega))
  refine ⟨out', e, ⟨nx, ny, hin, hv.trans hval⟩, ?_⟩
  intro lo hi hb
  rw [hv, hval]
  exact hb nx ny hin.1 hin.2.1

/-- C25 at a failing input: on the 3x2 single-channel image `[10, 20, 30, 40, 50, 60]`
with `window_size = 2` the pixel `(1, 0)` gathers the 6 samples of the image into the
4-byte window, the behaviour is undefined and the filter has no output sample to compare
with the input. -/
theorem MMFThread.median_even_window_no_output :
    (MMFThread.gather_window
        (MMFThread.single_params [10, 20, 30, 40, 50, 60] 3 2 1 2) 1 0 0).length = 6 ∧
      ¬ MMFThread.window_fits (MMFThread.single_params [10, 20, 30, 40, 50, 60] 3 2 1 2) 1 0 0 ∧
      MMFThread.parallel_median_filter [10, 20, 30, 40, 50, 60] (List.replicate 6 0)
        3 2 1 2 1 = none := by
  decide
